import Mathlib

/-!
# jellyfaas_cli: the JSON-schema inferencer of `entities/schema.go` and the
deployment poller of `cmd/jellyfaas.go`

A shallow embedding of `GenerateJsonSchemaFromJsonString`, `generateSchema` and
`getJSONType`, together with the parts of the Go standard library they run on
(`encoding/json` decoding with `UseNumber`, `strconv.ParseInt`,
`strconv.ParseFloat`, `reflect.TypeOf(..).Kind()`, `json.Marshal`,
`json.MarshalIndent`), and of `checkIfDeployedSuccessfully`, whose requests,
messages and pauses are recorded as a list of events.

The definitions of both packages come first, the theorems after them.
-/

set_option autoImplicit false
set_option exponentiation.threshold 100000

namespace entities

/-! ## Outcomes of a Go call -/

deriving instance DecidableEq for Except

/-- A Go call either returns its results or panics at run time. -/
inductive Outcome (α : Type) where
  | returned (a : α)
  | panicked
  deriving DecidableEq, Repr

/-! ## Decoded JSON values

`dec.Decode(&data)` with `data interface{}` and `dec.UseNumber()` stores one of:
`nil`, `bool`, `json.Number` (a string type holding the literal), `string`,
`[]interface{}` or `map[string]interface{}`. -/

/-- The dynamic values the decoder stores in an `interface{}`.  An object is the
association list of the map's entries, listed in the order in which the
`range` loop of `generateSchema` visits them (Go leaves that order
unspecified, so every arrangement of the entries is a possible map value). -/
inductive JValue where
  | null
  | bool (b : Bool)
  | number (lit : String)
  | string (s : String)
  | array (elems : List JValue)
  | object (entries : List (String × JValue))
  deriving Repr

/-- The values `generateSchema` stores in a `map[string]interface{}`: a string
(`"type"`), a `[]string` (`"required"`; the empty list stands for the nil slice,
the only empty slice the program builds), a nested map (`"properties"`,
`"items"`, a property schema), or the nil interface read from an absent key. -/
inductive GoValue where
  | nil
  | str (s : String)
  | strings (xs : List String)
  | map (m : List (String × GoValue))
  deriving Repr

/-- A `map[string]interface{}` as an association list with distinct keys. -/
abbrev GoMap := List (String × GoValue)

/-- The assignment `m[k] = v` on a map with string keys: overwrite the entry of
`k`, or add one. -/
def mapSet {α : Type} : List (String × α) → String → α → List (String × α)
  | [], k, v => [(k, v)]
  | (k0, v0) :: rest, k, v =>
    if k0 = k then (k, v) :: rest else (k0, v0) :: mapSet rest k v

/-- The two-result index expression `v, ok := m[k]`. -/
def mapLookup : GoMap → String → Option GoValue
  | [], _ => none
  | (k0, v0) :: rest, k => if k0 = k then some v0 else mapLookup rest k

/-- The index expression `m[k]`: the nil interface when `k` is absent. -/
def mapIndex (m : GoMap) (k : String) : GoValue :=
  match mapLookup m k with
  | some v => v
  | none => GoValue.nil

/-! ## `strconv.ParseInt(s, 10, 64)` and `strconv.ParseFloat(s, 64)` -/

/-- The two `strconv` error kinds, `ErrSyntax` and `ErrRange`. -/
inductive NumError where
  | errSyn
  | errRange
  deriving DecidableEq, Repr

/-- Value of a decimal digit character. -/
def digitVal (c : Char) : Nat := c.toNat - '0'.toNat

/-- The digit loop of `strconv.ParseUint(s, 10, 64)`, `n` being the value read
so far: a non-digit is a syntax error, a value above `2^64 - 1` a range error
(reported at once, before later characters are looked at). -/
def parseUintLoop : List Char → Nat → Except NumError Nat
  | [], n => .ok n
  | c :: cs, n =>
    if c.isDigit then
      if n ≥ (2 ^ 64 - 1) / 10 + 1 then .error .errRange
      else if n * 10 + digitVal c > 2 ^ 64 - 1 then .error .errRange
      else parseUintLoop cs (n * 10 + digitVal c)
    else .error .errSyn

/-- The model of `strconv.ParseUint(s, 10, 64)`. -/
def ParseUint (s : List Char) : Except NumError Nat :=
  match s with
  | [] => .error .errSyn
  | _ => parseUintLoop s 0

/-- The model of `strconv.ParseInt(s, 10, 64)`: an optional sign, then
`ParseUint`, then the range check against the cutoff `2^63`. -/
def ParseInt (s : List Char) : Except NumError Int :=
  match s with
  | [] => .error .errSyn
  | c :: cs =>
    let neg := c == '-'
    let body := if c == '+' || c == '-' then cs else c :: cs
    match ParseUint body with
    | .error .errSyn => .error .errSyn
    | .error .errRange => .error .errRange
    | .ok un =>
      if !neg && un ≥ 2 ^ 63 then .error .errRange
      else if neg && un > 2 ^ 63 then .error .errRange
      else .ok (if neg then -(un : Int) else (un : Int))

/-- The method `json.Number.Int64`. -/
def Number.Int64 (n : String) : Except NumError Int := ParseInt n.data

/-- The decimal exponent digits as `readFloat` accumulates them: the running
value stops growing once it has reached 10000. -/
def expLoop : List Char → Nat → Nat
  | [], e => e
  | c :: cs, e => expLoop cs (if e < 10000 then e * 10 + digitVal c else e)

/-- The value of a string of decimal digits. -/
def digitsVal (ds : List Char) : Nat := ds.foldl (fun n c => n * 10 + digitVal c) 0

/-- A decimal floating-point literal as `readFloat` splits it: the digits before
and after the point and the signed decimal exponent. -/
structure DecFloat where
  neg : Bool
  intDigits : List Char
  fracDigits : List Char
  exp : Int
  deriving Repr

/-- The optional exponent part of a decimal literal, which must reach the end of
the text: `none` is a syntax error. -/
def readExponent : List Char → Option Int
  | [] => some 0
  | c :: cs =>
    if c == 'e' || c == 'E' then
      match cs with
      | [] => none
      | d :: ds =>
        let esign : Int := if d == '-' then -1 else 1
        let digits := if d == '+' || d == '-' then ds else d :: ds
        match digits with
        | [] => none
        | _ => if digits.all Char.isDigit then some ((expLoop digits 0 : Nat) * esign) else none
    else none

/-- The decimal branch of `readFloat`, required by `ParseFloat` to consume the
whole text: an optional sign, digits with at most one point and at least one
digit, an optional exponent.  The other forms `ParseFloat` accepts (hexadecimal
mantissa, `inf`, `nan`, digit-separating underscores) contain characters that
no JSON number literal has; this model reports them as syntax errors. -/
def readFloat (s : List Char) : Option DecFloat :=
  let neg := s.head? == some '-'
  let body := match s with
    | c :: cs => if c == '+' || c == '-' then cs else s
    | [] => s
  let ip := body.takeWhile Char.isDigit
  let r1 := body.dropWhile Char.isDigit
  let fp := match r1 with
    | '.' :: r2 => r2.takeWhile Char.isDigit
    | _ => []
  let r3 := match r1 with
    | '.' :: r2 => r2.dropWhile Char.isDigit
    | _ => r1
  if ip.isEmpty && fp.isEmpty then none
  else match readExponent r3 with
    | none => none
    | some e => some { neg := neg, intDigits := ip, fracDigits := fp, exp := e }

/-- Whether `m * 10^e` rounds to infinity as a float64: it is at least
`2^1024 - 2^970`, half an ulp above the largest finite float64. -/
def overflowsFloat64 (m : Nat) (e : Int) : Bool :=
  if 0 ≤ e then decide (2 ^ 1024 - 2 ^ 970 ≤ m * 10 ^ e.toNat)
  else decide ((2 ^ 1024 - 2 ^ 970) * 10 ^ (-e).toNat ≤ m)

/-- The error result of `strconv.ParseFloat(s, 64)` (`getJSONType` discards the
float itself): a syntax error for a malformed text, a range error when the
value rounds to an infinity, no error otherwise (underflow to zero included). -/
def ParseFloat (s : List Char) : Except NumError Unit :=
  match readFloat s with
  | none => .error .errSyn
  | some f =>
    if overflowsFloat64 (digitsVal (f.intDigits ++ f.fracDigits))
        (f.exp - (f.fracDigits.length : Int)) then .error .errRange
    else .ok ()

/-- The method `json.Number.Float64`. -/
def Number.Float64 (n : String) : Except NumError Unit := ParseFloat n.data

/-! ## `reflect.TypeOf(v).Kind()` -/

/-- The `reflect.Kind` values the second switch of `getJSONType` names, and the
kind of every other type lumped together. -/
inductive Kind where
  | Map | Slice | Int | Int32 | Int64 | Float32 | Float64 | Bool | String | Other
  deriving DecidableEq, Repr

/-- The model of `reflect.TypeOf(v)` followed by `.Kind()`: `reflect.TypeOf`
returns the nil `Type` for a nil interface and calling `Kind` on it is a nil
dereference, so the call panics; `json.Number` is declared `type Number string`,
so its kind is `String`. -/
def typeKind : JValue → Outcome Kind
  | .null => .panicked
  | .bool _ => .returned .Bool
  | .number _ => .returned .String
  | .string _ => .returned .String
  | .array _ => .returned .Slice
  | .object _ => .returned .Map

/-! ## `encoding/json`: `Decoder.Decode` into an `interface{}` with `UseNumber`

`Decode` runs the scanner of `scanner.go` over the input up to the end of the
first JSON value and then builds the value from exactly those bytes; what
follows the first value stays unread in the decoder's buffer.  The model feeds
the input to the scanner's step functions one character at a time (a character
outside ASCII stands for its UTF-8 bytes, which the scanner treats alike) and
builds the value along the way. -/

/-- The `error` values that reach the caller, all of them from `Decode`:
`io.EOF` (no value in the input),
`io.ErrUnexpectedEOF` (the input ends inside a value) and a `*SyntaxError`
(`invalid character c` followed by the context, or `exceeded max depth`).
`internal` is no error of Go: it marks the combinations of step function and
stack that the scanner never reaches (`Decode_ne_internal`). -/
inductive JsonError where
  | eof
  | unexpectedEOF
  | invalidCharacter (c : Char) (context : String)
  | exceededMaxDepth
  | internal
  deriving DecidableEq, Repr

/-- The order in which `range` visits a map is unspecified: `arrange pos m` is
the order taken for the object whose closing brace is the `pos`-th character
of the input, a rearrangement of its entries `m`. -/
structure RangeOrder where
  arrange : Nat → List (String × JValue) → List (String × JValue)
  perm : ∀ pos m, (arrange pos m).Perm m

/-- The order in which the keys first occur in the text. -/
def RangeOrder.insertion : RangeOrder := ⟨fun _ m => m, fun _ _ => List.Perm.refl _⟩

/-- The reverse of the order of first occurrence. -/
def RangeOrder.reversed : RangeOrder := ⟨fun _ m => m.reverse, fun _ m => List.reverse_perm m⟩

/-- The constant `maxNestingDepth` of `scanner.go`. -/
def maxNestingDepth : Nat := 10000

/-- The function `isSpace` of `scanner.go`. -/
def isSpace (c : Char) : Bool := c == ' ' || c == '\t' || c == '\r' || c == '\n'

/-- Whether `c` is a hexadecimal digit, as the `\u` escape states test it. -/
def isHex (c : Char) : Bool :=
  ('0' ≤ c && c ≤ '9') || ('a' ≤ c && c ≤ 'f') || ('A' ≤ c && c ≤ 'F')

/-- Value of a hexadecimal digit. -/
def hexVal (c : Char) : Nat :=
  if '0' ≤ c && c ≤ '9' then c.toNat - '0'.toNat
  else if 'a' ≤ c && c ≤ 'f' then c.toNat - 'a'.toNat + 10
  else c.toNat - 'A'.toNat + 10

/-- The function `getu4`: the code unit of a leading `\uXXXX`, if there is one. -/
def getu4 : List Char → Option Nat
  | '\\' :: 'u' :: a :: b :: c :: d :: _ =>
    if isHex a && isHex b && isHex c && isHex d then
      some (((hexVal a * 16 + hexVal b) * 16 + hexVal c) * 16 + hexVal d)
    else none
  | _ => none

/-- The function `utf16.DecodeRune`: the code point of a surrogate pair, `none`
standing for the replacement character it returns on anything else. -/
def decodeSurrogates (r1 : Nat) (r2 : Option Nat) : Option Char :=
  match r2 with
  | some lo =>
    if 0xd800 ≤ r1 && r1 < 0xdc00 && 0xdc00 ≤ lo && lo < 0xe000 then
      some (Char.ofNat ((r1 - 0xd800) * 0x400 + (lo - 0xdc00) + 0x10000))
    else none
  | none => none

/-- The character a one-letter escape stands for. -/
def unescape (c : Char) : Char :=
  if c == 'b' then Char.ofNat 8
  else if c == 'f' then Char.ofNat 12
  else if c == 'n' then '\n'
  else if c == 'r' then '\r'
  else if c == 't' then '\t'
  else c

/-- Where `unquote` stands in a string literal: in plain text, after a
backslash, inside the four digits of a `\u` escape (`k` digits read, their value
`acc`), or just after a `\u` escape that named a surrogate `rr`, which is held
back (`pending`) until the next six characters show whether its partner
follows. -/
inductive Unquoting where
  | plain
  | esc
  | hex (pending : Option Nat) (k : Nat) (acc : Nat)
  | surrogate (rr : Nat)
  | surrogateEsc (rr : Nat)

/-- A `\u` escape has been read in full: `u` completes the pending surrogate
to a code point, or the pending surrogate becomes the replacement character
U+FFFD and `u` is read as an escape of its own. -/
def unquoteUnit (pending : Option Nat) (u : Nat) : List Char × Unquoting :=
  let fresh : List Char × Unquoting :=
    if 0xd800 ≤ u && u < 0xe000 then ([], .surrogate u) else ([Char.ofNat u], .plain)
  match pending with
  | none => fresh
  | some rr =>
    match decodeSurrogates rr (some u) with
    | some ch => ([ch], .plain)
    | none => (Char.ofNat 0xfffd :: fresh.1, fresh.2)

/-- One character of `unquote`: the characters it appends to the result and
the state it goes to. -/
def unquoteStep (st : Unquoting) (c : Char) : List Char × Unquoting :=
  match st with
  | .plain => if c == '\\' then ([], .esc) else ([c], .plain)
  | .esc => if c == 'u' then ([], .hex none 0 0) else ([unescape c], .plain)
  | .hex pending k acc =>
    if k < 3 then ([], .hex pending (k + 1) (acc * 16 + hexVal c))
    else unquoteUnit pending (acc * 16 + hexVal c)
  | .surrogate rr =>
    if c == '\\' then ([], .surrogateEsc rr) else ([Char.ofNat 0xfffd, c], .plain)
  | .surrogateEsc rr =>
    if c == 'u' then ([], .hex (some rr) 0 0) else ([Char.ofNat 0xfffd, unescape c], .plain)

/-- The loop of `unquote`. -/
def unquoteLoop : Unquoting → List Char → List Char
  | .surrogate _, [] => [Char.ofNat 0xfffd]
  | _, [] => []
  | st, c :: cs => (unquoteStep st c).1 ++ unquoteLoop (unquoteStep st c).2 cs

/-- The function `unquote` on the characters between the quotes of a string
literal the scanner has accepted: escapes are replaced, a `\u` pair of
surrogates becomes one code point and a lone surrogate the replacement
character U+FFFD. -/
def unquote (s : List Char) : List Char := unquoteLoop .plain s

/-- The scanner's step functions (`stateBeginValue`, `stateInString`, ...). -/
inductive Step where
  | beginValue | beginStringOrEmpty | beginString | beginValueOrEmpty | endValue
  | inString | inStringEsc | inStringEscU | inStringEscU1 | inStringEscU12 | inStringEscU123
  | neg | s1 | s0 | dot | dot0 | e | eSign | e0
  | t | tr | tru | f | fa | fal | fals | n | nu | nul
  deriving DecidableEq, Repr

/-- An entry of the scanner's `parseState` stack together with the part of the
enclosing array or object decoded so far: `objKey` and `objColon` are
`parseObjectKey` (before and after the key), `objVal` and `objNext` are
`parseObjectValue` (before and after the value), `arr` is `parseArrayValue`. -/
inductive Frame where
  | arr (elems : List JValue)
  | objKey (m : List (String × JValue))
  | objColon (m : List (String × JValue)) (key : String)
  | objVal (m : List (String × JValue)) (key : String)
  | objNext (m : List (String × JValue))

/-- The scanner: its step function, the `parseState` stack, the characters of
the string or number literal being read (last first) and the number of
characters read. -/
structure Scanner where
  step : Step
  stack : List Frame
  tok : List Char
  pos : Nat

/-- What one step yields: go on; the top-level value is complete (`scanEnd`),
ending with the character just read (`done`) or before it (`doneBefore`, a
number); or an error (`scanError`). -/
inductive StepResult where
  | next (s : Scanner)
  | done (v : JValue)
  | doneBefore (v : JValue)
  | fail (e : JsonError)

/-- A value has been read: it is the top-level value, or it joins the array
or object on top of the stack and the scanner goes to `stateEndValue`. -/
def complete (s : Scanner) (v : JValue) : StepResult :=
  match s.stack with
  | [] => .done v
  | .arr elems :: rest =>
    .next { s with step := .endValue, stack := .arr (elems ++ [v]) :: rest, tok := [] }
  | .objVal m key :: rest =>
    .next { s with step := .endValue, stack := .objNext (mapSet m key v) :: rest, tok := [] }
  | _ => .fail .internal

/-- The function `stateEndValue`, reached below the top level only (at the top
level `complete` has ended the scan). -/
def stateEndValue (order : RangeOrder) (s : Scanner) (c : Char) : StepResult :=
  if isSpace c then .next { s with step := .endValue }
  else
    match s.stack with
    | .objColon m key :: rest =>
      if c == ':' then .next { s with step := .beginValue, stack := .objVal m key :: rest }
      else .fail (.invalidCharacter c "after object key")
    | .objNext m :: rest =>
      if c == ',' then .next { s with step := .beginString, stack := .objKey m :: rest }
      else if c == '}' then complete { s with stack := rest } (.object (order.arrange s.pos m))
      else .fail (.invalidCharacter c "after object key:value pair")
    | .arr elems :: rest =>
      if c == ',' then .next { s with step := .beginValue }
      else if c == ']' then complete { s with stack := rest } (.array elems)
      else .fail (.invalidCharacter c "after array element")
    | _ => .fail .internal

/-- The function `pushParseState`: nesting deeper than `maxNestingDepth` is an
error. -/
def pushParseState (s : Scanner) (frame : Frame) (successState : Step) : StepResult :=
  if (frame :: s.stack).length ≤ maxNestingDepth then
    .next { s with step := successState, stack := frame :: s.stack }
  else .fail .exceededMaxDepth

/-- The function `stateBeginValue`. -/
def stateBeginValue (s : Scanner) (c : Char) : StepResult :=
  if isSpace c then .next s
  else if c == '{' then pushParseState s (.objKey []) .beginStringOrEmpty
  else if c == '[' then pushParseState s (.arr []) .beginValueOrEmpty
  else if c == '"' then .next { s with step := .inString, tok := [] }
  else if c == '-' then .next { s with step := .neg, tok := [c] }
  else if c == '0' then .next { s with step := .s0, tok := [c] }
  else if c == 't' then .next { s with step := .t }
  else if c == 'f' then .next { s with step := .f }
  else if c == 'n' then .next { s with step := .n }
  else if '1' ≤ c && c ≤ '9' then .next { s with step := .s1, tok := [c] }
  else .fail (.invalidCharacter c "looking for beginning of value")

/-- The function `stateBeginString`. -/
def stateBeginString (s : Scanner) (c : Char) : StepResult :=
  if isSpace c then .next s
  else if c == '"' then .next { s with step := .inString, tok := [] }
  else .fail (.invalidCharacter c "looking for beginning of object key string")

/-- The closing quote of a string literal: the string is an object key when
the scanner is in `parseObjectKey`, a value otherwise. -/
def endString (s : Scanner) : StepResult :=
  let str := String.mk (unquote s.tok.reverse)
  match s.stack with
  | .objKey m :: rest =>
    .next { s with step := .endValue, stack := .objColon m str :: rest, tok := [] }
  | _ => complete s (.string str)

/-- The end of a number literal at character `c`, which `stateEndValue` then
reads: with `UseNumber` the literal itself is the decoded value. -/
def endNumber (order : RangeOrder) (s : Scanner) (c : Char) : StepResult :=
  match complete s (.number (String.mk s.tok.reverse)) with
  | .next s1 => stateEndValue order s1 c
  | .done v => .doneBefore v
  | r => r

/-- One character of a literal `true`, `false` or `null`. -/
def literalStep (s : Scanner) (c expected : Char) (nextStep : Step) (lit : String) :
    StepResult :=
  if c == expected then .next { s with step := nextStep }
  else .fail (.invalidCharacter c lit)

/-- The function `stateESign`. -/
def stateESign (s : Scanner) (c : Char) : StepResult :=
  if c.isDigit then .next { s with step := .e0, tok := c :: s.tok }
  else .fail (.invalidCharacter c "in exponent of numeric literal")

/-- The function `state0`. -/
def state0 (order : RangeOrder) (s : Scanner) (c : Char) : StepResult :=
  if c == '.' then .next { s with step := .dot, tok := c :: s.tok }
  else if c == 'e' || c == 'E' then .next { s with step := .e, tok := c :: s.tok }
  else endNumber order s c

/-- One call `s.step(s, c)` of the scanner on the next input character. -/
def stepChar (order : RangeOrder) (s0 : Scanner) (c : Char) : StepResult :=
  let s := { s0 with pos := s0.pos + 1 }
  match s.step with
  | .beginValue => stateBeginValue s c
  | .beginValueOrEmpty =>
    if isSpace c then .next s
    else if c == ']' then stateEndValue order s c
    else stateBeginValue s c
  | .beginStringOrEmpty =>
    if isSpace c then .next s
    else if c == '}' then
      match s.stack with
      | .objKey m :: rest => stateEndValue order { s with stack := .objNext m :: rest } c
      | _ => .fail .internal
    else stateBeginString s c
  | .beginString => stateBeginString s c
  | .endValue => stateEndValue order s c
  | .inString =>
    if c == '"' then endString s
    else if c == '\\' then .next { s with step := .inStringEsc, tok := c :: s.tok }
    else if c.toNat < 0x20 then .fail (.invalidCharacter c "in string literal")
    else .next { s with tok := c :: s.tok }
  | .inStringEsc =>
    if c == 'b' || c == 'f' || c == 'n' || c == 'r' || c == 't' || c == '\\' || c == '/'
        || c == '"' then .next { s with step := .inString, tok := c :: s.tok }
    else if c == 'u' then .next { s with step := .inStringEscU, tok := c :: s.tok }
    else .fail (.invalidCharacter c "in string escape code")
  | .inStringEscU =>
    if isHex c then .next { s with step := .inStringEscU1, tok := c :: s.tok }
    else .fail (.invalidCharacter c "in \\u hexadecimal character escape")
  | .inStringEscU1 =>
    if isHex c then .next { s with step := .inStringEscU12, tok := c :: s.tok }
    else .fail (.invalidCharacter c "in \\u hexadecimal character escape")
  | .inStringEscU12 =>
    if isHex c then .next { s with step := .inStringEscU123, tok := c :: s.tok }
    else .fail (.invalidCharacter c "in \\u hexadecimal character escape")
  | .inStringEscU123 =>
    if isHex c then .next { s with step := .inString, tok := c :: s.tok }
    else .fail (.invalidCharacter c "in \\u hexadecimal character escape")
  | .neg =>
    if c == '0' then .next { s with step := .s0, tok := c :: s.tok }
    else if '1' ≤ c && c ≤ '9' then .next { s with step := .s1, tok := c :: s.tok }
    else .fail (.invalidCharacter c "in numeric literal")
  | .s1 =>
    if c.isDigit then .next { s with tok := c :: s.tok }
    else state0 order s c
  | .s0 => state0 order s c
  | .dot =>
    if c.isDigit then .next { s with step := .dot0, tok := c :: s.tok }
    else .fail (.invalidCharacter c "after decimal point in numeric literal")
  | .dot0 =>
    if c.isDigit then .next { s with tok := c :: s.tok }
    else if c == 'e' || c == 'E' then .next { s with step := .e, tok := c :: s.tok }
    else endNumber order s c
  | .e =>
    if c == '+' || c == '-' then .next { s with step := .eSign, tok := c :: s.tok }
    else stateESign s c
  | .eSign => stateESign s c
  | .e0 =>
    if c.isDigit then .next { s with tok := c :: s.tok }
    else endNumber order s c
  | .t => literalStep s c 'r' .tr "in literal true (expecting 'r')"
  | .tr => literalStep s c 'u' .tru "in literal true (expecting 'u')"
  | .tru =>
    if c == 'e' then complete s (.bool true)
    else .fail (.invalidCharacter c "in literal true (expecting 'e')")
  | .f => literalStep s c 'a' .fa "in literal false (expecting 'a')"
  | .fa => literalStep s c 'l' .fal "in literal false (expecting 'l')"
  | .fal => literalStep s c 's' .fals "in literal false (expecting 's')"
  | .fals =>
    if c == 'e' then complete s (.bool false)
    else .fail (.invalidCharacter c "in literal false (expecting 'e')")
  | .n => literalStep s c 'u' .nu "in literal null (expecting 'u')"
  | .nu => literalStep s c 'l' .nul "in literal null (expecting 'l')"
  | .nul =>
    if c == 'l' then complete s .null
    else .fail (.invalidCharacter c "in literal null (expecting 'l')")

/-- The end of the input (`io.EOF` from the reader) in `readValue`: a number
at the top level ends there; otherwise the error is `io.EOF` when nothing but
white space was read and `io.ErrUnexpectedEOF` when a value was cut short. -/
def atEOF (s : Scanner) : Except JsonError JValue :=
  match s.stack, s.step with
  | [], .s1 => .ok (.number (String.mk s.tok.reverse))
  | [], .s0 => .ok (.number (String.mk s.tok.reverse))
  | [], .dot0 => .ok (.number (String.mk s.tok.reverse))
  | [], .e0 => .ok (.number (String.mk s.tok.reverse))
  | [], .beginValue => .error .eof
  | _, _ => .error .unexpectedEOF

/-- The loop of `readValue`: step through the input until the first value is
complete, an error is found or the input ends.  The result is the value read
and the input left unread after it. -/
def readValue (order : RangeOrder) :
    Scanner → List Char → Except JsonError (JValue × List Char)
  | s, [] =>
    match atEOF s with
    | .ok v => .ok (v, [])
    | .error e => .error e
  | s, c :: cs =>
    match stepChar order s c with
    | .next s1 => readValue order s1 cs
    | .done v => .ok (v, cs)
    | .doneBefore v => .ok (v, c :: cs)
    | .fail e => .error e

/-- The scanner as `reset` leaves it. -/
def Scanner.reset : Scanner := { step := .beginValue, stack := [], tok := [], pos := 0 }

/-- The call `dec.Decode(&data)` on a fresh decoder over `jsonString`, with
`UseNumber` set and `data` an empty interface: the first value of the input;
what follows it is not looked at. -/
def Decode (order : RangeOrder) (jsonString : String) : Except JsonError JValue :=
  match readValue order Scanner.reset jsonString.data with
  | .ok (v, _) => .ok v
  | .error e => .error e

/-- The function `json.Valid`: the whole text is one JSON value with nothing
but white space around it. -/
def Valid (jsonString : String) : Bool :=
  match readValue RangeOrder.insertion Scanner.reset jsonString.data with
  | .ok (_, rest) => rest.all isSpace
  | .error _ => false

/-! ## `encoding/json`: `Marshal` and `MarshalIndent` -/

/-- A hexadecimal digit of the encoder's table `hex`. -/
def hexDigit (n : Nat) : Char :=
  if n < 10 then Char.ofNat ('0'.toNat + n) else Char.ofNat ('a'.toNat + (n - 10))

/-- How `appendString` writes one character with `escapeHTML` set, as
`Marshal` has it: the quote and the backslash get a backslash, control
characters a short escape or `\u00XX`, and `<`, `>`, `&`, U+2028 and U+2029 a
`\u` escape. -/
def escapeChar (c : Char) : List Char :=
  if c == '\\' || c == '"' then ['\\', c]
  else if c == Char.ofNat 8 then ['\\', 'b']
  else if c == Char.ofNat 12 then ['\\', 'f']
  else if c == '\n' then ['\\', 'n']
  else if c == '\r' then ['\\', 'r']
  else if c == '\t' then ['\\', 't']
  else if c.toNat < 0x20 || c == '<' || c == '>' || c == '&' then
    ['\\', 'u', '0', '0', hexDigit (c.toNat / 16), hexDigit (c.toNat % 16)]
  else if c.toNat == 0x2028 || c.toNat == 0x2029 then
    ['\\', 'u', '2', '0', '2', hexDigit (c.toNat % 16)]
  else [c]

/-- The function `appendString`: a string as a JSON string literal. -/
def appendString (s : String) : String :=
  String.mk ('"' :: (s.data.flatMap escapeChar ++ ['"']))

/-- The texts `parts` separated by `sep`. -/
def joinWith (sep : String) : List String → String
  | [] => ""
  | [x] => x
  | x :: rest => x ++ sep ++ joinWith sep rest

/-- Whether `a` comes no later than `b` in the order of `strings.Compare`,
the lexicographic order of the bytes (for UTF-8 text, of the code points). -/
def keyLE : List Char → List Char → Bool
  | [], _ => true
  | _ :: _, [] => false
  | a :: as, b :: bs =>
    if a.toNat < b.toNat then true
    else if b.toNat < a.toNat then false
    else keyLE as bs

/-- The entries of a map in the order the encoder writes them: sorted by key. -/
def sortByKey (entries : List (String × String)) : List (String × String) :=
  entries.insertionSort (fun a b => keyLE a.1.data b.1.data = true)

mutual
/-- The compact encoding `Marshal` produces: a map is written with its keys
sorted, the nil interface and the nil slice as `null`. -/
def encode : GoValue → String
  | .nil => "null"
  | .str s => appendString s
  | .strings [] => "null"
  | .strings xs => "[" ++ joinWith "," (xs.map appendString) ++ "]"
  | .map m =>
    "\x7b" ++ joinWith "," ((sortByKey (encodeEntries m)).map
      fun kv => appendString kv.1 ++ ":" ++ kv.2) ++ "\x7d"
/-- The entries of a map, each value encoded. -/
def encodeEntries : List (String × GoValue) → List (String × String)
  | [] => []
  | (k, v) :: rest => (k, encode v) :: encodeEntries rest
end

/-- A line break followed by `depth` copies of the two-space indent. -/
def newline (depth : Nat) : String :=
  "\n" ++ String.mk (List.replicate (2 * depth) ' ')

mutual
/-- The encoding `MarshalIndent(v, "", "  ")` produces for a value that starts
at nesting level `depth`: every element of a non-empty map or list on a line
of its own, one level deeper, and a space after each colon. -/
def encodeIndent (depth : Nat) : GoValue → String
  | .nil => "null"
  | .str s => appendString s
  | .strings [] => "null"
  | .strings xs =>
    "[" ++ newline (depth + 1) ++
      joinWith ("," ++ newline (depth + 1)) (xs.map appendString) ++ newline depth ++ "]"
  | .map [] => "\x7b\x7d"
  | .map (e :: m) =>
    "\x7b" ++ newline (depth + 1) ++
      joinWith ("," ++ newline (depth + 1)) ((sortByKey (encodeIndentEntries depth (e :: m))).map
        fun kv => appendString kv.1 ++ ": " ++ kv.2) ++ newline depth ++ "\x7d"
/-- The entries of a map at nesting level `depth`, each value encoded one
level deeper. -/
def encodeIndentEntries (depth : Nat) : List (String × GoValue) → List (String × String)
  | [] => []
  | (k, v) :: rest => (k, encodeIndent (depth + 1) v) :: encodeIndentEntries depth rest
end

/-- The function `json.Marshal` on the values `generateSchema` builds (strings,
string slices and maps of them), for which the encoder has no error. -/
def Marshal (v : GoValue) : Except JsonError String := .ok (encode v)

mutual
/-- How deep the compact encoding of a value nests objects and arrays: a map is
written as an object, the empty one too, a non-empty list of strings as an
array, and the nil slice as `null`.  This is the number of entries the
`parseState` stack of the scanner grows to when it reads that text (theorem
`textNesting_encode`). -/
def GoValue.nesting : GoValue → Nat
  | .map m => entriesNesting m + 1
  | .strings (_ :: _) => 1
  | _ => 0
/-- The deepest nesting among the values of the entries of a map. -/
def entriesNesting : List (String × GoValue) → Nat
  | [] => 0
  | (_, v) :: rest => max v.nesting (entriesNesting rest)
end

/-- The function `json.MarshalIndent(v, "", "  ")` on the same values: it calls
`Marshal` and then `appendIndent`, which reads the compact text with the
scanner of `scanner.go` once more; `pushParseState` fails there, with the
`*SyntaxError` `exceeded max depth`, when the text nests deeper than
`maxNestingDepth`, and `MarshalIndent` returns that error. -/
def MarshalIndent (v : GoValue) : Except JsonError String :=
  match Marshal v with
  | .error err => .error err
  | .ok _ =>
    if v.nesting ≤ maxNestingDepth then .ok (encodeIndent 0 v) else .error .exceededMaxDepth

/-! ## `schema.go` -/

/-- The first switch of `getJSONType`: the type name it returns for a
`json.Number`, `none` when control falls out of the switch. -/
def numberSwitch : JValue → Option String
  | .number n =>
    match Number.Int64 n with
    | .ok _ => some "integer"
    | .error _ =>
      match Number.Float64 n with
      | .ok _ => some "number"
      | .error _ => none
  | _ => none

/-- The function `getJSONType`. -/
def getJSONType (v : JValue) : Outcome String :=
  match numberSwitch v with
  | some t => .returned t
  | none =>
    match typeKind v with
    | .panicked => .panicked
    | .returned k =>
      .returned (match k with
        | .Map => "object"
        | .Slice => "array"
        | .Int => "integer"
        | .Int32 => "integer"
        | .Int64 => "integer"
        | .Float32 => "number"
        | .Float64 => "number"
        | .Bool => "boolean"
        | .String => "string"
        | .Other => "null")

mutual
/-- The function `generateSchema`: the schema node and the `required` slice. -/
def generateSchema : JValue → Outcome (GoMap × List String)
  | .object entries =>
    match getJSONType (.object entries) with
    | .panicked => .panicked
    | .returned t =>
      match rangeEntries entries [] [] with
      | .panicked => .panicked
      | .returned (properties, required) =>
        let schema := mapSet [("type", GoValue.str t)] "properties" (GoValue.map properties)
        .returned (if required.length > 0 then
            mapSet schema "required" (GoValue.strings required) else schema, required)
  | .array elems =>
    match getJSONType (.array elems) with
    | .panicked => .panicked
    | .returned t =>
      match elems with
      | [] => .returned ([("type", GoValue.str t)], [])
      | first :: _ =>
        match generateSchema first with
        | .panicked => .panicked
        | .returned (itemSchema, _) =>
          .returned (mapSet [("type", GoValue.str t)] "items" (GoValue.map itemSchema), [])
  | v =>
    match getJSONType v with
    | .panicked => .panicked
    | .returned t => .returned ([("type", GoValue.str t)], [])
/-- The loop `for key, value := range v` of `generateSchema`, run over the
entries still to visit with the `properties` map and `required` slice built so
far. -/
def rangeEntries : List (String × JValue) → GoMap → List String →
    Outcome (GoMap × List String)
  | [], properties, required => .returned (properties, required)
  | (key, value) :: rest, properties, required =>
    match generateSchema value with
    | .panicked => .panicked
    | .returned (propertySchema, _) =>
      rangeEntries rest (mapSet properties key (GoValue.map propertySchema)) (required ++ [key])
end

/-- The map literal `rootSchema` of `GenerateJsonSchemaFromJsonString`. -/
def rootSchema (schemaProperties : GoMap) (required : List String) : GoMap :=
  [("$schema", GoValue.str "https://json-schema.org/draft/2020-12/schema"),
   ("title", GoValue.str "Generated schema from jellyfaas"),
   ("type", GoValue.str "object"),
   ("properties", mapIndex schemaProperties "properties"),
   ("required", GoValue.strings required)]

/-- The function `GenerateJsonSchemaFromJsonString`: `returned (.ok text)` is
the result `(&text, nil)`, `returned (.error err)` the result `(nil, err)`.
`order` is the order in which the `range` loops visit the decoded maps. -/
def GenerateJsonSchemaFromJsonString (order : RangeOrder) (jsonString : String) (flat : Bool) :
    Outcome (Except JsonError String) :=
  match Decode order jsonString with
  | .error err => .returned (.error err)
  | .ok data =>
    match generateSchema data with
    | .panicked => .panicked
    | .returned (schemaProperties, required) =>
      if flat then
        match Marshal (GoValue.map (rootSchema schemaProperties required)) with
        | .error err => .returned (.error err)
        | .ok schemaJSON => .returned (.ok schemaJSON)
      else
        match MarshalIndent (GoValue.map (rootSchema schemaProperties required)) with
        | .error err => .returned (.error err)
        | .ok schemaJSON => .returned (.ok schemaJSON)

/-! ## Auxiliary notions for the statements -/

/-- The property entries built from object entries and the nodes of their
values. -/
def propertyEntries (entries : List (String × JValue)) (nodes : List GoMap) : GoMap :=
  List.zipWith (fun e n => (e.1, GoValue.map n)) entries nodes

mutual
/-- Whether `generateSchema` comes upon a null in the value: the value is
null, or it is an array whose first element leads to one, or an object one of
whose values does. -/
def visitsNull : JValue → Bool
  | .null => true
  | .array (first :: _) => visitsNull first
  | .object entries => entriesVisitNull entries
  | _ => false
/-- Whether the value of some entry leads `generateSchema` to a null. -/
def entriesVisitNull : List (String × JValue) → Bool
  | [] => false
  | (_, value) :: rest => visitsNull value || entriesVisitNull rest
end

mutual
/-- A value as a Go program can hold it: the keys of every object in it, at
any depth, are distinct (a `map[string]interface{}` has one entry per key). -/
def JValue.distinctKeys : JValue → Prop
  | .array elems => allDistinctKeys elems
  | .object entries => (entries.map Prod.fst).Nodup ∧ entriesDistinctKeys entries
  | _ => True
/-- Every element has distinct keys throughout. -/
def allDistinctKeys : List JValue → Prop
  | [] => True
  | v :: vs => v.distinctKeys ∧ allDistinctKeys vs
/-- The value of every entry has distinct keys throughout. -/
def entriesDistinctKeys : List (String × JValue) → Prop
  | [] => True
  | (_, v) :: rest => v.distinctKeys ∧ entriesDistinctKeys rest
end

/-- The part of an array or object held in a stack entry has distinct keys
throughout. -/
def Frame.distinctKeys : Frame → Prop
  | .arr elems => allDistinctKeys elems
  | .objKey m => (m.map Prod.fst).Nodup ∧ entriesDistinctKeys m
  | .objColon m _ => (m.map Prod.fst).Nodup ∧ entriesDistinctKeys m
  | .objVal m _ => (m.map Prod.fst).Nodup ∧ entriesDistinctKeys m
  | .objNext m => (m.map Prod.fst).Nodup ∧ entriesDistinctKeys m

/-- Every entry of the scanner's stack has distinct keys throughout. -/
def Scanner.distinctKeys (s : Scanner) : Prop := ∀ f ∈ s.stack, f.distinctKeys

/-- A step result whose scanner or value has distinct keys throughout. -/
def StepResult.distinctKeys : StepResult → Prop
  | .next s => s.distinctKeys
  | .done v => v.distinctKeys
  | .doneBefore v => v.distinctKeys
  | .fail _ => True

/-- Whether a value may follow with this entry on top of the stack: inside an
array, or after the colon of an object entry. -/
def Frame.awaitsValue : Frame → Bool
  | .arr _ => true
  | .objVal _ _ => true
  | _ => false

/-- Whether a value may follow with this stack: at the top level, or when
its top entry awaits one. -/
def awaitsValue : List Frame → Bool
  | [] => true
  | f :: _ => f.awaitsValue

/-- Whether the top of the stack is an object waiting for a key. -/
def awaitsKey : List Frame → Bool
  | .objKey _ :: _ => true
  | _ => false

/-- Whether the top of the stack is an array. -/
def awaitsElement : List Frame → Bool
  | .arr _ :: _ => true
  | _ => false

/-- Whether the top of the stack is an array or object in which a key or a
value has just been read, as `stateEndValue` expects. -/
def afterEntry : List Frame → Bool
  | .arr _ :: _ => true
  | .objColon _ _ :: _ => true
  | .objNext _ :: _ => true
  | _ => false

/-- The stacks a step function runs on: a key is scanned inside an object that
waits for one, the first element of an array inside that array,
`stateEndValue` runs after a key or a value inside an object or array, and
any other value is scanned at the top level or where one is awaited. -/
def stepFits (step : Step) (stack : List Frame) : Bool :=
  match step with
  | .beginStringOrEmpty => awaitsKey stack
  | .beginString => awaitsKey stack
  | .beginValueOrEmpty => awaitsElement stack
  | .endValue => afterEntry stack
  | .inString => awaitsValue stack || awaitsKey stack
  | .inStringEsc => awaitsValue stack || awaitsKey stack
  | .inStringEscU => awaitsValue stack || awaitsKey stack
  | .inStringEscU1 => awaitsValue stack || awaitsKey stack
  | .inStringEscU12 => awaitsValue stack || awaitsKey stack
  | .inStringEscU123 => awaitsValue stack || awaitsKey stack
  | _ => awaitsValue stack

/-- The states the scanner is ever in: the step function fits the stack, and
every entry below the top of the stack awaits the value being scanned. -/
def Scanner.consistent (s : Scanner) : Prop :=
  stepFits s.step s.stack = true ∧ s.stack.tail.all Frame.awaitsValue = true

/-- A step result that keeps the scanner consistent and is not the marker
`internal`. -/
def StepResult.good : StepResult → Prop
  | .next s => s.consistent
  | .fail e => e ≠ .internal
  | _ => True

/-- The seven type names a schema node may carry. -/
def typeNames : List String :=
  ["object", "array", "integer", "number", "boolean", "string", "null"]

/-- The string bound to "type" in a node, if there is one. -/
def typeOf (node : GoMap) : Option String :=
  match mapLookup node "type" with
  | some (.str t) => some t
  | _ => none

mutual
/-- Whether a node is a well-formed description of a value: the node of an
object has type "object" and a "properties" map that binds the keys of the
object, and no other, to well-formed descriptions of their values; the node of
a non-empty array has type "array" and under "items" a well-formed description
of the first element; the node of any other value has one of the seven type
names, and not "object". -/
def describes : JValue → GoMap → Bool
  | .object entries, node =>
    typeOf node == some "object" &&
      match mapLookup node "properties" with
      | some (.map properties) => describesEntries entries properties
      | _ => false
  | .array (first :: _), node =>
    typeOf node == some "array" &&
      match mapLookup node "items" with
      | some (.map items) => describes first items
      | _ => false
  | _, node =>
    match typeOf node with
    | some t => typeNames.contains t && t != "object"
    | none => false
/-- Whether a "properties" map binds the keys of the entries, one for one, to
well-formed descriptions of their values. -/
def describesEntries : List (String × JValue) → GoMap → Bool
  | [], [] => true
  | (key, value) :: rest, (k, .map node) :: properties =>
    key == k && describes value node && describesEntries rest properties
  | _, _ => false
end

/-- Where a reader of a JSON text stands: outside the string literals, inside
one, or inside one right after a backslash. -/
inductive Lex where
  | outside
  | inString
  | escaped
  deriving DecidableEq, Repr

/-- Where the reader stands after the character `c`: a quote opens a string
literal and, unless a backslash precedes it, closes one. -/
def Lex.next : Lex → Char → Lex
  | .outside, c => if c == '"' then .inString else .outside
  | .inString, c => if c == '\\' then .escaped else if c == '"' then .outside else .inString
  | .escaped, _ => .inString

/-- A JSON text without the white space that stands outside its string
literals: what two texts that differ only in such white space have in
common. -/
def withoutSpace : Lex → List Char → List Char
  | _, [] => []
  | .outside, c :: cs =>
    if isSpace c then withoutSpace .outside cs else c :: withoutSpace (Lex.next .outside c) cs
  | l, c :: cs => c :: withoutSpace (l.next c) cs

/-- A compact JSON text laid out with two spaces of indentation for each level
of nesting: every element of a non-empty object or array goes on a line of its
own, indented by two spaces more than the line that opened the object or
array, whose closing bracket goes on a line of its own at the indentation of
the opening one; a space follows each colon; string literals are left as they
are.  `depth` is the level of nesting, and `opened` says that a bracket has just
been opened, the line break after it being held back so that an empty object
or array stays together. -/
def layout : Lex → Bool → Nat → List Char → List Char
  | _, _, _, [] => []
  | .outside, opened, depth, c :: cs =>
    if isSpace c then layout .outside opened depth cs
    else if c == '}' || c == ']' then
      if opened then c :: layout .outside false depth cs
      else (newline (depth - 1)).data ++ c :: layout .outside false (depth - 1) cs
    else
      (if opened then (newline (depth + 1)).data else []) ++
        (if c == '\x7b' || c == '[' then
          c :: layout .outside true (if opened then depth + 1 else depth) cs
        else if c == ',' then
          c :: ((newline (if opened then depth + 1 else depth)).data ++
            layout .outside false (if opened then depth + 1 else depth) cs)
        else if c == ':' then
          c :: ' ' :: layout .outside false (if opened then depth + 1 else depth) cs
        else c :: layout (Lex.next .outside c) false (if opened then depth + 1 else depth) cs)
  | l, opened, depth, c :: cs => c :: layout (l.next c) opened depth cs

/-- How deep a JSON text nests its objects and arrays: the greatest number of
brackets open at once outside the string literals, `depth` of them being open
where the text starts.  On a well-formed text this is the greatest length of
the `parseState` stack of the scanner that reads it. -/
def textNesting : Lex → Nat → List Char → Nat
  | _, depth, [] => depth
  | .outside, depth, c :: cs =>
    if c == '\x7b' || c == '[' then textNesting .outside (depth + 1) cs
    else if c == '\x7d' || c == ']' then max depth (textNesting .outside (depth - 1) cs)
    else textNesting (Lex.next .outside c) depth cs
  | l, depth, c :: cs => textNesting (l.next c) depth cs

/-- Which part of an array or object a stack entry stands for, whatever has
been decoded of it so far. -/
def Frame.kind : Frame → Nat
  | .arr _ => 0
  | .objKey _ => 1
  | .objColon _ _ => 2
  | .objVal _ _ => 3
  | .objNext _ => 4

/-- Scanners in the same state of the scan: the same step function and the
same kinds of entries on the stack; the values decoded so far may differ. -/
def Scanner.alike (s t : Scanner) : Prop :=
  s.step = t.step ∧ s.stack.map Frame.kind = t.stack.map Frame.kind

/-- Step results of the same kind: scanners in the same state of the scan, a
value complete in both, or the same error. -/
def StepResult.alike : StepResult → StepResult → Prop
  | .next s, .next t => s.alike t
  | .done _, .done _ => True
  | .doneBefore _, .doneBefore _ => True
  | .fail e, .fail f => e = f
  | _, _ => False

/-- The text of `depth` objects one inside the other around `true`: the
characters `{"a":` written `depth` times, then `true`, then `}` written `depth`
times. -/
def nestedObjects : Nat → List Char
  | 0 => ['t', 'r', 'u', 'e']
  | depth + 1 => '\x7b' :: '"' :: 'a' :: '"' :: ':' :: (nestedObjects depth ++ ['\x7d'])

/-- The value that the text `nestedObjects depth` denotes. -/
def nestedObjectsValue : Nat → JValue
  | 0 => .bool true
  | depth + 1 => .object [("a", nestedObjectsValue depth)]

/-- The schema node of the value `nestedObjectsValue depth`. -/
def nestedObjectsNode : Nat → GoMap
  | 0 => [("type", GoValue.str "boolean")]
  | depth + 1 =>
    [("type", GoValue.str "object"),
     ("properties", GoValue.map [("a", GoValue.map (nestedObjectsNode depth))]),
     ("required", GoValue.strings ["a"])]

/-- The `required` slice of the value `nestedObjectsValue depth`. -/
def nestedObjectsRequired : Nat → List String
  | 0 => []
  | _ + 1 => ["a"]

end entities

namespace cmd

/-! ## `cmd/jellyfaas.go`: waiting for a deployment

`checkIfDeployedSuccessfully` polls the status of every operation of a
deployment, round after round.  It returns nothing: what can be observed of a
session is the sequence of its status requests, console messages and pauses. -/

/-- The constant `p48CoreService`. -/
def p48CoreService : String := "https://api.jellyfaas.com/core-service/v1"

/-- The constant `jfApikeyHeader`, the header that carries the key. -/
def jfApikeyHeader : String := "x-jf-apikey"

/-- The constant `maxOpsLoops`. -/
def maxOpsLoops : Nat := 10

/-- The local struct `opsLinkStatus` of `checkIfDeployedSuccessfully`. -/
structure opsLinkStatus where
  Complete : Bool
  opsUrl : String
  opsLink : String
  functionId : String
  deriving DecidableEq, Repr

/-- What one call `client.NewRequest()...Get(v.opsLink)` yields: whether `err`
is non-nil, the status code of the response, and the field `Status` that
`SetSuccessResult` has filled into `ops`. -/
structure Response where
  err : Bool
  StatusCode : Nat
  Status : String
  deriving DecidableEq, Repr

/-- The answers of the status endpoint: `responses i index` is the answer to
the request made in round `i` for the handle at position `index`.  The session
makes that request at most once, so every sequence of answers is of this
form. -/
abbrev Responses := Nat → Nat → Response

/-- What a session does that can be observed from outside: a status request
(made in round `round` for the handle at `index`, to `url`, with `key` in the
header `jfApikeyHeader`, answered by `response`), the three console messages,
and a pause of `seconds` seconds. -/
inductive Event where
  | poll (round index : Nat) (url key : String) (response : Response)
  | errorMessage
  | progress (round max : Nat) (status : String)
  | success
  | sleep (seconds : Nat)
  deriving DecidableEq, Repr

/-- The first loop of `checkIfDeployedSuccessfully`: one handle is appended
for every operation id, in order. -/
def buildHandles (functionId : String) : List String → List opsLinkStatus → List opsLinkStatus
  | [], opsLinkStatuses => opsLinkStatuses
  | v :: rest, opsLinkStatuses =>
    buildHandles functionId rest
      (opsLinkStatuses ++
        [{ Complete := false, opsUrl := "",
           opsLink := p48CoreService ++ "/upload/" ++ v ++ "/" ++ functionId,
           functionId := "" }])

/-- How the inner loop over the handles ends: whether it left the function by
`return`, the handles as it leaves them, and what it did. -/
structure RoundResult where
  aborted : Bool
  handles : List opsLinkStatus
  events : List Event
  deriving DecidableEq, Repr

/-- The inner loop `for index, v := range opsLinkStatuses` of round `i`, from
position `index` on: a complete handle is skipped; a pending one is polled; a
failed request or a status code other than 200 prints the error message and
leaves the function; the status `DEPLOYED` marks the handle complete, any
other status prints the progress message. -/
def pollHandles (responses : Responses) (key : String) (i : Nat) :
    Nat → List opsLinkStatus → RoundResult
  | _, [] => { aborted := false, handles := [], events := [] }
  | index, v :: rest =>
    if v.Complete then
      let r := pollHandles responses key i (index + 1) rest
      { aborted := r.aborted, handles := v :: r.handles, events := r.events }
    else if (responses i index).err || (responses i index).StatusCode != 200 then
      { aborted := true, handles := v :: rest,
        events := [.poll i index v.opsLink key (responses i index), .errorMessage] }
    else if (responses i index).Status == "DEPLOYED" then
      let r := pollHandles responses key i (index + 1) rest
      { aborted := r.aborted, handles := { v with Complete := true } :: r.handles,
        events := .poll i index v.opsLink key (responses i index) :: r.events }
    else
      let r := pollHandles responses key i (index + 1) rest
      { aborted := r.aborted, handles := v :: r.handles,
        events := .poll i index v.opsLink key (responses i index) ::
          .progress i maxOpsLoops (responses i index).Status :: r.events }

/-- The loop that computes `allComplete`. -/
def allComplete (opsLinkStatuses : List opsLinkStatus) : Bool :=
  opsLinkStatuses.foldl (fun all v => if !v.Complete then false else all) true

/-- How a session ends: by the `return` after the error message, by the
`return` after the success message, or by leaving the outer loop after its
last round. -/
inductive Ending where
  | aborted
  | succeeded
  | exhausted
  deriving DecidableEq, Repr

/-- A session: what it did, in order, the handles as it leaves them, the
number of rounds it began, and how it ended. -/
structure Session where
  events : List Event
  handles : List opsLinkStatus
  rounds : Nat
  ending : Ending
  deriving DecidableEq, Repr

/-- The outer loop `for i := 1; i < maxOpsLoops+1; i++`, entered at round `i`
with `remaining` rounds to go (`remaining = maxOpsLoops + 1 - i`): the handles
are polled; the function returns if a request failed, and also, after the
success message, if every handle is complete; otherwise it sleeps 30 seconds
and goes to the next round. -/
def pollRounds (responses : Responses) (key : String) :
    Nat → Nat → List opsLinkStatus → Session
  | 0, _, opsLinkStatuses =>
    { events := [], handles := opsLinkStatuses, rounds := 0, ending := .exhausted }
  | remaining + 1, i, opsLinkStatuses =>
    let r := pollHandles responses key i 0 opsLinkStatuses
    if r.aborted then
      { events := r.events, handles := r.handles, rounds := 1, ending := .aborted }
    else if allComplete r.handles then
      { events := r.events ++ [.success], handles := r.handles, rounds := 1,
        ending := .succeeded }
    else
      let s := pollRounds responses key remaining (i + 1) r.handles
      { events := r.events ++ .sleep 30 :: s.events, handles := s.handles,
        rounds := s.rounds + 1, ending := s.ending }

/-- The function `checkIfDeployedSuccessfully`, run against the answers
`responses` of the status endpoint. -/
def checkIfDeployedSuccessfully (responses : Responses) (functionId : String)
    (opsLink : List String) (key : String) : Session :=
  pollRounds responses key maxOpsLoops 1 (buildHandles functionId opsLink [])

/-- The number of status requests among the events. -/
def countPolls (events : List Event) : Nat :=
  events.countP fun e => match e with
    | .poll _ _ _ _ _ => true
    | _ => false

/-- The number of status requests for the handle at `index`. -/
def countPollsOf (index : Nat) (events : List Event) : Nat :=
  events.countP fun e => match e with
    | .poll _ j _ _ _ => j == index
    | _ => false

/-- The number of status requests made in round `i` for the handle at `index`. -/
def countPollsIn (i index : Nat) (events : List Event) : Nat :=
  events.countP fun e => match e with
    | .poll r j _ _ _ => r == i && j == index
    | _ => false

/-- The number of pauses among the events. -/
def countSleeps (events : List Event) : Nat :=
  events.countP fun e => match e with
    | .sleep _ => true
    | _ => false

/-- A request that makes the session give up: it failed, or its status code
is not 200. -/
def Response.bad (r : Response) : Bool := r.err || r.StatusCode != 200

/-- The events after which a session goes on: a status request that did not
make it give up, a progress message, a pause. -/
def Event.calm : Event → Bool
  | .poll _ _ _ _ r => !r.bad
  | .progress _ _ _ => true
  | .sleep _ => true
  | _ => false

/-- The events of a session that ended as `ending` says: after events that let
it go on, a session that gave up made a request that failed and printed the
error message, and a session that succeeded printed the success message. -/
def Ending.shapes (ending : Ending) (events : List Event) : Prop :=
  match ending with
  | .aborted => ∃ pre i index url key r, events = pre ++ [.poll i index url key r, .errorMessage] ∧
      r.bad = true ∧ ∀ e ∈ pre, e.calm = true
  | .succeeded => ∃ pre, events = pre ++ [.success] ∧ ∀ e ∈ pre, e.calm = true
  | .exhausted => ∀ e ∈ events, e.calm = true

/-- How a handle may differ from what it was earlier in the session: nothing
but `Complete` has changed, and that only from false to true. -/
def opsLinkStatus.advances (a b : opsLinkStatus) : Prop :=
  b.opsUrl = a.opsUrl ∧ b.opsLink = a.opsLink ∧ b.functionId = a.functionId ∧
    (a.Complete = true → b.Complete = true)

/-- How the handle list may differ from what it was earlier in the session:
the same handles at the same places, but for those that have become
complete. -/
def keeps (earlier later : List opsLinkStatus) : Prop :=
  List.Forall₂ opsLinkStatus.advances earlier later

/-- The inner loop once more, as `pollHandles` has it, now yielding the states
of `opsLinkStatuses` at the end of each of its iterations: `done` are the
handles before position `index`, as the loop has left them, and the last
argument those from `index` on. -/
def pollHandlesStates (responses : Responses) (i : Nat) :
    Nat → List opsLinkStatus → List opsLinkStatus → List (List opsLinkStatus)
  | _, _, [] => []
  | index, done, v :: rest =>
    if v.Complete then
      (done ++ v :: rest) :: pollHandlesStates responses i (index + 1) (done ++ [v]) rest
    else if (responses i index).err || (responses i index).StatusCode != 200 then
      [done ++ v :: rest]
    else if (responses i index).Status == "DEPLOYED" then
      (done ++ { v with Complete := true } :: rest) ::
        pollHandlesStates responses i (index + 1) (done ++ [{ v with Complete := true }]) rest
    else
      (done ++ v :: rest) :: pollHandlesStates responses i (index + 1) (done ++ [v]) rest

/-- The outer loop once more, as `pollRounds` has it, now yielding the states
of `opsLinkStatuses` at the end of every iteration of the inner loop, round
after round. -/
def pollRoundsStates (responses : Responses) (key : String) :
    Nat → Nat → List opsLinkStatus → List (List opsLinkStatus)
  | 0, _, _ => []
  | remaining + 1, i, opsLinkStatuses =>
    let r := pollHandles responses key i 0 opsLinkStatuses
    pollHandlesStates responses i 0 [] opsLinkStatuses ++
      (if r.aborted then []
        else if allComplete r.handles then []
        else pollRoundsStates responses key remaining (i + 1) r.handles)

/-- The states of `opsLinkStatuses` in the course of a session, from the list
as built to the list as the session leaves it. -/
def sessionStates (responses : Responses) (functionId : String) (opsLink : List String)
    (key : String) : List (List opsLinkStatus) :=
  buildHandles functionId opsLink [] ::
    pollRoundsStates responses key maxOpsLoops 1 (buildHandles functionId opsLink [])

/-- Whether an event is a status request. -/
def Event.isPoll : Event → Bool
  | .poll _ _ _ _ _ => true
  | _ => false

/-- The handles from position `index` on that are not complete, each with its
position and its polling URL, in the order of the list. -/
def pending : Nat → List opsLinkStatus → List (Nat × String)
  | _, [] => []
  | index, v :: rest =>
    if v.Complete then pending (index + 1) rest
    else (index, v.opsLink) :: pending (index + 1) rest

end cmd

namespace entities

/-! ## Facts about `strconv.ParseInt` -/

/-- Reading further digits never lowers the value read so far. -/
theorem le_foldl_digits (ds : List Char) (n : Nat) :
    n ≤ ds.foldl (fun n c => n * 10 + digitVal c) n := by
  induction ds generalizing n with
  | nil => exact Nat.le_refl n
  | cons c cs ih =>
    have h := ih (n * 10 + digitVal c)
    simp only [List.foldl_cons]
    omega

/-- On decimal digits whose value fits in 64 bits the loop of `ParseUint`
returns that value. -/
theorem parseUintLoop_digits (ds : List Char) (n : Nat)
    (hd : ∀ c ∈ ds, c.isDigit = true)
    (hle : ds.foldl (fun n c => n * 10 + digitVal c) n ≤ 2 ^ 64 - 1) :
    parseUintLoop ds n = .ok (ds.foldl (fun n c => n * 10 + digitVal c) n) := by
  induction ds generalizing n with
  | nil => rfl
  | cons c cs ih =>
    have hc : c.isDigit = true := hd c (List.mem_cons_self c cs)
    have hmono := le_foldl_digits cs (n * 10 + digitVal c)
    simp only [List.foldl_cons] at hle ⊢
    have h1 : ¬ (n ≥ (2 ^ 64 - 1) / 10 + 1) := by
      norm_num at hle ⊢
      omega
    have h2 : ¬ (n * 10 + digitVal c > 2 ^ 64 - 1) := by
      norm_num at hle ⊢
      omega
    rw [parseUintLoop, if_pos hc, if_neg h1, if_neg h2]
    exact ih _ (fun d hdm => hd d (List.mem_cons_of_mem c hdm)) hle

/-- The loop of `ParseUint` returns a value only when every character is a
decimal digit. -/
theorem parseUintLoop_ok_digits (cs : List Char) (n m : Nat)
    (h : parseUintLoop cs n = .ok m) : ∀ c ∈ cs, c.isDigit = true := by
  induction cs generalizing n with
  | nil => simp
  | cons c cs ih =>
    rw [parseUintLoop] at h
    split_ifs at h with hc h1 h2
    intro d hd
    rcases List.mem_cons.mp hd with rfl | hmem
    · exact hc
    · exact ih _ h d hmem

/-- The method `Int64` fails on every literal that has a character other
than a digit after its first character: a point or an exponent mark keeps a
number from being typed "integer". -/
theorem Int64_error_of_non_digit (c : Char) (cs : List Char) (x : Char) (hx : x ∈ cs)
    (hnd : x.isDigit = false) : ∃ e, Number.Int64 (String.mk (c :: cs)) = .error e := by
  have key : ∀ body, x ∈ body → ∃ e, ParseUint body = .error e := by
    intro body hb
    cases hu : ParseUint body with
    | error e => exact ⟨e, rfl⟩
    | ok m =>
      exfalso
      cases body with
      | nil => simp at hb
      | cons b bs =>
        have := parseUintLoop_ok_digits (b :: bs) 0 m hu x hb
        rw [hnd] at this
        cases this
  simp only [Number.Int64, ParseInt]
  by_cases hs : (c == '+' || c == '-') = true
  · obtain ⟨e, he⟩ := key cs hx
    simp only [hs, if_true, he]
    cases e <;> exact ⟨_, rfl⟩
  · obtain ⟨e, he⟩ := key (c :: cs) (List.mem_cons_of_mem c hx)
    have hs2 : (c == '+' || c == '-') = false := Bool.eq_false_iff.mpr hs
    simp only [hs2, Bool.false_eq_true, if_false, he]
    cases e <;> exact ⟨_, rfl⟩

/-- A decimal digit is neither sign character. -/
theorem isDigit_not_sign (c : Char) (h : c.isDigit = true) : c ≠ '+' ∧ c ≠ '-' := by
  constructor
  · rintro rfl
    revert h
    decide
  · rintro rfl
    revert h
    decide

/-- On an optional minus sign followed by decimal digits whose value is within
the signed 64-bit range, `ParseInt` returns without error. -/
theorem ParseInt_int64_literal (neg : Bool) (ds : List Char) (hne : ds ≠ [])
    (hd : ∀ c ∈ ds, c.isDigit = true)
    (hrange : if neg = true then digitsVal ds ≤ 2 ^ 63 else digitsVal ds < 2 ^ 63) :
    ParseInt ((if neg = true then ['-'] else []) ++ ds) =
      .ok (if neg = true then -(digitsVal ds : Int) else (digitsVal ds : Int)) := by
  have hle : ds.foldl (fun n c => n * 10 + digitVal c) 0 ≤ 2 ^ 64 - 1 := by
    have : digitsVal ds ≤ 2 ^ 63 := by
      cases neg <;> simp at hrange <;> omega
    unfold digitsVal at this
    norm_num at this ⊢
    omega
  have hu : ParseUint ds = .ok (digitsVal ds) := by
    cases ds with
    | nil => exact absurd rfl hne
    | cons c cs => exact parseUintLoop_digits (c :: cs) 0 hd hle
  cases neg with
  | true =>
    simp only [if_true] at hrange ⊢
    norm_num at hrange
    have h3 : ¬ (9223372036854775808 < digitsVal ds) := by omega
    simp [ParseInt, hu, h3]
  | false =>
    simp only [Bool.false_eq_true, if_false] at hrange ⊢
    norm_num at hrange
    cases ds with
    | nil => exact absurd rfl hne
    | cons c cs =>
      have hc : c.isDigit = true := hd c (List.mem_cons_self c cs)
      obtain ⟨hp, hm⟩ := isDigit_not_sign c hc
      have h3 : ¬ (9223372036854775808 ≤ digitsVal (c :: cs)) := by omega
      simp [ParseInt, hp, hm, hu, h3]

/-! ## The scanner stays consistent -/

/-- A value completed where one was awaited ends the scan or leaves the
scanner in `stateEndValue`, consistent. -/
theorem complete_done_or_endValue (s : Scanner) (v : JValue) (h1 : awaitsValue s.stack = true)
    (h2 : s.stack.tail.all Frame.awaitsValue = true) :
    (∃ w, complete s v = .done w) ∨
      ∃ s1, complete s v = .next s1 ∧ s1.step = .endValue ∧ s1.consistent := by
  obtain ⟨step, stack, tok, pos⟩ := s
  rcases stack with _ | ⟨f, rest⟩
  · exact Or.inl ⟨v, rfl⟩
  · cases f <;> simp only [awaitsValue, Frame.awaitsValue, Bool.false_eq_true] at h1
    · exact Or.inr ⟨_, rfl, rfl, rfl, h2⟩
    · exact Or.inr ⟨_, rfl, rfl, rfl, h2⟩

/-- A value completed where one was awaited yields a good step result. -/
theorem complete_good (s : Scanner) (v : JValue) (h1 : awaitsValue s.stack = true)
    (h2 : s.stack.tail.all Frame.awaitsValue = true) : (complete s v).good := by
  rcases complete_done_or_endValue s v h1 h2 with ⟨w, hw⟩ | ⟨s1, hs, _, hc⟩
  · rw [hw]; trivial
  · rw [hs]; exact hc

/-- A stack on which a value is awaited, with every entry below the top
awaiting one, consists of such entries only. -/
theorem all_of_tail (stack : List Frame) (h1 : awaitsValue stack = true)
    (h2 : stack.tail.all Frame.awaitsValue = true) : stack.all Frame.awaitsValue = true := by
  cases stack with
  | nil => rfl
  | cons f rest =>
    simp only [awaitsValue] at h1
    simp only [List.tail_cons] at h2
    simp [h1, h2]

/-- Below an entry, a stack of entries that await a value is again such a
stack. -/
theorem tail_awaits (rest : List Frame)
    (h2 : rest.all Frame.awaitsValue = true) :
    awaitsValue rest = true ∧ rest.tail.all Frame.awaitsValue = true := by
  cases rest with
  | nil => exact ⟨rfl, rfl⟩
  | cons g tl =>
    simp only [List.all_cons, Bool.and_eq_true] at h2
    exact ⟨h2.1, h2.2⟩

/-- The function `stateEndValue` keeps a consistent scanner consistent. -/
theorem stateEndValue_good (order : RangeOrder) (s : Scanner) (c : Char)
    (h1 : afterEntry s.stack = true) (h2 : s.stack.tail.all Frame.awaitsValue = true) :
    (stateEndValue order s c).good := by
  obtain ⟨step, stack, tok, pos⟩ := s
  simp only at h1 h2
  unfold stateEndValue
  by_cases hsp : isSpace c = true
  · simp only [hsp, if_true]
    exact ⟨h1, h2⟩
  · simp only [hsp, if_false, Bool.false_eq_true]
    rcases stack with _ | ⟨f, rest⟩
    · simp [afterEntry] at h1
    · simp only [List.tail_cons] at h2
      obtain ⟨h3, h4⟩ := tail_awaits rest h2
      cases f <;> simp only [afterEntry, Bool.false_eq_true] at h1
      · simp only
        split_ifs
        · exact ⟨by simp [stepFits, awaitsValue, Frame.awaitsValue], h2⟩
        · exact complete_good _ _ h3 h4
        · simp [StepResult.good]
      · simp only
        split_ifs
        · exact ⟨by simp [stepFits, awaitsValue, Frame.awaitsValue], h2⟩
        · simp [StepResult.good]
      · simp only
        split_ifs
        · exact ⟨by simp [stepFits, awaitsKey], h2⟩
        · exact complete_good _ _ h3 h4
        · simp [StepResult.good]

/-- Pushing an entry on a stack of entries that await a value keeps the
scanner consistent. -/
theorem pushParseState_good (s : Scanner) (frame : Frame) (successState : Step)
    (hfit : stepFits successState (frame :: s.stack) = true)
    (hall : s.stack.all Frame.awaitsValue = true) :
    (pushParseState s frame successState).good := by
  unfold pushParseState
  by_cases h : (frame :: s.stack).length ≤ maxNestingDepth
  · rw [if_pos h]
    exact ⟨hfit, hall⟩
  · rw [if_neg h]
    simp [StepResult.good]

/-- The function `stateBeginValue` keeps a consistent scanner consistent. -/
theorem stateBeginValue_good (s : Scanner) (c : Char) (h1 : awaitsValue s.stack = true)
    (h2 : s.stack.tail.all Frame.awaitsValue = true) (hstep : stepFits s.step s.stack = true) :
    (stateBeginValue s c).good := by
  have hall := all_of_tail s.stack h1 h2
  unfold stateBeginValue
  repeat' split
  · exact ⟨hstep, h2⟩
  · exact pushParseState_good s _ _ rfl hall
  · exact pushParseState_good s _ _ rfl hall
  · exact ⟨Bool.or_eq_true_iff.mpr (Or.inl h1), h2⟩
  · exact ⟨h1, h2⟩
  · exact ⟨h1, h2⟩
  · exact ⟨h1, h2⟩
  · exact ⟨h1, h2⟩
  · exact ⟨h1, h2⟩
  · exact ⟨h1, h2⟩
  · simp [StepResult.good]

/-- The function `stateBeginString` keeps a consistent scanner consistent. -/
theorem stateBeginString_good (s : Scanner) (c : Char) (h1 : awaitsKey s.stack = true)
    (h2 : s.stack.tail.all Frame.awaitsValue = true) (hstep : stepFits s.step s.stack = true) :
    (stateBeginString s c).good := by
  unfold stateBeginString
  split_ifs
  · exact ⟨hstep, h2⟩
  · exact ⟨by simp [stepFits, h1], h2⟩
  · simp [StepResult.good]

/-- The end of a string literal keeps a consistent scanner consistent. -/
theorem endString_good (s : Scanner)
    (h1 : (awaitsValue s.stack || awaitsKey s.stack) = true)
    (h2 : s.stack.tail.all Frame.awaitsValue = true) : (endString s).good := by
  obtain ⟨step, stack, tok, pos⟩ := s
  simp only at h1 h2
  unfold endString
  rcases stack with _ | ⟨f, rest⟩
  · exact complete_good _ _ rfl rfl
  · cases f <;>
      simp only [awaitsValue, awaitsKey, Frame.awaitsValue, Bool.or_false, Bool.false_eq_true,
        Bool.or_self] at h1
    · exact complete_good _ _ rfl h2
    · exact ⟨rfl, h2⟩
    · exact complete_good _ _ rfl h2

/-- The end of a number literal keeps a consistent scanner consistent. -/
theorem endNumber_good (order : RangeOrder) (s : Scanner) (c : Char)
    (h1 : awaitsValue s.stack = true) (h2 : s.stack.tail.all Frame.awaitsValue = true) :
    (endNumber order s c).good := by
  unfold endNumber
  rcases complete_done_or_endValue s (.number (String.mk s.tok.reverse)) h1 h2 with ⟨w, hw⟩ | ⟨s1, hs, hstep, hc⟩
  · rw [hw]; trivial
  · rw [hs]
    have hfit := hc.1
    rw [hstep] at hfit
    exact stateEndValue_good order s1 c hfit hc.2

/-- The function `state0` keeps a consistent scanner consistent. -/
theorem state0_good (order : RangeOrder) (s : Scanner) (c : Char)
    (h1 : awaitsValue s.stack = true) (h2 : s.stack.tail.all Frame.awaitsValue = true) :
    (state0 order s c).good := by
  unfold state0
  split_ifs
  · exact ⟨by simp [stepFits, h1], h2⟩
  · exact ⟨by simp [stepFits, h1], h2⟩
  · exact endNumber_good order s c h1 h2

/-- The function `stateESign` keeps a consistent scanner consistent. -/
theorem stateESign_good (s : Scanner) (c : Char)
    (h1 : awaitsValue s.stack = true) (h2 : s.stack.tail.all Frame.awaitsValue = true) :
    (stateESign s c).good := by
  unfold stateESign
  split_ifs
  · exact ⟨by simp [stepFits, h1], h2⟩
  · simp [StepResult.good]

/-- A step inside a literal keeps a consistent scanner consistent. -/
theorem literalStep_good (s : Scanner) (c expected : Char) (nextStep : Step) (lit : String)
    (hfit : stepFits nextStep s.stack = true)
    (h2 : s.stack.tail.all Frame.awaitsValue = true) :
    (literalStep s c expected nextStep lit).good := by
  unfold literalStep
  split_ifs
  · exact ⟨hfit, h2⟩
  · simp [StepResult.good]

/-- On a stack with an array on top a value may follow, and so may the end
of the array. -/
theorem awaitsValue_of_element (stack : List Frame) (h : awaitsElement stack = true) :
    awaitsValue stack = true ∧ afterEntry stack = true := by
  rcases stack with _ | ⟨f, rest⟩
  · simp [awaitsElement] at h
  · cases f <;> simp [awaitsElement] at h
    exact ⟨rfl, rfl⟩

/-- One step keeps a consistent scanner consistent and never yields the
marker `internal`. -/
theorem stepChar_good (order : RangeOrder) (s : Scanner) (c : Char) (h : s.consistent) :
    (stepChar order s c).good := by
  obtain ⟨step, stack, tok, pos⟩ := s
  obtain ⟨h1, h2⟩ := h
  simp only at h1 h2
  cases step <;> simp only [stepFits] at h1 <;> simp only [stepChar]
  case beginValue => exact stateBeginValue_good _ c h1 h2 h1
  case beginString => exact stateBeginString_good _ c h1 h2 h1
  case endValue => exact stateEndValue_good order _ c h1 h2
  case beginValueOrEmpty =>
    obtain ⟨h3, h4⟩ := awaitsValue_of_element stack h1
    repeat' split
    · exact ⟨h1, h2⟩
    · exact stateEndValue_good order _ c h4 h2
    · exact stateBeginValue_good _ c h3 h2 h1
  case beginStringOrEmpty =>
    split
    · exact ⟨h1, h2⟩
    · split
      · rcases stack with _ | ⟨f, rest⟩
        · simp [awaitsKey] at h1
        · cases f <;> simp only [awaitsKey, Bool.false_eq_true] at h1
          exact stateEndValue_good order _ c rfl h2
      · exact stateBeginString_good _ c h1 h2 h1
  case inString =>
    repeat' split
    · exact endString_good _ h1 h2
    · exact ⟨h1, h2⟩
    · simp [StepResult.good]
    · exact ⟨h1, h2⟩
  case s1 =>
    split
    · exact ⟨h1, h2⟩
    · exact state0_good order _ c h1 h2
  case s0 => exact state0_good order _ c h1 h2
  case dot0 =>
    repeat' split
    · exact ⟨h1, h2⟩
    · exact ⟨h1, h2⟩
    · exact endNumber_good order _ c h1 h2
  case e =>
    split
    · exact ⟨h1, h2⟩
    · exact stateESign_good _ c h1 h2
  case eSign => exact stateESign_good _ c h1 h2
  case e0 =>
    split
    · exact ⟨h1, h2⟩
    · exact endNumber_good order _ c h1 h2
  case tru =>
    split
    · exact complete_good _ _ h1 h2
    · simp [StepResult.good]
  case fals =>
    split
    · exact complete_good _ _ h1 h2
    · simp [StepResult.good]
  case nul =>
    split
    · exact complete_good _ _ h1 h2
    · simp [StepResult.good]
  all_goals first
    | exact literalStep_good _ c _ _ _ h1 h2
    | (repeat' split) <;> first
      | exact ⟨h1, h2⟩
      | simp [StepResult.good]

/-- The loop of `readValue` never returns the marker `internal` from a
consistent scanner. -/
theorem readValue_ne_internal (order : RangeOrder) (cs : List Char) (s : Scanner)
    (h : s.consistent) : readValue order s cs ≠ .error .internal := by
  induction cs generalizing s with
  | nil =>
    rw [readValue]
    cases he : atEOF s with
    | ok v => simp
    | error e =>
      have hne : e ≠ .internal := by
        rintro rfl
        unfold atEOF at he
        split at he <;> cases he
      simpa using hne
  | cons c cs ih =>
    have hg := stepChar_good order s c h
    rw [readValue]
    cases hs : stepChar order s c with
    | next s1 =>
      rw [hs] at hg
      exact ih s1 hg
    | done v => simp
    | doneBefore v => simp
    | fail e =>
      rw [hs] at hg
      simp only [StepResult.good] at hg
      simpa using hg

/-- The decoder never returns the marker `internal`: the combinations of step
function and stack it stands for are never reached. -/
theorem Decode_ne_internal (order : RangeOrder) (jsonString : String) :
    Decode order jsonString ≠ .error .internal := by
  have h := readValue_ne_internal order jsonString.data Scanner.reset ⟨rfl, rfl⟩
  unfold Decode
  cases hr : readValue order Scanner.reset jsonString.data with
  | ok p => simp
  | error e =>
    rw [hr] at h
    simpa using h

/-! ## The decoder and the top-level function -/

/-- On a text of white space alone the decoder finds no value: `io.EOF`. -/
theorem readValue_blank (order : RangeOrder) (cs : List Char) (s : Scanner)
    (hstep : s.step = .beginValue) (hstack : s.stack = [])
    (hblank : cs.all isSpace = true) :
    readValue order s cs = .error .eof := by
  induction cs generalizing s with
  | nil =>
    obtain ⟨step, stack, tok, pos⟩ := s
    simp only at hstep hstack
    subst hstep
    subst hstack
    rfl
  | cons c cs ih =>
    simp only [List.all_cons, Bool.and_eq_true] at hblank
    have hc : stepChar order s c = .next { s with pos := s.pos + 1 } := by
      simp only [stepChar, hstep, stateBeginValue, hblank.1, if_true]
    rw [readValue, hc]
    exact ih _ hstep hstack hblank.2

/-- A text of white space alone, the empty text included, is answered with
the error `io.EOF` and no schema text. -/
theorem GenerateJsonSchemaFromJsonString_blank (order : RangeOrder) (jsonString : String)
    (flat : Bool) (hblank : jsonString.data.all isSpace = true) :
    GenerateJsonSchemaFromJsonString order jsonString flat = .returned (.error .eof) := by
  simp only [GenerateJsonSchemaFromJsonString, Decode,
    readValue_blank order jsonString.data Scanner.reset rfl rfl hblank]

/-- The fixed entries of the root schema: whatever `generateSchema` returned,
"type" is "object", "$schema" the draft 2020-12 URI and "title" the fixed
title; "properties" is the "properties" entry of the node of the root value
and "required" the required list returned for it. -/
theorem rootSchema_entries (schemaProperties : GoMap) (required : List String) :
    mapLookup (rootSchema schemaProperties required) "type" = some (GoValue.str "object") ∧
    mapLookup (rootSchema schemaProperties required) "$schema"
      = some (GoValue.str "https://json-schema.org/draft/2020-12/schema") ∧
    mapLookup (rootSchema schemaProperties required) "title"
      = some (GoValue.str "Generated schema from jellyfaas") ∧
    mapLookup (rootSchema schemaProperties required) "properties"
      = some (mapIndex schemaProperties "properties") ∧
    mapLookup (rootSchema schemaProperties required) "required"
      = some (GoValue.strings required) :=
  ⟨rfl, rfl, rfl, rfl, rfl⟩

/-- The indented encoding is returned for a value that nests no deeper than
`maxNestingDepth`. -/
theorem MarshalIndent_ok (v : GoValue) (h : v.nesting ≤ maxNestingDepth) :
    MarshalIndent v = .ok (encodeIndent 0 v) := by
  rw [MarshalIndent, Marshal]
  exact if_pos h

/-- The error `exceeded max depth` is returned for a value that nests deeper
than `maxNestingDepth`. -/
theorem MarshalIndent_error (v : GoValue) (h : maxNestingDepth < v.nesting) :
    MarshalIndent v = .error .exceededMaxDepth := by
  rw [MarshalIndent, Marshal]
  exact if_neg (Nat.not_le.mpr h)

/-- The only error of `MarshalIndent` on these values is `exceeded max depth`,
for a value that nests deeper than `maxNestingDepth`. -/
theorem MarshalIndent_error_iff (v : GoValue) (e : JsonError) :
    MarshalIndent v = .error e ↔ maxNestingDepth < v.nesting ∧ e = .exceededMaxDepth := by
  by_cases h : v.nesting ≤ maxNestingDepth
  · rw [MarshalIndent_ok v h]
    constructor
    · intro h2
      cases h2
    · intro h2
      exact absurd h2.1 (Nat.not_lt.mpr h)
  · rw [MarshalIndent_error v (Nat.not_le.mp h)]
    constructor
    · intro h2
      cases h2
      exact ⟨Nat.not_le.mp h, rfl⟩
    · intro h2
      rw [h2.2]

/-- When the text decodes and `generateSchema` returns for the decoded value,
the function returns what encoding the root schema built from that result
yields: the compact text when `flat` is set, and otherwise the result of
`MarshalIndent`, a text or an error. -/
theorem GenerateJsonSchemaFromJsonString_returned (order : RangeOrder) (jsonString : String)
    (flat : Bool) (data : JValue) (node : GoMap) (required : List String)
    (hdata : Decode order jsonString = .ok data)
    (hnode : generateSchema data = .returned (node, required)) :
    GenerateJsonSchemaFromJsonString order jsonString flat =
      .returned (if flat = true then .ok (encode (GoValue.map (rootSchema node required)))
        else MarshalIndent (GoValue.map (rootSchema node required))) := by
  cases flat
  · simp only [GenerateJsonSchemaFromJsonString, hdata, hnode, Bool.false_eq_true, if_false]
    cases MarshalIndent (GoValue.map (rootSchema node required)) <;> rfl
  · simp [GenerateJsonSchemaFromJsonString, hdata, hnode, Marshal]

/-- When the decoder fails the function returns the decoder's error, whatever
`flat` is. -/
theorem GenerateJsonSchemaFromJsonString_decode_error (order : RangeOrder)
    (jsonString : String) (flat : Bool) (e : JsonError) (h : Decode order jsonString = .error e) :
    GenerateJsonSchemaFromJsonString order jsonString flat = .returned (.error e) := by
  simp only [GenerateJsonSchemaFromJsonString, h]

/-- The function returns an error in two cases only: when the decoder fails,
and then it is the decoder's error; and, with `flat` not set, when the root
schema nests deeper than `maxNestingDepth`, and then it is `exceeded max depth`
from `MarshalIndent`. -/
theorem GenerateJsonSchemaFromJsonString_error_iff (order : RangeOrder) (jsonString : String)
    (flat : Bool) (e : JsonError) :
    GenerateJsonSchemaFromJsonString order jsonString flat = .returned (.error e) ↔
      Decode order jsonString = .error e ∨
      (flat = false ∧ ∃ data node required, Decode order jsonString = .ok data ∧
        generateSchema data = .returned (node, required) ∧
        maxNestingDepth < (GoValue.map (rootSchema node required)).nesting ∧
        e = .exceededMaxDepth) := by
  cases hd : Decode order jsonString with
  | error err =>
    rw [GenerateJsonSchemaFromJsonString_decode_error order jsonString flat err hd]
    constructor
    · intro h
      cases h
      exact Or.inl rfl
    · rintro (h | ⟨_, _, _, _, h, _⟩)
      · cases h
        rfl
      · cases h
  | ok data =>
    cases hg : generateSchema data with
    | panicked =>
      have hp : GenerateJsonSchemaFromJsonString order jsonString flat = .panicked := by
        simp [GenerateJsonSchemaFromJsonString, hd, hg]
      rw [hp]
      constructor
      · intro h
        cases h
      · rintro (h | ⟨_, d, n, r, h1, h2, _⟩)
        · cases h
        · cases h1
          rw [hg] at h2
          cases h2
    | returned p =>
      obtain ⟨node, required⟩ := p
      have hr : GenerateJsonSchemaFromJsonString order jsonString flat =
          .returned (if flat = true then .ok (encode (GoValue.map (rootSchema node required)))
            else MarshalIndent (GoValue.map (rootSchema node required))) := by
        cases flat
        · simp only [GenerateJsonSchemaFromJsonString, hd, hg, Bool.false_eq_true, if_false]
          cases MarshalIndent (GoValue.map (rootSchema node required)) <;> rfl
        · simp [GenerateJsonSchemaFromJsonString, hd, hg, Marshal]
      rw [hr]
      cases flat with
      | true =>
        rw [if_pos rfl]
        constructor
        · intro h
          cases h
        · rintro (h | ⟨h, _⟩)
          · cases h
          · cases h
      | false =>
        rw [if_neg Bool.false_ne_true]
        constructor
        · intro h
          have h2 : MarshalIndent (GoValue.map (rootSchema node required)) = .error e :=
            Outcome.returned.inj h
          obtain ⟨h3, h4⟩ := (MarshalIndent_error_iff _ e).mp h2
          exact Or.inr ⟨rfl, data, node, required, rfl, hg, h3, h4⟩
        · rintro (h | ⟨_, d, n, r, h1, h2, h3, h4⟩)
          · cases h
          · cases h1
            rw [hg] at h2
            cases h2
            rw [(MarshalIndent_error_iff _ e).mpr ⟨h3, h4⟩]

/-- When the text decodes and `generateSchema` panics on the decoded value, so
does the function. -/
theorem GenerateJsonSchemaFromJsonString_panicked (order : RangeOrder) (jsonString : String)
    (flat : Bool) (data : JValue)
    (hdata : Decode order jsonString = .ok data)
    (hnode : generateSchema data = .panicked) :
    GenerateJsonSchemaFromJsonString order jsonString flat = .panicked := by
  simp [GenerateJsonSchemaFromJsonString, hdata, hnode]

/-! ## The schema nodes of numbers and arrays -/

/-- The node of a value whose type name `getJSONType` returns and that is
neither an array nor an object: the type name alone, and no required keys. -/
theorem generateSchema_number (lit : String) :
    generateSchema (.number lit) =
      match getJSONType (.number lit) with
      | .panicked => .panicked
      | .returned t => .returned ([("type", GoValue.str t)], []) := by
  rw [generateSchema]
  · intro _ h
    cases h
  · intro _ h
    cases h

/-- The node of a non-empty array is built from the node of its first element
alone, and the array panics exactly when its first element does. -/
theorem generateSchema_array_cons (first : JValue) (rest : List JValue) :
    generateSchema (.array (first :: rest)) =
      match generateSchema first with
      | .panicked => .panicked
      | .returned (itemSchema, _) =>
        .returned ([("type", GoValue.str "array"), ("items", GoValue.map itemSchema)], []) := by
  rw [generateSchema]
  rfl

/-- The array of the spec's example, 1 followed by the string `x`: "items" is
the node of 1, of type "integer", and the string leaves no trace. -/
theorem generateSchema_array_example :
    Decode RangeOrder.insertion "\x7b\"a\": [1, \"x\"]\x7d"
      = .ok (.object [("a", .array [.number "1", .string "x"])]) ∧
    generateSchema (.array [.number "1", .string "x"])
      = .returned ([("type", GoValue.str "array"),
          ("items", GoValue.map [("type", GoValue.str "integer")])], []) :=
  ⟨rfl, rfl⟩

/-- Two arrays with the same first element have the same outcome. -/
theorem generateSchema_array_same_first (first : JValue) (rest1 rest2 : List JValue) :
    generateSchema (.array (first :: rest1)) = generateSchema (.array (first :: rest2)) := by
  rw [generateSchema_array_cons, generateSchema_array_cons]

/-! ## The schema node of an object -/

/-- Assigning to a key the map does not have adds the entry at the end. -/
theorem mapSet_of_not_mem {α : Type} (m : List (String × α)) (k : String) (v : α)
    (h : k ∉ m.map Prod.fst) : mapSet m k v = m ++ [(k, v)] := by
  induction m with
  | nil => rfl
  | cons e rest ih =>
    obtain ⟨k0, v0⟩ := e
    simp only [List.map_cons, List.mem_cons, not_or] at h
    have hne : ¬ k0 = k := fun hk => h.1 hk.symm
    simp only [mapSet, if_neg hne, ih h.2, List.cons_append]

/-- The property entries have the keys of the object entries, in the same
order. -/
theorem propertyEntries_keys (entries : List (String × JValue)) (nodes : List GoMap)
    (h : entries.length = nodes.length) :
    (propertyEntries entries nodes).map Prod.fst = entries.map Prod.fst := by
  induction entries generalizing nodes with
  | nil => cases nodes <;> simp [propertyEntries]
  | cons e rest ih =>
    cases nodes with
    | nil => simp at h
    | cons n ns =>
      have hr : rest.length = ns.length := by simpa using h
      have := ih ns hr
      simp only [propertyEntries] at this
      simp [propertyEntries, this]

/-- The `range` loop on entries with distinct keys, all new to `properties`,
whose values all have a node: each key gets the node of its value, in the
order visited, and `required` gets the keys in that order. -/
theorem rangeEntries_returned (entries : List (String × JValue)) (nodes : List GoMap)
    (properties : GoMap) (required : List String)
    (hnodes : List.Forall₂ (fun e n => ∃ r, generateSchema e.2 = .returned (n, r)) entries nodes)
    (hnodup : (entries.map Prod.fst).Nodup)
    (hnew : ∀ k ∈ entries.map Prod.fst, k ∉ properties.map Prod.fst) :
    rangeEntries entries properties required =
      .returned (properties ++ propertyEntries entries nodes, required ++ entries.map Prod.fst) := by
  induction hnodes generalizing properties required with
  | nil => simp [rangeEntries, propertyEntries]
  | @cons e n rest ns hen _ ih =>
    obtain ⟨key, value⟩ := e
    obtain ⟨r, hr⟩ := hen
    simp only [List.map_cons, List.nodup_cons] at hnodup
    have hkey : key ∉ properties.map Prod.fst := hnew key (by simp)
    rw [rangeEntries]
    simp only at hr
    simp only [hr]
    rw [mapSet_of_not_mem properties key _ hkey]
    rw [ih (properties ++ [(key, GoValue.map n)]) (required ++ [key]) hnodup.2]
    · simp [propertyEntries]
    · intro k hk
      simp only [List.map_append, List.map_cons, List.map_nil, List.mem_append,
        List.mem_singleton, not_or]
      refine ⟨hnew k (by simp [hk]), ?_⟩
      rintro rfl
      exact hnodup.1 hk

/-- The `range` loop panics as soon as the value of some entry does. -/
theorem rangeEntries_panicked (entries : List (String × JValue))
    (properties : GoMap) (required : List String)
    (h : ∃ e ∈ entries, generateSchema e.2 = .panicked) :
    rangeEntries entries properties required = .panicked := by
  induction entries generalizing properties required with
  | nil => simp at h
  | cons e rest ih =>
    obtain ⟨key, value⟩ := e
    rw [rangeEntries]
    cases hv : generateSchema value with
    | panicked => rfl
    | returned p =>
      obtain ⟨propertySchema, r⟩ := p
      simp only
      apply ih
      obtain ⟨e, he, hp⟩ := h
      rcases List.mem_cons.mp he with rfl | hmem
      · simp only at hp
        rw [hv] at hp
        cases hp
      · exact ⟨e, hmem, hp⟩

/-- The node of an object whose keys are distinct and whose values all have a
node: type "object", a "properties" map with exactly the object's keys, each
bound to the node of its value, and, unless the object is empty, a "required"
list of exactly the object's keys, each once (the keys in the order the loop
visited them); the required list returned is the same list of keys. -/
theorem generateSchema_object_returned (entries : List (String × JValue)) (nodes : List GoMap)
    (hnodes : List.Forall₂ (fun e n => ∃ r, generateSchema e.2 = .returned (n, r)) entries nodes)
    (hnodup : (entries.map Prod.fst).Nodup) :
    generateSchema (.object entries) =
      .returned
        ([("type", GoValue.str "object"),
          ("properties", GoValue.map (propertyEntries entries nodes))] ++
          (if entries.isEmpty then [] else [("required", GoValue.strings (entries.map Prod.fst))]),
         entries.map Prod.fst) := by
  rw [generateSchema]
  have hty : getJSONType (.object entries) = .returned "object" := rfl
  simp only [hty]
  rw [rangeEntries_returned entries nodes [] [] hnodes hnodup (by simp)]
  cases entries with
  | nil => simp [mapSet]
  | cons e rest => simp [mapSet]

/-- An object panics when the value of one of its keys does. -/
theorem generateSchema_object_panicked (entries : List (String × JValue))
    (h : ∃ e ∈ entries, generateSchema e.2 = .panicked) :
    generateSchema (.object entries) = .panicked := by
  rw [generateSchema]
  have hty : getJSONType (.object entries) = .returned "object" := rfl
  simp only [hty]
  rw [rangeEntries_panicked entries [] [] h]

/-! ## Decoded objects have distinct keys -/

/-- The values of the entries have distinct keys throughout exactly when each
of them has. -/
theorem entriesDistinctKeys_iff (m : List (String × JValue)) :
    entriesDistinctKeys m ↔ ∀ e ∈ m, e.2.distinctKeys := by
  induction m with
  | nil => simp [entriesDistinctKeys]
  | cons e rest ih =>
    obtain ⟨k, v⟩ := e
    simp [entriesDistinctKeys, ih]

/-- The elements have distinct keys throughout exactly when each of them has. -/
theorem allDistinctKeys_iff (elems : List JValue) :
    allDistinctKeys elems ↔ ∀ v ∈ elems, v.distinctKeys := by
  induction elems with
  | nil => simp [allDistinctKeys]
  | cons v rest ih => simp [allDistinctKeys, ih]

/-- The keys after the assignment `m[k] = v`: those before, and `k` at the end
when it is new. -/
theorem mapSet_keys {α : Type} (m : List (String × α)) (k : String) (v : α) :
    (mapSet m k v).map Prod.fst =
      if k ∈ m.map Prod.fst then m.map Prod.fst else m.map Prod.fst ++ [k] := by
  induction m with
  | nil => simp [mapSet]
  | cons e rest ih =>
    obtain ⟨k0, v0⟩ := e
    by_cases h : k0 = k
    · subst h
      simp [mapSet]
    · have h2 : ¬ k = k0 := fun hk => h hk.symm
      simp only [mapSet, if_neg h, List.map_cons, ih, List.mem_cons, h2, false_or]
      split_ifs <;> simp

/-- An assignment keeps the keys of a map distinct. -/
theorem mapSet_nodup {α : Type} (m : List (String × α)) (k : String) (v : α)
    (h : (m.map Prod.fst).Nodup) : ((mapSet m k v).map Prod.fst).Nodup := by
  rw [mapSet_keys]
  split_ifs with hk
  · exact h
  · exact List.Nodup.append h (List.nodup_singleton k) (by simpa using hk)

/-- Every entry after the assignment `m[k] = v` is an entry of `m` or the
new one. -/
theorem mem_mapSet {α : Type} (m : List (String × α)) (k : String) (v : α) (e : String × α)
    (h : e ∈ mapSet m k v) : e ∈ m ∨ e = (k, v) := by
  induction m with
  | nil => simpa [mapSet] using h
  | cons e0 rest ih =>
    obtain ⟨k0, v0⟩ := e0
    by_cases hk : k0 = k
    · simp only [mapSet, if_pos hk, List.mem_cons] at h
      rcases h with h | h
      · exact Or.inr h
      · exact Or.inl (List.mem_cons_of_mem _ h)
    · simp only [mapSet, if_neg hk, List.mem_cons] at h
      rcases h with h | h
      · exact Or.inl (h ▸ List.mem_cons_self _ _)
      · rcases ih h with h1 | h1
        · exact Or.inl (List.mem_cons_of_mem _ h1)
        · exact Or.inr h1


/-- A rearrangement of entries with distinct keys has distinct keys. -/
theorem arrange_distinctKeys (order : RangeOrder) (pos : Nat) (m : List (String × JValue))
    (h : (m.map Prod.fst).Nodup ∧ entriesDistinctKeys m) :
    (JValue.object (order.arrange pos m)).distinctKeys := by
  have hp := order.perm pos m
  rw [JValue.distinctKeys]
  constructor
  · exact ((hp.map Prod.fst).nodup_iff).mpr h.1
  · rw [entriesDistinctKeys_iff] at h ⊢
    intro e he
    exact h.2 e (hp.mem_iff.mp he)

/-- A value with distinct keys, completed on a stack with distinct keys,
leaves distinct keys. -/
theorem complete_distinctKeys (s : Scanner) (v : JValue) (hs : s.distinctKeys)
    (hv : v.distinctKeys) : (complete s v).distinctKeys := by
  obtain ⟨step, stack, tok, pos⟩ := s
  rcases stack with _ | ⟨f, rest⟩
  · exact hv
  · have hrest : ∀ g ∈ rest, g.distinctKeys := fun g hg => hs g (List.mem_cons_of_mem f hg)
    have hf : f.distinctKeys := hs f (List.mem_cons_self f rest)
    cases f with
    | arr elems =>
      intro g hg
      rcases List.mem_cons.mp hg with rfl | hg
      · simp only [Frame.distinctKeys] at hf ⊢
        rw [allDistinctKeys_iff] at hf ⊢
        intro w hw
        rcases List.mem_append.mp hw with hw | hw
        · exact hf w hw
        · rw [List.mem_singleton.mp hw]
          exact hv
      · exact hrest g hg
    | objVal m key =>
      intro g hg
      rcases List.mem_cons.mp hg with rfl | hg
      · simp only [Frame.distinctKeys] at hf ⊢
        refine ⟨mapSet_nodup m key v hf.1, ?_⟩
        rw [entriesDistinctKeys_iff]
        intro e he
        rcases mem_mapSet m key v e he with h1 | h1
        · exact (entriesDistinctKeys_iff m).mp hf.2 e h1
        · rw [h1]
          exact hv
      · exact hrest g hg
    | objKey m => trivial
    | objColon m key => trivial
    | objNext m => trivial

/-- The function `stateEndValue` keeps the keys distinct. -/
theorem stateEndValue_distinctKeys (order : RangeOrder) (s : Scanner) (c : Char)
    (hs : s.distinctKeys) : (stateEndValue order s c).distinctKeys := by
  obtain ⟨step, stack, tok, pos⟩ := s
  unfold stateEndValue
  split
  · exact hs
  · rcases stack with _ | ⟨f, rest⟩
    · trivial
    · have hrest : ∀ g ∈ rest, g.distinctKeys := fun g hg => hs g (List.mem_cons_of_mem f hg)
      have hf : f.distinctKeys := hs f (List.mem_cons_self f rest)
      cases f with
      | arr elems =>
        simp only
        repeat' split
        · exact hs
        · exact complete_distinctKeys _ _ hrest hf
        · trivial
      | objColon m key =>
        simp only
        split
        · intro g hg
          rcases List.mem_cons.mp hg with rfl | hg
          · exact hf
          · exact hrest g hg
        · trivial
      | objNext m =>
        simp only
        repeat' split
        · intro g hg
          rcases List.mem_cons.mp hg with rfl | hg
          · exact hf
          · exact hrest g hg
        · exact complete_distinctKeys _ _ hrest (arrange_distinctKeys order _ m hf)
        · trivial
      | objKey m => trivial
      | objVal m key => trivial

/-- Pushing an empty array or object keeps the keys distinct. -/
theorem pushParseState_distinctKeys (s : Scanner) (frame : Frame) (successState : Step)
    (hs : s.distinctKeys) (hf : frame.distinctKeys) :
    (pushParseState s frame successState).distinctKeys := by
  unfold pushParseState
  by_cases h : (frame :: s.stack).length ≤ maxNestingDepth
  · rw [if_pos h]
    intro g hg
    rcases List.mem_cons.mp hg with rfl | hg
    · exact hf
    · exact hs g hg
  · rw [if_neg h]
    trivial

/-- The function `stateBeginValue` keeps the keys distinct. -/
theorem stateBeginValue_distinctKeys (s : Scanner) (c : Char) (hs : s.distinctKeys) :
    (stateBeginValue s c).distinctKeys := by
  unfold stateBeginValue
  repeat' split
  · exact hs
  · exact pushParseState_distinctKeys s _ _ hs ⟨List.nodup_nil, trivial⟩
  · exact pushParseState_distinctKeys s _ _ hs trivial
  · exact hs
  · exact hs
  · exact hs
  · exact hs
  · exact hs
  · exact hs
  · exact hs
  · trivial

/-- The function `stateBeginString` keeps the keys distinct. -/
theorem stateBeginString_distinctKeys (s : Scanner) (c : Char) (hs : s.distinctKeys) :
    (stateBeginString s c).distinctKeys := by
  unfold stateBeginString
  repeat' split
  · exact hs
  · exact hs
  · trivial

/-- The end of a string literal keeps the keys distinct. -/
theorem endString_distinctKeys (s : Scanner) (hs : s.distinctKeys) :
    (endString s).distinctKeys := by
  obtain ⟨step, stack, tok, pos⟩ := s
  unfold endString
  split
  · rename_i m rest heq
    simp only at heq
    subst heq
    have hf : (Frame.objKey m).distinctKeys := hs _ (List.mem_cons_self _ _)
    intro g hg
    rcases List.mem_cons.mp hg with rfl | hg
    · exact hf
    · exact hs g (List.mem_cons_of_mem _ hg)
  · exact complete_distinctKeys _ _ hs trivial

/-- The end of a number literal keeps the keys distinct. -/
theorem endNumber_distinctKeys (order : RangeOrder) (s : Scanner) (c : Char)
    (hs : s.distinctKeys) : (endNumber order s c).distinctKeys := by
  unfold endNumber
  have h := complete_distinctKeys s (.number (String.mk s.tok.reverse)) hs trivial
  cases hc : complete s (.number (String.mk s.tok.reverse)) with
  | next s1 =>
    rw [hc] at h
    exact stateEndValue_distinctKeys order s1 c h
  | done v =>
    rw [hc] at h
    exact h
  | doneBefore v =>
    rw [hc] at h
    exact h
  | fail e => trivial

/-- The function `state0` keeps the keys distinct. -/
theorem state0_distinctKeys (order : RangeOrder) (s : Scanner) (c : Char)
    (hs : s.distinctKeys) : (state0 order s c).distinctKeys := by
  unfold state0
  repeat' split
  · exact hs
  · exact hs
  · exact endNumber_distinctKeys order s c hs

/-- One step keeps the keys distinct. -/
theorem stepChar_distinctKeys (order : RangeOrder) (s : Scanner) (c : Char)
    (hs : s.distinctKeys) : (stepChar order s c).distinctKeys := by
  obtain ⟨step, stack, tok, pos⟩ := s
  have hs1 : Scanner.distinctKeys { step := step, stack := stack, tok := tok, pos := pos + 1 } := hs
  cases step <;> simp only [stepChar]
  case beginValue => exact stateBeginValue_distinctKeys _ c hs1
  case beginString => exact stateBeginString_distinctKeys _ c hs1
  case endValue => exact stateEndValue_distinctKeys order _ c hs1
  case beginValueOrEmpty =>
    repeat' split
    · exact hs
    · exact stateEndValue_distinctKeys order _ c hs1
    · exact stateBeginValue_distinctKeys _ c hs1
  case beginStringOrEmpty =>
    split
    · exact hs
    · split
      · rcases stack with _ | ⟨f, rest⟩
        · trivial
        · have hf : f.distinctKeys := hs f (List.mem_cons_self f rest)
          cases f <;> first
            | trivial
            | (apply stateEndValue_distinctKeys
               intro g hg
               rcases List.mem_cons.mp hg with rfl | hg
               · exact hf
               · exact hs g (List.mem_cons_of_mem _ hg))
      · exact stateBeginString_distinctKeys _ c hs1
  case inString =>
    repeat' split
    · exact endString_distinctKeys _ hs1
    · exact hs
    · trivial
    · exact hs
  case s1 =>
    split
    · exact hs
    · exact state0_distinctKeys order _ c hs1
  case s0 => exact state0_distinctKeys order _ c hs1
  case dot0 =>
    repeat' split
    · exact hs
    · exact hs
    · exact endNumber_distinctKeys order _ c hs1
  case e0 =>
    split
    · exact hs
    · exact endNumber_distinctKeys order _ c hs1
  case tru =>
    split
    · exact complete_distinctKeys _ _ hs1 trivial
    · trivial
  case fals =>
    split
    · exact complete_distinctKeys _ _ hs1 trivial
    · trivial
  case nul =>
    split
    · exact complete_distinctKeys _ _ hs1 trivial
    · trivial
  all_goals
    try unfold literalStep
    try unfold stateESign
    (repeat' split) <;> first
      | exact hs
      | trivial

/-- Every value the loop of `readValue` returns from a scanner with distinct
keys has distinct keys throughout. -/
theorem readValue_distinctKeys (order : RangeOrder) (cs : List Char) (s : Scanner)
    (hs : s.distinctKeys) (v : JValue) (rest : List Char)
    (h : readValue order s cs = .ok (v, rest)) : v.distinctKeys := by
  induction cs generalizing s with
  | nil =>
    rw [readValue] at h
    unfold atEOF at h
    split at h
    · rename_i w hw
      simp only [Except.ok.injEq, Prod.mk.injEq] at h
      split at hw <;> simp only [Except.ok.injEq, reduceCtorEq] at hw <;> rw [← h.1, ← hw] <;>
        trivial
    · cases h
  | cons c cs ih =>
    have hg := stepChar_distinctKeys order s c hs
    rw [readValue] at h
    cases hstep : stepChar order s c with
    | next s1 =>
      rw [hstep] at hg h
      exact ih s1 hg h
    | done w =>
      rw [hstep] at hg h
      simp only [Except.ok.injEq, Prod.mk.injEq] at h
      rw [← h.1]
      exact hg
    | doneBefore w =>
      rw [hstep] at hg h
      simp only [Except.ok.injEq, Prod.mk.injEq] at h
      rw [← h.1]
      exact hg
    | fail e =>
      rw [hstep] at h
      cases h

/-- Every value the decoder returns has distinct keys in each of its objects,
at any depth. -/
theorem Decode_distinctKeys (order : RangeOrder) (jsonString : String) (data : JValue)
    (h : Decode order jsonString = .ok data) : data.distinctKeys := by
  unfold Decode at h
  cases hr : readValue order Scanner.reset jsonString.data with
  | error e =>
    rw [hr] at h
    cases h
  | ok p =>
    obtain ⟨v, rest⟩ := p
    rw [hr] at h
    simp only [Except.ok.injEq] at h
    rw [← h]
    exact readValue_distinctKeys order jsonString.data Scanner.reset
      (fun f hf => by cases hf) v rest hr

/-! ## Where `generateSchema` panics -/

mutual
/-- The only panic of `generateSchema` is the one on null: it panics exactly
on the values in which it comes upon a null. -/
theorem generateSchema_panicked_iff : ∀ v : JValue,
    generateSchema v = .panicked ↔ visitsNull v = true
  | .null => by simp [visitsNull]; rfl
  | .bool b => by
    have h : generateSchema (.bool b) = .returned ([("type", GoValue.str "boolean")], []) := rfl
    simp [visitsNull, h]
  | .number lit => by
    rw [generateSchema_number]
    have h : ∃ t, getJSONType (.number lit) = .returned t := by
      unfold getJSONType
      cases numberSwitch (.number lit) with
      | some t => exact ⟨t, rfl⟩
      | none => exact ⟨"string", rfl⟩
    obtain ⟨t, ht⟩ := h
    simp [visitsNull, ht]
  | .string str => by
    have h : generateSchema (.string str) = .returned ([("type", GoValue.str "string")], []) := rfl
    simp [visitsNull, h]
  | .array [] => by
    have h : generateSchema (.array []) = .returned ([("type", GoValue.str "array")], []) := rfl
    simp [visitsNull, h]
  | .array (first :: rest) => by
    have ih := generateSchema_panicked_iff first
    rw [generateSchema_array_cons, visitsNull, ← ih]
    cases generateSchema first with
    | panicked => simp
    | returned p => simp
  | .object entries => by
    have ih := rangeEntries_panicked_iff entries [] []
    rw [visitsNull, ← ih, generateSchema]
    have hty : getJSONType (.object entries) = .returned "object" := rfl
    simp only [hty]
    cases rangeEntries entries [] [] with
    | panicked => simp
    | returned p => simp
/-- The `range` loop panics exactly when the value of some entry leads to a
null. -/
theorem rangeEntries_panicked_iff : ∀ (entries : List (String × JValue)) (properties : GoMap)
    (required : List String),
    rangeEntries entries properties required = .panicked ↔ entriesVisitNull entries = true
  | [], properties, required => by simp [rangeEntries, entriesVisitNull]
  | (key, value) :: rest, properties, required => by
    have ih1 := generateSchema_panicked_iff value
    rw [rangeEntries, entriesVisitNull, Bool.or_eq_true, ← ih1]
    cases hv : generateSchema value with
    | panicked => simp
    | returned p =>
      obtain ⟨propertySchema, r⟩ := p
      simp only
      rw [rangeEntries_panicked_iff rest]
      simp
end

/-- On a text that decodes, the function panics when `generateSchema` comes
upon a null in the decoded value; when it does not, the function returns what
encoding the root schema yields: the compact text when `flat` is set, and
otherwise the result of `MarshalIndent`. -/
theorem GenerateJsonSchemaFromJsonString_outcome (order : RangeOrder) (jsonString : String)
    (flat : Bool) (data : JValue) (hdata : Decode order jsonString = .ok data) :
    (visitsNull data = true →
      GenerateJsonSchemaFromJsonString order jsonString flat = .panicked) ∧
    (visitsNull data = false →
      ∃ node required, generateSchema data = .returned (node, required) ∧
        GenerateJsonSchemaFromJsonString order jsonString flat =
          .returned (if flat = true then .ok (encode (GoValue.map (rootSchema node required)))
            else MarshalIndent (GoValue.map (rootSchema node required)))) := by
  constructor
  · intro hv
    exact GenerateJsonSchemaFromJsonString_panicked order jsonString flat data hdata
      ((generateSchema_panicked_iff data).mpr hv)
  · intro hv
    cases hg : generateSchema data with
    | panicked =>
      rw [(generateSchema_panicked_iff data).mp hg] at hv
      cases hv
    | returned p =>
      obtain ⟨node, required⟩ := p
      exact ⟨node, required, rfl,
        GenerateJsonSchemaFromJsonString_returned order jsonString flat data node required hdata hg⟩

/-- The values of entries none of which leads to a null all have a node. -/
theorem nodes_of_not_visitsNull (entries : List (String × JValue))
    (hnull : entriesVisitNull entries = false) :
    ∃ nodes, List.Forall₂ (fun e n => ∃ r, generateSchema e.2 = .returned (n, r))
      entries nodes := by
  induction entries with
  | nil => exact ⟨[], List.Forall₂.nil⟩
  | cons e rest ih =>
    obtain ⟨key, value⟩ := e
    simp only [entriesVisitNull, Bool.or_eq_false_iff] at hnull
    obtain ⟨nodes, hnodes⟩ := ih hnull.2
    cases hg : generateSchema value with
    | panicked =>
      rw [(generateSchema_panicked_iff value).mp hg] at hnull
      cases hnull.1
    | returned p =>
      obtain ⟨n, r⟩ := p
      exact ⟨n :: nodes, List.Forall₂.cons ⟨r, hg⟩ hnodes⟩

/-- The node of an object with distinct keys none of whose values leads to a
null: type "object", a "properties" map whose keys are exactly the keys of the
object, each bound to the node of its value, and, unless the object is empty,
a "required" list that is the list of the object's keys; the required list
returned is that list too. -/
theorem generateSchema_object_of_not_visitsNull (entries : List (String × JValue))
    (hnodup : (entries.map Prod.fst).Nodup) (hnull : entriesVisitNull entries = false) :
    ∃ nodes, List.Forall₂ (fun e n => ∃ r, generateSchema e.2 = .returned (n, r))
        entries nodes ∧
      (propertyEntries entries nodes).map Prod.fst = entries.map Prod.fst ∧
      generateSchema (.object entries) =
        .returned
          ([("type", GoValue.str "object"),
            ("properties", GoValue.map (propertyEntries entries nodes))] ++
            (if entries.isEmpty then []
              else [("required", GoValue.strings (entries.map Prod.fst))]),
           entries.map Prod.fst) := by
  obtain ⟨nodes, hnodes⟩ := nodes_of_not_visitsNull entries hnull
  exact ⟨nodes, hnodes, propertyEntries_keys entries nodes hnodes.length_eq,
    generateSchema_object_returned entries nodes hnodes hnodup⟩

/-! ## Objects inside objects -/

/-- The value of every entry of an object with distinct keys throughout has
distinct keys throughout. -/
theorem distinctKeys_of_mem (entries : List (String × JValue))
    (h : entriesDistinctKeys entries) (k : String) (v : JValue) (hmem : (k, v) ∈ entries) :
    v.distinctKeys := by
  induction entries with
  | nil => cases hmem
  | cons e rest ih =>
    obtain ⟨k0, v0⟩ := e
    simp only [entriesDistinctKeys] at h
    rcases List.mem_cons.mp hmem with heq | hrest
    · cases heq
      exact h.1
    · exact ih h.2 hrest

/-- No value of entries that lead to no null leads to a null. -/
theorem visitsNull_of_mem (entries : List (String × JValue))
    (h : entriesVisitNull entries = false) (k : String) (v : JValue) (hmem : (k, v) ∈ entries) :
    visitsNull v = false := by
  induction entries with
  | nil => cases hmem
  | cons e rest ih =>
    obtain ⟨k0, v0⟩ := e
    simp only [entriesVisitNull, Bool.or_eq_false_iff] at h
    rcases List.mem_cons.mp hmem with heq | hrest
    · cases heq
      exact h.1
    · exact ih h.2 hrest

/-- The node at a place of the list of nodes is the node of the value at that
place of the entries. -/
theorem node_at (entries : List (String × JValue)) (nodes : List GoMap)
    (hnodes : List.Forall₂ (fun e n => ∃ r, generateSchema e.2 = .returned (n, r)) entries nodes)
    (i : Nat) (k : String) (v : JValue) (hi : entries[i]? = some (k, v)) :
    ∃ n r, nodes[i]? = some n ∧ (propertyEntries entries nodes)[i]? = some (k, GoValue.map n) ∧
      generateSchema v = .returned (n, r) := by
  induction hnodes generalizing i with
  | nil => simp at hi
  | @cons e n rest ns hen _ ih =>
    cases i with
    | zero =>
      simp only [List.getElem?_cons_zero, Option.some.injEq] at hi
      subst hi
      obtain ⟨r, hr⟩ := hen
      exact ⟨n, r, by simp, by simp [propertyEntries], hr⟩
    | succ j =>
      simp only [List.getElem?_cons_succ] at hi
      obtain ⟨n0, r, h1, h2, h3⟩ := ih j hi
      refine ⟨n0, r, by simpa using h1, ?_, h3⟩
      simp only [propertyEntries] at h2
      simpa [propertyEntries] using h2

/-- An object inside an object, where the keys of each are distinct and no
value leads to a null: the node of the enclosing object binds the key of the
nested object to a node with type "object", the nested object's own
"properties" map and, unless the nested object is empty, a "required" list of
exactly the nested object's keys, while the "required" list of the enclosing
node is exactly the list of the enclosing object's keys. -/
theorem generateSchema_nested_object (entries : List (String × JValue))
    (hnodup : (entries.map Prod.fst).Nodup) (hdistinct : entriesDistinctKeys entries)
    (hnull : entriesVisitNull entries = false) :
    ∃ nodes,
      generateSchema (.object entries) =
        .returned
          ([("type", GoValue.str "object"),
            ("properties", GoValue.map (propertyEntries entries nodes))] ++
            (if entries.isEmpty then []
              else [("required", GoValue.strings (entries.map Prod.fst))]),
           entries.map Prod.fst) ∧
      ∀ (i : Nat) (k : String) (inner : List (String × JValue)),
        entries[i]? = some (k, .object inner) →
        ∃ innerNodes,
          (propertyEntries inner innerNodes).map Prod.fst = inner.map Prod.fst ∧
          (propertyEntries entries nodes)[i]? =
            some (k, GoValue.map
              ([("type", GoValue.str "object"),
                ("properties", GoValue.map (propertyEntries inner innerNodes))] ++
                (if inner.isEmpty then []
                  else [("required", GoValue.strings (inner.map Prod.fst))]))) := by
  obtain ⟨nodes, hnodes, _, hg⟩ := generateSchema_object_of_not_visitsNull entries hnodup hnull
  refine ⟨nodes, hg, ?_⟩
  intro i k inner hi
  obtain ⟨n, r, _, hprop, hn⟩ := node_at entries nodes hnodes i k _ hi
  have hmem : (k, JValue.object inner) ∈ entries := List.getElem?_mem hi
  have hd := distinctKeys_of_mem entries hdistinct k _ hmem
  have hv := visitsNull_of_mem entries hnull k _ hmem
  simp only [JValue.distinctKeys] at hd
  simp only [visitsNull] at hv
  obtain ⟨innerNodes, _, hkeys, hinner⟩ := generateSchema_object_of_not_visitsNull inner hd.1 hv
  rw [hinner] at hn
  cases hn
  exact ⟨innerNodes, hkeys, hprop⟩

/-- A map with one entry is visited in one order only. -/
theorem arrange_singleton (order : RangeOrder) (pos : Nat) (e : String × JValue) :
    order.arrange pos [e] = [e] :=
  List.perm_singleton.mp (order.perm pos [e])

/-! ## Every node is well formed -/

/-- The type name of a number is "integer", "number" or "string". -/
theorem getJSONType_number (lit : String) :
    getJSONType (.number lit) = .returned "integer" ∨
      getJSONType (.number lit) = .returned "number" ∨
      getJSONType (.number lit) = .returned "string" := by
  simp only [getJSONType, numberSwitch]
  cases Number.Int64 lit with
  | ok _ => exact Or.inl rfl
  | error _ =>
    cases Number.Float64 lit with
    | ok _ => exact Or.inr (Or.inl rfl)
    | error _ => exact Or.inr (Or.inr rfl)

mutual
/-- Every node `generateSchema` returns is a well-formed description of the
value it was built from, when the keys of each object in the value are
distinct. -/
theorem generateSchema_describes : ∀ (v : JValue), v.distinctKeys →
    ∀ (node : GoMap) (required : List String),
      generateSchema v = .returned (node, required) → describes v node = true
  | .null => by
    intro _ node required h
    cases h
  | .bool b => by
    intro _ node required h
    have h2 : generateSchema (.bool b) = .returned ([("type", GoValue.str "boolean")], []) := rfl
    rw [h2] at h
    cases h
    rfl
  | .number lit => by
    intro _ node required h
    rw [generateSchema_number] at h
    rcases getJSONType_number lit with ht | ht | ht <;>
    · rw [ht] at h
      cases h
      rfl
  | .string str => by
    intro _ node required h
    have h2 : generateSchema (.string str) = .returned ([("type", GoValue.str "string")], []) := rfl
    rw [h2] at h
    cases h
    rfl
  | .array [] => by
    intro _ node required h
    have h2 : generateSchema (.array []) = .returned ([("type", GoValue.str "array")], []) := rfl
    rw [h2] at h
    cases h
    rfl
  | .array (first :: rest) => by
    intro hd node required h
    rw [generateSchema_array_cons] at h
    simp only [JValue.distinctKeys, allDistinctKeys] at hd
    cases hf : generateSchema first with
    | panicked =>
      rw [hf] at h
      cases h
    | returned p =>
      obtain ⟨itemSchema, r⟩ := p
      rw [hf] at h
      cases h
      have ih := generateSchema_describes first hd.1 itemSchema r hf
      simp only [describes, typeOf, mapLookup]
      simp [ih]
  | .object entries => by
    intro hd node required h
    simp only [JValue.distinctKeys] at hd
    have hnull : entriesVisitNull entries = false := by
      cases hv : entriesVisitNull entries with
      | false => rfl
      | true =>
        have hp := (generateSchema_panicked_iff (.object entries)).mpr (by simpa [visitsNull] using hv)
        rw [hp] at h
        cases h
    obtain ⟨nodes, hnodes, _, hg⟩ := generateSchema_object_of_not_visitsNull entries hd.1 hnull
    rw [hg] at h
    cases h
    have ih := rangeEntries_describes entries hd.2 nodes hnodes
    simp only [describes, typeOf, mapLookup]
    simp [ih]
/-- The "properties" map built for entries whose values all have a node binds
the keys of the entries, one for one, to well-formed descriptions. -/
theorem rangeEntries_describes : ∀ (entries : List (String × JValue)),
    entriesDistinctKeys entries → ∀ (nodes : List GoMap),
      List.Forall₂ (fun e n => ∃ r, generateSchema e.2 = .returned (n, r)) entries nodes →
      describesEntries entries (propertyEntries entries nodes) = true
  | [] => by
    intro _ nodes hnodes
    cases hnodes
    rfl
  | (key, value) :: rest => by
    intro hd nodes hnodes
    simp only [entriesDistinctKeys] at hd
    cases hnodes with
    | cons hen hrest =>
      obtain ⟨r, hr⟩ := hen
      have ih1 := generateSchema_describes value hd.1 _ r hr
      have ih2 := rangeEntries_describes rest hd.2 _ hrest
      simp only [propertyEntries] at ih2
      simp [propertyEntries, describesEntries, ih1, ih2]
end

/-- The node of a value that is not an object has no "properties" entry. -/
theorem generateSchema_no_properties (v : JValue) (hv : ∀ entries, v ≠ .object entries)
    (node : GoMap) (required : List String) (h : generateSchema v = .returned (node, required)) :
    mapLookup node "properties" = none := by
  cases v with
  | null => cases h
  | bool b =>
    have h2 : generateSchema (.bool b) = .returned ([("type", GoValue.str "boolean")], []) := rfl
    rw [h2] at h
    cases h
    rfl
  | number lit =>
    rw [generateSchema_number] at h
    rcases getJSONType_number lit with ht | ht | ht <;>
    · rw [ht] at h
      cases h
      rfl
  | string str =>
    have h2 : generateSchema (.string str) = .returned ([("type", GoValue.str "string")], []) := rfl
    rw [h2] at h
    cases h
    rfl
  | array elems =>
    cases elems with
    | nil =>
      have h2 : generateSchema (.array []) = .returned ([("type", GoValue.str "array")], []) := rfl
      rw [h2] at h
      cases h
      rfl
    | cons first rest =>
      rw [generateSchema_array_cons] at h
      cases hf : generateSchema first with
      | panicked =>
        rw [hf] at h
        cases h
      | returned p =>
        obtain ⟨itemSchema, r⟩ := p
        rw [hf] at h
        cases h
        rfl
  | object entries => exact absurd rfl (hv entries)

/-! ## The encoder writes a map in one order -/

/-- The order of keys is total. -/
theorem keyLE_total : ∀ a b : List Char, keyLE a b = true ∨ keyLE b a = true
  | [], _ => Or.inl rfl
  | _ :: _, [] => Or.inr rfl
  | a :: as, b :: bs => by
    simp only [keyLE]
    rcases Nat.lt_trichotomy a.toNat b.toNat with h | h | h
    · simp [h]
    · simp [h, keyLE_total as bs]
    · have h2 : ¬ a.toNat < b.toNat := by omega
      simp [h, h2]

/-- The order of keys is transitive. -/
theorem keyLE_trans : ∀ a b c : List Char, keyLE a b = true → keyLE b c = true →
    keyLE a c = true
  | [], _, _ => fun _ _ => rfl
  | _ :: _, [], _ => fun h _ => by simp [keyLE] at h
  | _ :: _, _ :: _, [] => fun _ h => by simp [keyLE] at h
  | a :: as, b :: bs, c :: cs => by
    intro hab hbc
    simp only [keyLE] at hab hbc ⊢
    split_ifs at hab hbc ⊢ <;> first
      | rfl
      | omega
      | exact keyLE_trans as bs cs hab hbc

/-- Two keys each no later than the other are the same key. -/
theorem keyLE_antisymm : ∀ a b : List Char, keyLE a b = true → keyLE b a = true → a = b
  | [], [] => fun _ _ => rfl
  | [], _ :: _ => fun _ h => by simp [keyLE] at h
  | _ :: _, [] => fun h _ => by simp [keyLE] at h
  | a :: as, b :: bs => by
    intro hab hba
    simp only [keyLE] at hab hba
    split_ifs at hab hba <;> first
      | omega
      | cases hab
      | cases hba
      | skip
    have hc : a = b := by
      apply Char.ext
      apply UInt32.ext
      have : a.toNat = b.toNat := by omega
      exact this
    rw [hc, keyLE_antisymm as bs hab hba]

/-- Entries that hold the same keys in the same places, each key once, and
are rearrangements of one another are the same entries. -/
theorem eq_of_perm_of_keys {α : Type} : ∀ (l1 l2 : List (String × α)), l1.Perm l2 →
    l1.map Prod.fst = l2.map Prod.fst → (l2.map Prod.fst).Nodup → l1 = l2
  | [], [], _, _, _ => rfl
  | [], _ :: _, _, h, _ => by simp at h
  | _ :: _, [], _, h, _ => by simp at h
  | a :: t1, b :: t2, hperm, hkeys, hnodup => by
    simp only [List.map_cons, List.cons.injEq] at hkeys
    simp only [List.map_cons, List.nodup_cons] at hnodup
    have hmem : a ∈ b :: t2 := hperm.subset (List.mem_cons_self a t1)
    have hab : a = b := by
      rcases List.mem_cons.mp hmem with h | h
      · exact h
      · exfalso
        apply hnodup.1
        rw [← hkeys.1]
        exact List.mem_map_of_mem Prod.fst h
    subst hab
    rw [eq_of_perm_of_keys t1 t2 (List.Perm.cons_inv hperm) hkeys.2 hnodup.2]

/-- The sorted entries are a rearrangement of the entries. -/
theorem sortByKey_perm (entries : List (String × String)) :
    (sortByKey entries).Perm entries :=
  List.perm_insertionSort _ entries

/-- The keys of the sorted entries are in order. -/
theorem sortByKey_sorted (entries : List (String × String)) :
    ((sortByKey entries).map Prod.fst).Sorted (fun a b => keyLE a.data b.data = true) := by
  haveI : IsTotal (String × String) (fun a b => keyLE a.1.data b.1.data = true) :=
    ⟨fun a b => keyLE_total a.1.data b.1.data⟩
  haveI : IsTrans (String × String) (fun a b => keyLE a.1.data b.1.data = true) :=
    ⟨fun a b c => keyLE_trans a.1.data b.1.data c.1.data⟩
  have h := List.sorted_insertionSort (fun a b : String × String => keyLE a.1.data b.1.data = true)
    entries
  unfold sortByKey
  rw [List.Sorted, List.pairwise_map]
  exact h

/-- Entries with distinct keys are sorted to the same list in whatever order
they are held. -/
theorem sortByKey_eq_of_perm (l1 l2 : List (String × String)) (hperm : l1.Perm l2)
    (hnodup : (l2.map Prod.fst).Nodup) : sortByKey l1 = sortByKey l2 := by
  have hp : (sortByKey l1).Perm (sortByKey l2) :=
    ((sortByKey_perm l1).trans hperm).trans (sortByKey_perm l2).symm
  haveI : IsAntisymm String (fun a b => keyLE a.data b.data = true) :=
    ⟨fun a b hab hba => String.ext (keyLE_antisymm a.data b.data hab hba)⟩
  have hkeys : (sortByKey l1).map Prod.fst = (sortByKey l2).map Prod.fst :=
    List.eq_of_perm_of_sorted (hp.map Prod.fst) (sortByKey_sorted l1) (sortByKey_sorted l2)
  have hn : ((sortByKey l2).map Prod.fst).Nodup :=
    ((sortByKey_perm l2).map Prod.fst).nodup_iff.mpr hnodup
  exact eq_of_perm_of_keys _ _ hp hkeys hn

/-- The compact encodings of the entries of a map, entry by entry. -/
theorem encodeEntries_eq_map (m : GoMap) :
    encodeEntries m = m.map (fun e => (e.1, encode e.2)) := by
  induction m with
  | nil => rfl
  | cons e rest ih =>
    obtain ⟨k, v⟩ := e
    simp [encodeEntries, ih]

/-- The indented encodings of the entries of a map, entry by entry. -/
theorem encodeIndentEntries_eq_map (depth : Nat) (m : GoMap) :
    encodeIndentEntries depth m = m.map (fun e => (e.1, encodeIndent (depth + 1) e.2)) := by
  induction m with
  | nil => rfl
  | cons e rest ih =>
    obtain ⟨k, v⟩ := e
    simp [encodeIndentEntries, ih]

/-- A map with distinct keys is written the same way by `Marshal` in whatever
order its entries are held. -/
theorem encode_map_perm (m1 m2 : GoMap) (hperm : m1.Perm m2)
    (hnodup : (m2.map Prod.fst).Nodup) :
    encode (GoValue.map m1) = encode (GoValue.map m2) := by
  have h : sortByKey (encodeEntries m1) = sortByKey (encodeEntries m2) := by
    apply sortByKey_eq_of_perm
    · rw [encodeEntries_eq_map, encodeEntries_eq_map]
      exact hperm.map _
    · rw [encodeEntries_eq_map, List.map_map]
      exact hnodup
  rw [encode, encode, h]

/-- A map with distinct keys is written the same way by `MarshalIndent` in
whatever order its entries are held. -/
theorem encodeIndent_map_perm (depth : Nat) (m1 m2 : GoMap) (hperm : m1.Perm m2)
    (hnodup : (m2.map Prod.fst).Nodup) :
    encodeIndent depth (GoValue.map m1) = encodeIndent depth (GoValue.map m2) := by
  have h : sortByKey (encodeIndentEntries depth m1) = sortByKey (encodeIndentEntries depth m2) := by
    apply sortByKey_eq_of_perm
    · rw [encodeIndentEntries_eq_map, encodeIndentEntries_eq_map]
      exact hperm.map _
    · rw [encodeIndentEntries_eq_map, List.map_map]
      exact hnodup
  cases m1 with
  | nil =>
    have : m2 = [] := List.perm_nil.mp hperm.symm
    rw [this]
  | cons e1 t1 =>
    cases m2 with
    | nil => exact absurd (List.perm_nil.mp hperm) (by simp)
    | cons e2 t2 => rw [encodeIndent, encodeIndent, h]

/-- Whether some value of the entries leads to a null does not depend on the
order of the entries. -/
theorem entriesVisitNull_perm (entries1 entries2 : List (String × JValue))
    (hperm : entries1.Perm entries2) :
    entriesVisitNull entries1 = entriesVisitNull entries2 := by
  induction hperm with
  | nil => rfl
  | cons e _ ih =>
    obtain ⟨k, v⟩ := e
    simp only [entriesVisitNull, ih]
  | swap e1 e2 l =>
    obtain ⟨k1, v1⟩ := e1
    obtain ⟨k2, v2⟩ := e2
    simp only [entriesVisitNull]
    cases visitsNull v1 <;> cases visitsNull v2 <;> rfl
  | trans _ _ ih1 ih2 => rw [ih1, ih2]

/-- The nodes of two lists of entries that are rearrangements of one another
make "properties" maps that are rearrangements of one another. -/
theorem propertyEntries_perm (entries1 entries2 : List (String × JValue))
    (nodes1 nodes2 : List GoMap) (hperm : entries1.Perm entries2)
    (h1 : List.Forall₂ (fun e n => ∃ r, generateSchema e.2 = .returned (n, r)) entries1 nodes1)
    (h2 : List.Forall₂ (fun e n => ∃ r, generateSchema e.2 = .returned (n, r)) entries2 nodes2) :
    (propertyEntries entries1 nodes1).Perm (propertyEntries entries2 nodes2) := by
  have key : ∀ (entries : List (String × JValue)) (nodes : List GoMap),
      List.Forall₂ (fun e n => ∃ r, generateSchema e.2 = .returned (n, r)) entries nodes →
      propertyEntries entries nodes =
        entries.map (fun e => (e.1, GoValue.map
          (match generateSchema e.2 with
            | .returned (n, _) => n
            | .panicked => []))) := by
    intro entries nodes h
    induction h with
    | nil => rfl
    | @cons e n rest ns hen _ ih =>
      obtain ⟨r, hr⟩ := hen
      simp only [propertyEntries] at ih
      simp [propertyEntries, hr, ih]
  rw [key entries1 nodes1 h1, key entries2 nodes2 h2]
  exact hperm.map _

/-- The node of an object does not depend on the order in which its entries
are visited, but for the order of its "required" list: when the keys are
distinct and no value leads to a null, visiting the entries in two orders
gives "properties" maps that `Marshal` and `MarshalIndent` write in the same
way, and "required" lists that hold the keys in the two orders visited. -/
theorem generateSchema_object_perm (entries1 entries2 : List (String × JValue))
    (hperm : entries1.Perm entries2) (hnodup : (entries1.map Prod.fst).Nodup)
    (hnull : entriesVisitNull entries1 = false) :
    ∃ properties1 properties2,
      generateSchema (.object entries1) =
        .returned
          ([("type", GoValue.str "object"), ("properties", GoValue.map properties1)] ++
            (if entries1.isEmpty then []
              else [("required", GoValue.strings (entries1.map Prod.fst))]),
           entries1.map Prod.fst) ∧
      generateSchema (.object entries2) =
        .returned
          ([("type", GoValue.str "object"), ("properties", GoValue.map properties2)] ++
            (if entries2.isEmpty then []
              else [("required", GoValue.strings (entries2.map Prod.fst))]),
           entries2.map Prod.fst) ∧
      encode (GoValue.map properties1) = encode (GoValue.map properties2) ∧
      (∀ depth, encodeIndent depth (GoValue.map properties1)
        = encodeIndent depth (GoValue.map properties2)) := by
  have hnodup2 : (entries2.map Prod.fst).Nodup := (hperm.map Prod.fst).nodup_iff.mp hnodup
  have hnull2 : entriesVisitNull entries2 = false := by
    rw [← entriesVisitNull_perm entries1 entries2 hperm]
    exact hnull
  obtain ⟨nodes1, hn1, hk1, hg1⟩ := generateSchema_object_of_not_visitsNull entries1 hnodup hnull
  obtain ⟨nodes2, hn2, hk2, hg2⟩ := generateSchema_object_of_not_visitsNull entries2 hnodup2 hnull2
  have hp := propertyEntries_perm entries1 entries2 nodes1 nodes2 hperm hn1 hn2
  have hnd : ((propertyEntries entries2 nodes2).map Prod.fst).Nodup := by
    rw [hk2]
    exact hnodup2
  exact ⟨_, _, hg1, hg2, encode_map_perm _ _ hp hnd,
    fun depth => encodeIndent_map_perm depth _ _ hp hnd⟩

/-! ## The root schema -/

/-- The required list returned for a value that is not an object is empty (the
nil slice). -/
theorem generateSchema_no_required (v : JValue) (hv : ∀ entries, v ≠ .object entries)
    (node : GoMap) (required : List String) (h : generateSchema v = .returned (node, required)) :
    required = [] := by
  cases v with
  | null => cases h
  | bool b =>
    have h2 : generateSchema (.bool b) = .returned ([("type", GoValue.str "boolean")], []) := rfl
    rw [h2] at h
    cases h
    rfl
  | number lit =>
    rw [generateSchema_number] at h
    rcases getJSONType_number lit with ht | ht | ht <;>
    · rw [ht] at h
      cases h
      rfl
  | string str =>
    have h2 : generateSchema (.string str) = .returned ([("type", GoValue.str "string")], []) := rfl
    rw [h2] at h
    cases h
    rfl
  | array elems =>
    cases elems with
    | nil =>
      have h2 : generateSchema (.array []) = .returned ([("type", GoValue.str "array")], []) := rfl
      rw [h2] at h
      cases h
      rfl
    | cons first rest =>
      rw [generateSchema_array_cons] at h
      cases hf : generateSchema first with
      | panicked =>
        rw [hf] at h
        cases h
      | returned p =>
        obtain ⟨itemSchema, r⟩ := p
        rw [hf] at h
        cases h
        rfl
  | object entries => exact absurd rfl (hv entries)

/-- The root schema of a text that decodes to a value in which `generateSchema`
comes upon no null: its "properties" is the "properties" entry of the node
`generateSchema` returned and its "required" the required list returned.  For
an object these are the "properties" map, with the keys of the object, and the
list of its keys, which is the nil slice when the object is empty; for an
array or a scalar the node has no "properties" entry and the list is the nil
slice, so the root holds the nil interface and the nil slice, both of which
are written `null`. -/
theorem GenerateJsonSchemaFromJsonString_root (order : RangeOrder) (jsonString : String)
    (flat : Bool) (data : JValue) (hdata : Decode order jsonString = .ok data)
    (hnull : visitsNull data = false) :
    ∃ node required,
      generateSchema data = .returned (node, required) ∧
      GenerateJsonSchemaFromJsonString order jsonString flat =
        .returned (if flat = true then .ok (encode (GoValue.map (rootSchema node required)))
          else MarshalIndent (GoValue.map (rootSchema node required))) ∧
      mapLookup (rootSchema node required) "properties" = some (mapIndex node "properties") ∧
      mapLookup (rootSchema node required) "required" = some (GoValue.strings required) ∧
      (∀ entries, data = .object entries →
        required = entries.map Prod.fst ∧
        ∃ properties, mapIndex node "properties" = GoValue.map properties ∧
          properties.map Prod.fst = entries.map Prod.fst) ∧
      ((∀ entries, data ≠ .object entries) →
        mapIndex node "properties" = GoValue.nil ∧ required = []) ∧
      encode GoValue.nil = "null" ∧ encode (GoValue.strings []) = "null" ∧
      encodeIndent 1 GoValue.nil = "null" ∧ encodeIndent 1 (GoValue.strings []) = "null" := by
  obtain ⟨node, required, hnode, htext⟩ :=
    (GenerateJsonSchemaFromJsonString_outcome order jsonString flat data hdata).2 hnull
  have hd := Decode_distinctKeys order jsonString data hdata
  refine ⟨node, required, hnode, htext, rfl, rfl, ?_, ?_, rfl, rfl, rfl, rfl⟩
  · intro entries he
    subst he
    simp only [JValue.distinctKeys] at hd
    simp only [visitsNull] at hnull
    obtain ⟨nodes, _, hkeys, hg⟩ := generateSchema_object_of_not_visitsNull entries hd.1 hnull
    rw [hg] at hnode
    cases hnode
    exact ⟨rfl, propertyEntries entries nodes, rfl, hkeys⟩
  · intro hne
    have hl := generateSchema_no_properties data hne node required hnode
    exact ⟨by simp [mapIndex, hl], generateSchema_no_required data hne node required hnode⟩

/-! ## String literals as the encoder writes them -/

/-- A hexadecimal digit is neither a quote nor a backslash nor a line break. -/
theorem hexDigit_plain (n : Nat) (h : n < 16) :
    hexDigit n ≠ '\\' ∧ hexDigit n ≠ '"' ∧ hexDigit n ≠ '\n' ∧ hexDigit n ≠ '\r' := by
  interval_cases n <;> decide

/-- The shapes of what `escapeChar` writes for a character: a backslash and one
more character, a `\u` escape of four digits, or the character itself, which
then is no quote and no backslash; no digit of an escape is a quote or a
backslash, and nothing written is a line break. -/
theorem escapeChar_cases (c : Char) :
    (∃ x, escapeChar c = ['\\', x] ∧ x ≠ '\n' ∧ x ≠ '\r') ∨
    (∃ w x y z, escapeChar c = ['\\', 'u', w, x, y, z] ∧
      (w ≠ '\\' ∧ w ≠ '"' ∧ w ≠ '\n' ∧ w ≠ '\r') ∧ (x ≠ '\\' ∧ x ≠ '"' ∧ x ≠ '\n' ∧ x ≠ '\r') ∧
      (y ≠ '\\' ∧ y ≠ '"' ∧ y ≠ '\n' ∧ y ≠ '\r') ∧ (z ≠ '\\' ∧ z ≠ '"' ∧ z ≠ '\n' ∧ z ≠ '\r')) ∨
    (escapeChar c = [c] ∧ c ≠ '\\' ∧ c ≠ '"' ∧ c ≠ '\n' ∧ c ≠ '\r') := by
  by_cases h1 : (c == '\\' || c == '"') = true
  · refine Or.inl ⟨c, by rw [escapeChar, if_pos h1], ?_, ?_⟩
    · rintro rfl
      exact absurd h1 (by decide)
    · rintro rfl
      exact absurd h1 (by decide)
  by_cases h2 : (c == Char.ofNat 8) = true
  · exact Or.inl ⟨'b', by rw [escapeChar, if_neg h1, if_pos h2], by decide, by decide⟩
  by_cases h3 : (c == Char.ofNat 12) = true
  · exact Or.inl ⟨'f', by rw [escapeChar, if_neg h1, if_neg h2, if_pos h3], by decide, by decide⟩
  by_cases h4 : (c == '\n') = true
  · exact Or.inl ⟨'n', by rw [escapeChar, if_neg h1, if_neg h2, if_neg h3, if_pos h4],
      by decide, by decide⟩
  by_cases h5 : (c == '\r') = true
  · exact Or.inl ⟨'r', by rw [escapeChar, if_neg h1, if_neg h2, if_neg h3, if_neg h4, if_pos h5],
      by decide, by decide⟩
  by_cases h6 : (c == '\t') = true
  · exact Or.inl ⟨'t', by
      rw [escapeChar, if_neg h1, if_neg h2, if_neg h3, if_neg h4, if_neg h5, if_pos h6],
      by decide, by decide⟩
  by_cases h7 : (decide (c.toNat < 0x20) || c == '<' || c == '>' || c == '&') = true
  · refine Or.inr (Or.inl ⟨'0', '0', hexDigit (c.toNat / 16), hexDigit (c.toNat % 16), ?_,
      by decide, by decide, ?_, ?_⟩)
    · rw [escapeChar, if_neg h1, if_neg h2, if_neg h3, if_neg h4, if_neg h5, if_neg h6, if_pos h7]
    · have hlt : c.toNat / 16 < 16 := by
        simp only [Bool.or_eq_true, decide_eq_true_eq, beq_iff_eq] at h7
        rcases h7 with ((h | h) | h) | h
        · omega
        · subst h
          decide
        · subst h
          decide
        · subst h
          decide
      exact hexDigit_plain _ hlt
    · exact hexDigit_plain _ (Nat.mod_lt _ (by decide))
  by_cases h8 : (c.toNat == 0x2028 || c.toNat == 0x2029) = true
  · refine Or.inr (Or.inl ⟨'2', '0', '2', hexDigit (c.toNat % 16), ?_, by decide, by decide,
      by decide, ?_⟩)
    · rw [escapeChar, if_neg h1, if_neg h2, if_neg h3, if_neg h4, if_neg h5, if_neg h6, if_neg h7,
        if_pos h8]
    · exact hexDigit_plain _ (Nat.mod_lt _ (by decide))
  · refine Or.inr (Or.inr ⟨?_, ?_⟩)
    · rw [escapeChar, if_neg h1, if_neg h2, if_neg h3, if_neg h4, if_neg h5, if_neg h6, if_neg h7,
        if_neg h8]
    · simp only [Bool.or_eq_true, beq_iff_eq, not_or] at h1 h4 h5
      exact ⟨h1.1, h1.2, h4, h5⟩

/-- Inside a string literal the layout copies what `escapeChar` writes for a
character and stays inside the literal. -/
theorem layout_escapeChar (c : Char) (opened : Bool) (depth : Nat) (tail : List Char) :
    layout .inString opened depth (escapeChar c ++ tail)
      = escapeChar c ++ layout .inString opened depth tail := by
  rcases escapeChar_cases c with ⟨x, h, _⟩ | ⟨w, x, y, z, h, hw, hx, hy, hz⟩ | ⟨h, h1, h2, _⟩
  · rw [h]
    simp [layout, Lex.next]
  · rw [h]
    simp [layout, Lex.next, hw.1, hw.2.1, hx.1, hx.2.1, hy.1, hy.2.1, hz.1, hz.2.1]
  · rw [h]
    simp [layout, Lex.next, h1, h2]

/-- Outside the string literals dropping the white space copies what
`escapeChar` writes for a character inside a literal and stays inside the
literal. -/
theorem withoutSpace_escapeChar (c : Char) (tail : List Char) :
    withoutSpace .inString (escapeChar c ++ tail)
      = escapeChar c ++ withoutSpace .inString tail := by
  rcases escapeChar_cases c with ⟨x, h, _⟩ | ⟨w, x, y, z, h, hw, hx, hy, hz⟩ | ⟨h, h1, h2, _⟩
  · rw [h]
    simp [withoutSpace, Lex.next]
  · rw [h]
    simp [withoutSpace, Lex.next, hw.1, hw.2.1, hx.1, hx.2.1, hy.1, hy.2.1, hz.1, hz.2.1]
  · rw [h]
    simp [withoutSpace, Lex.next, h1, h2]

/-- The layout copies a string literal as `appendString` writes it. -/
theorem layout_appendString (s : String) (depth : Nat) (tail : List Char) :
    layout .outside false depth ((appendString s).data ++ tail)
      = (appendString s).data ++ layout .outside false depth tail := by
  have hbody : ∀ (cs : List Char) (rest : List Char),
      layout .inString false depth (cs.flatMap escapeChar ++ rest)
        = cs.flatMap escapeChar ++ layout .inString false depth rest := by
    intro cs
    induction cs with
    | nil => intro rest; rfl
    | cons c cs ih =>
      intro rest
      rw [List.flatMap_cons, List.append_assoc, layout_escapeChar, ih, List.append_assoc]
  simp only [appendString, List.cons_append, List.append_assoc]
  rw [layout]
  simp only [show isSpace '"' = false from rfl, Bool.false_eq_true, if_false]
  simp only [show (('"' == '}') || ('"' == ']')) = false from rfl, Bool.false_eq_true, if_false,
    show (('"' == '\x7b') || ('"' == '[')) = false from rfl, show ('"' == ',') = false from rfl,
    show ('"' == ':') = false from rfl, List.nil_append, Lex.next, beq_self_eq_true, if_true]
  rw [hbody]
  simp [layout, Lex.next]

/-- Dropping the white space outside the literals copies a string literal as
`appendString` writes it. -/
theorem withoutSpace_appendString (s : String) (tail : List Char) :
    withoutSpace .outside ((appendString s).data ++ tail)
      = (appendString s).data ++ withoutSpace .outside tail := by
  have hbody : ∀ (cs : List Char) (rest : List Char),
      withoutSpace .inString (cs.flatMap escapeChar ++ rest)
        = cs.flatMap escapeChar ++ withoutSpace .inString rest := by
    intro cs
    induction cs with
    | nil => intro rest; rfl
    | cons c cs ih =>
      intro rest
      rw [List.flatMap_cons, List.append_assoc, withoutSpace_escapeChar, ih, List.append_assoc]
  simp only [appendString, List.cons_append, List.append_assoc]
  rw [withoutSpace]
  simp only [show isSpace '"' = false from rfl, Bool.false_eq_true, if_false, Lex.next,
    beq_self_eq_true, if_true]
  rw [hbody]
  simp [withoutSpace, Lex.next]

/-! ## The indented encoding is the layout of the compact one -/

/-- A line break and its indentation, character by character. -/
theorem newline_data (depth : Nat) :
    (newline depth).data = '\n' :: List.replicate (2 * depth) ' ' := by
  simp [newline]

/-- A string literal as `appendString` writes it begins with a quote. -/
theorem appendString_data (s : String) :
    (appendString s).data = '"' :: (s.data.flatMap escapeChar ++ ['"']) := rfl

/-- The layout at an opening square bracket. -/
theorem layout_open_bracket (depth : Nat) (cs : List Char) :
    layout .outside false depth ('[' :: cs) = '[' :: layout .outside true depth cs := rfl

/-- The layout at an opening brace. -/
theorem layout_open_brace (depth : Nat) (cs : List Char) :
    layout .outside false depth ('\x7b' :: cs) = '\x7b' :: layout .outside true depth cs := rfl

/-- The layout at a closing square bracket after an element. -/
theorem layout_close_bracket (depth : Nat) (cs : List Char) :
    layout .outside false (depth + 1) (']' :: cs)
      = (newline depth).data ++ ']' :: layout .outside false depth cs := rfl

/-- The layout at a closing brace after an element. -/
theorem layout_close_brace (depth : Nat) (cs : List Char) :
    layout .outside false (depth + 1) ('\x7d' :: cs)
      = (newline depth).data ++ '\x7d' :: layout .outside false depth cs := rfl

/-- The layout at a closing brace right after the opening one. -/
theorem layout_empty_brace (depth : Nat) (cs : List Char) :
    layout .outside true depth ('\x7d' :: cs) = '\x7d' :: layout .outside false depth cs := rfl

/-- The layout at a comma. -/
theorem layout_comma (depth : Nat) (cs : List Char) :
    layout .outside false depth (',' :: cs)
      = ',' :: ((newline depth).data ++ layout .outside false depth cs) := rfl

/-- The layout at a colon. -/
theorem layout_colon (depth : Nat) (cs : List Char) :
    layout .outside false depth (':' :: cs) = ':' :: ' ' :: layout .outside false depth cs := rfl

/-- The layout at the quote of the first element of an object or array: the
line break held back is made, one level deeper. -/
theorem layout_opened_quote (depth : Nat) (cs : List Char) :
    layout .outside true depth ('"' :: cs)
      = (newline (depth + 1)).data ++ layout .outside false (depth + 1) ('"' :: cs) := rfl

/-- The layout of `null`. -/
theorem layout_null (depth : Nat) (cs : List Char) :
    layout .outside false depth ('n' :: 'u' :: 'l' :: 'l' :: cs)
      = 'n' :: 'u' :: 'l' :: 'l' :: layout .outside false depth cs := rfl

/-- The texts `parts` joined by `sep`, character by character. -/
theorem joinWith_cons_cons (sep x y : String) (rest : List String) :
    (joinWith sep (x :: y :: rest)).data = x.data ++ sep.data ++ (joinWith sep (y :: rest)).data := by
  simp [joinWith, String.data_append]

/-- The layout of elements separated by commas: each element is laid out and
every comma is followed by a line break. -/
theorem layout_joinWith (depth : Nat) (xs ys : List String)
    (h : List.Forall₂ (fun x y : String => ∀ tail, layout .outside false depth (x.data ++ tail)
      = y.data ++ layout .outside false depth tail) xs ys) (tail : List Char) :
    layout .outside false depth ((joinWith "," xs).data ++ tail)
      = (joinWith ("," ++ newline depth) ys).data ++ layout .outside false depth tail := by
  induction h with
  | nil => rfl
  | @cons x y xs ys hxy hrest ih =>
    cases hrest with
    | nil => exact hxy tail
    | @cons x2 y2 xs2 ys2 h2 hrest2 =>
      rw [joinWith_cons_cons, joinWith_cons_cons, List.append_assoc, List.append_assoc, hxy]
      simp only [String.data_append, List.append_assoc]
      rw [List.singleton_append, List.singleton_append, layout_comma, ih]

/-- Joined texts begin with the first of them. -/
theorem joinWith_head (sep x : String) (rest : List String) :
    ∃ t, (joinWith sep (x :: rest)).data = x.data ++ t := by
  cases rest with
  | nil => exact ⟨[], by simp [joinWith]⟩
  | cons y rest => exact ⟨sep.data ++ (joinWith sep (y :: rest)).data, by
      rw [joinWith_cons_cons, List.append_assoc]⟩

/-- The layout of a non-empty object or array whose elements begin with a
quote: the elements go on lines of their own, one level deeper, and the closing
bracket on a line of its own. -/
theorem layout_elements (depth : Nat) (o c : Char)
    (ho : ∀ d cs, layout .outside false d (o :: cs) = o :: layout .outside true d cs)
    (hc : ∀ d cs, layout .outside false (d + 1) (c :: cs)
      = (newline d).data ++ c :: layout .outside false d cs)
    (x y : String) (xs ys : List String) (hq : ∃ u, x.data = '"' :: u)
    (h : List.Forall₂ (fun x y : String => ∀ tail,
      layout .outside false (depth + 1) (x.data ++ tail)
        = y.data ++ layout .outside false (depth + 1) tail) (x :: xs) (y :: ys))
    (tail : List Char) :
    layout .outside false depth (o :: ((joinWith "," (x :: xs)).data ++ c :: tail))
      = o :: ((newline (depth + 1)).data ++
          ((joinWith ("," ++ newline (depth + 1)) (y :: ys)).data ++
            ((newline depth).data ++ c :: layout .outside false depth tail))) := by
  obtain ⟨u, hu⟩ := hq
  obtain ⟨t, ht⟩ := joinWith_head "," x xs
  have hlead : layout .outside true depth ((joinWith "," (x :: xs)).data ++ c :: tail)
      = (newline (depth + 1)).data ++
          layout .outside false (depth + 1) ((joinWith "," (x :: xs)).data ++ c :: tail) := by
    rw [ht, hu]
    exact layout_opened_quote depth _
  rw [ho, hlead, layout_joinWith (depth + 1) (x :: xs) (y :: ys) h, hc]

/-- A relation that holds of the images of every element of a list holds of
the lists of images, place by place. -/
theorem forall₂_map_same {α β γ : Type} (R : β → γ → Prop) (f : α → β) (g : α → γ)
    (l : List α) (h : ∀ a ∈ l, R (f a) (g a)) : List.Forall₂ R (l.map f) (l.map g) := by
  induction l with
  | nil => exact List.Forall₂.nil
  | cons a l ih =>
    exact List.Forall₂.cons (h a (List.mem_cons_self a l))
      (ih (fun b hb => h b (List.mem_cons_of_mem a hb)))

/-- Sorting the entries by key and encoding their values can be done in
either order. -/
theorem sortByKey_map (f : GoValue → String) (m : GoMap) :
    sortByKey (m.map (fun e => (e.1, f e.2)))
      = (m.insertionSort (fun a b => keyLE a.1.data b.1.data = true)).map
          (fun e => (e.1, f e.2)) := by
  unfold sortByKey
  exact (List.map_insertionSort (fun a b : String × GoValue => keyLE a.1.data b.1.data = true)
    (fun a b : String × String => keyLE a.1.data b.1.data = true)
    (fun e => (e.1, f e.2)) m (fun a _ b _ => Iff.rfl)).symm

/-- The layout of the compact encoding of a list of strings. -/
theorem layout_strings (xs : List String) (depth : Nat) (tail : List Char) :
    layout .outside false depth ((encode (.strings xs)).data ++ tail)
      = (encodeIndent depth (.strings xs)).data ++ layout .outside false depth tail := by
  cases xs with
  | nil => exact layout_null depth tail
  | cons x xs =>
    have h := layout_elements depth '[' ']' layout_open_bracket layout_close_bracket
      (appendString x) (appendString x) (xs.map appendString) (xs.map appendString)
      ⟨_, appendString_data x⟩
      (forall₂_map_same _ appendString appendString (x :: xs)
        (fun a _ tail => layout_appendString a (depth + 1) tail)) tail
    simp only [encode, encodeIndent, String.data_append, List.append_assoc, List.map_cons]
    exact h

/-- The layout of the compact encoding of a map, given that of the values of
its entries. -/
theorem layout_map (m : GoMap)
    (ih : ∀ e ∈ m, ∀ (d : Nat) (tail : List Char),
      layout .outside false d ((encode e.2).data ++ tail)
        = (encodeIndent d e.2).data ++ layout .outside false d tail)
    (depth : Nat) (tail : List Char) :
    layout .outside false depth ((encode (.map m)).data ++ tail)
      = (encodeIndent depth (.map m)).data ++ layout .outside false depth tail := by
  cases m with
  | nil => rfl
  | cons e m =>
    rw [encode, encodeIndent, encodeEntries_eq_map, encodeIndentEntries_eq_map, sortByKey_map,
      sortByKey_map, List.map_map, List.map_map]
    have hitems : List.Forall₂ (fun x y : String => ∀ tail,
        layout .outside false (depth + 1) (x.data ++ tail)
          = y.data ++ layout .outside false (depth + 1) tail)
        (((e :: m).insertionSort (fun a b => keyLE a.1.data b.1.data = true)).map
          ((fun kv : String × String => appendString kv.1 ++ ":" ++ kv.2) ∘
            fun e => (e.1, encode e.2)))
        (((e :: m).insertionSort (fun a b => keyLE a.1.data b.1.data = true)).map
          ((fun kv : String × String => appendString kv.1 ++ ": " ++ kv.2) ∘
            fun e => (e.1, encodeIndent (depth + 1) e.2))) := by
      apply forall₂_map_same
      intro a ha tail
      have hm : a ∈ e :: m := (List.mem_insertionSort _).mp ha
      simp only [Function.comp, String.data_append, List.append_assoc]
      rw [layout_appendString]
      exact congrArg _ (by
        rw [List.singleton_append, layout_colon, ih a hm]
        rfl)
    cases hS : (e :: m).insertionSort (fun a b => keyLE a.1.data b.1.data = true) with
    | nil =>
      have := (List.perm_insertionSort (fun a b : String × GoValue =>
        keyLE a.1.data b.1.data = true) (e :: m)).length_eq
      rw [hS] at this
      cases this
    | cons x rest =>
      rw [hS] at hitems
      simp only [List.map_cons] at hitems ⊢
      have h := layout_elements depth '\x7b' '\x7d' layout_open_brace layout_close_brace _ _ _ _
        ⟨_, by
          simp only [Function.comp, String.data_append, appendString_data, List.cons_append]
          rfl⟩ hitems tail
      simp only [String.data_append, List.append_assoc]
      exact h

mutual
/-- The indented encoding of a value is the layout of its compact encoding,
whatever the level of nesting it stands at and whatever follows it. -/
theorem layout_encode : ∀ (v : GoValue) (depth : Nat) (tail : List Char),
    layout .outside false depth ((encode v).data ++ tail)
      = (encodeIndent depth v).data ++ layout .outside false depth tail
  | .nil, depth, tail => layout_null depth tail
  | .str s, depth, tail => layout_appendString s depth tail
  | .strings xs, depth, tail => layout_strings xs depth tail
  | .map m, depth, tail => layout_map m (layout_entries m) depth tail
/-- The same of the value of every entry of a map. -/
theorem layout_entries : ∀ (m : GoMap), ∀ e ∈ m, ∀ (depth : Nat) (tail : List Char),
    layout .outside false depth ((encode e.2).data ++ tail)
      = (encodeIndent depth e.2).data ++ layout .outside false depth tail
  | [], _, he => by cases he
  | (k, v) :: rest, e, he => by
    rcases List.mem_cons.mp he with h | h
    · rw [h]
      exact layout_encode v
    · exact layout_entries rest e h
end

/-! ## The layout adds white space outside the string literals only -/

/-- A line break and its indentation are white space. -/
theorem withoutSpace_newline (depth : Nat) (tail : List Char) :
    withoutSpace .outside ((newline depth).data ++ tail) = withoutSpace .outside tail := by
  have hsp : ∀ n, withoutSpace .outside (List.replicate n ' ' ++ tail)
      = withoutSpace .outside tail := by
    intro n
    induction n with
    | zero => rfl
    | succ n ih =>
      rw [List.replicate_succ, List.cons_append, withoutSpace]
      simpa [isSpace] using ih
  rw [newline_data, List.cons_append, withoutSpace]
  simpa [isSpace] using hsp (2 * depth)

/-- A character that is no white space is kept outside the string literals. -/
theorem withoutSpace_keep (c : Char) (cs : List Char) (h : isSpace c = false) :
    withoutSpace .outside (c :: cs) = c :: withoutSpace (Lex.next .outside c) cs := by
  rw [withoutSpace, h]
  simp

/-- Inside a string literal the layout copies the character. -/
theorem layout_inside (l : Lex) (hl : l ≠ .outside) (opened : Bool) (depth : Nat) (c : Char)
    (cs : List Char) : layout l opened depth (c :: cs) = c :: layout (l.next c) opened depth cs := by
  cases l with
  | outside => exact absurd rfl hl
  | inString => simp [layout]
  | escaped => simp [layout]

/-- Inside a string literal every character is kept. -/
theorem withoutSpace_inside (l : Lex) (hl : l ≠ .outside) (c : Char) (cs : List Char) :
    withoutSpace l (c :: cs) = c :: withoutSpace (l.next c) cs := by
  cases l with
  | outside => exact absurd rfl hl
  | inString => simp [withoutSpace]
  | escaped => simp [withoutSpace]

/-- The layout of a text and the text itself differ only in white space
outside the string literals. -/
theorem withoutSpace_layout : ∀ (cs : List Char) (l : Lex) (opened : Bool) (depth : Nat),
    withoutSpace l (layout l opened depth cs) = withoutSpace l cs
  | [], l, opened, depth => by cases l <;> rfl
  | c :: cs, .inString, opened, depth => by
    rw [layout_inside _ (by decide), withoutSpace_inside _ (by decide),
      withoutSpace_inside _ (by decide), withoutSpace_layout cs]
  | c :: cs, .escaped, opened, depth => by
    rw [layout_inside _ (by decide), withoutSpace_inside _ (by decide),
      withoutSpace_inside _ (by decide), withoutSpace_layout cs]
  | c :: cs, .outside, opened, depth => by
    rw [layout]
    by_cases hsp : isSpace c = true
    · rw [if_pos hsp, withoutSpace, if_pos hsp]
      exact withoutSpace_layout cs .outside opened depth
    · rw [if_neg hsp]
      have hsp2 : isSpace c = false := by simpa using hsp
      rw [withoutSpace_keep c cs hsp2]
      by_cases hclose : (c == '\x7d' || c == ']') = true
      · rw [if_pos hclose]
        have hnext : Lex.next .outside c = .outside := by
          simp only [Bool.or_eq_true, beq_iff_eq] at hclose
          rcases hclose with h | h <;> subst h <;> rfl
        rw [hnext]
        cases opened with
        | true =>
          simp only [if_true]
          rw [withoutSpace_keep c _ hsp2, hnext, withoutSpace_layout cs]
        | false =>
          simp only [Bool.false_eq_true, if_false]
          rw [withoutSpace_newline, withoutSpace_keep c _ hsp2, hnext, withoutSpace_layout cs]
      · rw [if_neg hclose]
        have hlead : ∀ t, withoutSpace .outside
            ((if opened = true then (newline (depth + 1)).data else []) ++ t)
              = withoutSpace .outside t := by
          intro t
          cases opened with
          | true => simpa using withoutSpace_newline (depth + 1) t
          | false => rfl
        rw [hlead]
        by_cases hopen : (c == '\x7b' || c == '[') = true
        · rw [if_pos hopen]
          have hnext : Lex.next .outside c = .outside := by
            simp only [Bool.or_eq_true, beq_iff_eq] at hopen
            rcases hopen with h | h <;> subst h <;> rfl
          rw [withoutSpace_keep c _ hsp2, hnext, withoutSpace_layout cs]
        · rw [if_neg hopen]
          by_cases hcomma : (c == ',') = true
          · rw [if_pos hcomma]
            have hnext : Lex.next .outside c = .outside := by
              simp only [beq_iff_eq] at hcomma
              subst hcomma
              rfl
            rw [withoutSpace_keep c _ hsp2, hnext, withoutSpace_newline, withoutSpace_layout cs]
          · rw [if_neg hcomma]
            by_cases hcolon : (c == ':') = true
            · rw [if_pos hcolon]
              have hnext : Lex.next .outside c = .outside := by
                simp only [beq_iff_eq] at hcolon
                subst hcolon
                rfl
              rw [withoutSpace_keep c _ hsp2, hnext, withoutSpace,
                if_pos (show isSpace ' ' = true from rfl), withoutSpace_layout cs]
            · rw [if_neg hcolon, withoutSpace_keep c _ hsp2, withoutSpace_layout cs]

/-! ## The compact encoding has no white space to lose and no line break -/

/-- Elements without white space outside their string literals, joined by
commas, make a text without such white space. -/
theorem withoutSpace_joinWith (xs : List String)
    (h : ∀ x ∈ xs, ∀ tail, withoutSpace .outside (x.data ++ tail)
      = x.data ++ withoutSpace .outside tail) (tail : List Char) :
    withoutSpace .outside ((joinWith "," xs).data ++ tail)
      = (joinWith "," xs).data ++ withoutSpace .outside tail := by
  induction xs with
  | nil => rfl
  | cons x xs ih =>
    cases xs with
    | nil => exact h x (List.mem_cons_self x []) tail
    | cons y ys =>
      have ih2 := ih (fun z hz => h z (List.mem_cons_of_mem x hz))
      rw [joinWith_cons_cons]
      simp only [List.append_assoc]
      rw [h x (List.mem_cons_self x _)]
      refine congrArg _ ?_
      show withoutSpace .outside (',' :: ((joinWith "," (y :: ys)).data ++ tail))
        = ',' :: ((joinWith "," (y :: ys)).data ++ withoutSpace .outside tail)
      rw [withoutSpace_keep ',' _ rfl]
      exact congrArg _ ih2

/-- The compact encoding of a non-empty list of strings, character by
character. -/
theorem encode_strings_data (x : String) (xs : List String) :
    (encode (.strings (x :: xs))).data
      = '[' :: ((joinWith "," ((x :: xs).map appendString)).data ++ [']']) := by
  rw [encode]
  · simp only [String.data_append, List.append_assoc]
    rfl
  · intro h
    cases h

/-- The compact encoding of a map, character by character. -/
theorem encode_map_data (m : GoMap) :
    (encode (.map m)).data
      = '\x7b' :: ((joinWith "," ((sortByKey (encodeEntries m)).map
          fun kv => appendString kv.1 ++ ":" ++ kv.2)).data ++ ['\x7d']) := by
  rw [encode]
  simp only [String.data_append, List.append_assoc]
  rfl

/-- An entry of a map as the compact encoding writes it, character by
character. -/
theorem encode_entry_data (k v : String) :
    (appendString k ++ ":" ++ v).data = (appendString k).data ++ ':' :: v.data := by
  simp only [String.data_append, List.append_assoc]
  rfl

/-- The compact encoding of a map has no white space outside its string
literals, given that the encodings of the values of its entries have none. -/
theorem withoutSpace_map (m : GoMap)
    (ih : ∀ e ∈ m, ∀ (tail : List Char), withoutSpace .outside ((encode e.2).data ++ tail)
      = (encode e.2).data ++ withoutSpace .outside tail) (tail : List Char) :
    withoutSpace .outside ((encode (.map m)).data ++ tail)
      = (encode (.map m)).data ++ withoutSpace .outside tail := by
  have hitems : ∀ x ∈ (sortByKey (encodeEntries m)).map
      (fun kv => appendString kv.1 ++ ":" ++ kv.2),
      ∀ tail, withoutSpace .outside (x.data ++ tail) = x.data ++ withoutSpace .outside tail := by
    intro x hx tail
    obtain ⟨kv, hkv, rfl⟩ := List.mem_map.mp hx
    have hmem : kv ∈ encodeEntries m := (sortByKey_perm _).subset hkv
    rw [encodeEntries_eq_map] at hmem
    obtain ⟨e, he, rfl⟩ := List.mem_map.mp hmem
    rw [encode_entry_data, List.append_assoc, withoutSpace_appendString, List.append_assoc]
    refine congrArg _ ?_
    show withoutSpace .outside (':' :: ((encode e.2).data ++ tail))
      = ':' :: ((encode e.2).data ++ withoutSpace .outside tail)
    rw [withoutSpace_keep ':' _ rfl]
    exact congrArg _ (ih e he tail)
  rw [encode_map_data]
  simp only [List.cons_append, List.append_assoc, List.singleton_append]
  rw [withoutSpace_keep '\x7b' _ rfl]
  refine congrArg _ ?_
  show withoutSpace .outside (_ ++ '\x7d' :: tail) = _
  rw [withoutSpace_joinWith _ hitems, withoutSpace_keep '\x7d' _ rfl]
  rfl

mutual
/-- The compact encoding of a value has no white space outside its string
literals. -/
theorem withoutSpace_encode : ∀ (v : GoValue) (tail : List Char),
    withoutSpace .outside ((encode v).data ++ tail)
      = (encode v).data ++ withoutSpace .outside tail
  | .nil, _ => rfl
  | .str s, tail => withoutSpace_appendString s tail
  | .strings [], _ => rfl
  | .strings (x :: xs), tail => by
    have hitems : ∀ y ∈ (x :: xs).map appendString, ∀ tail,
        withoutSpace .outside (y.data ++ tail) = y.data ++ withoutSpace .outside tail := by
      intro y hy tail
      obtain ⟨z, _, rfl⟩ := List.mem_map.mp hy
      exact withoutSpace_appendString z tail
    rw [encode_strings_data]
    simp only [List.cons_append, List.append_assoc, List.singleton_append]
    rw [withoutSpace_keep '[' _ rfl]
    refine congrArg _ ?_
    show withoutSpace .outside (_ ++ ']' :: tail) = _
    rw [withoutSpace_joinWith _ hitems, withoutSpace_keep ']' _ rfl]
    rfl
  | .map m, tail => withoutSpace_map m (withoutSpace_entries m) tail
/-- The same of the value of every entry of a map. -/
theorem withoutSpace_entries : ∀ (m : GoMap), ∀ e ∈ m, ∀ (tail : List Char),
    withoutSpace .outside ((encode e.2).data ++ tail)
      = (encode e.2).data ++ withoutSpace .outside tail
  | [], _, he => by cases he
  | (k, v) :: rest, e, he => by
    rcases List.mem_cons.mp he with h | h
    · rw [h]
      exact withoutSpace_encode v
    · exact withoutSpace_entries rest e h
end

/-- Nothing `escapeChar` writes is a line break. -/
theorem escapeChar_no_break (c : Char) : ∀ x ∈ escapeChar c, x ≠ '\n' ∧ x ≠ '\r' := by
  intro x hx
  rcases escapeChar_cases c with ⟨y, h, h1, h2⟩ | ⟨w, a, b, z, h, hw, ha, hb, hz⟩ | ⟨h, h1⟩
  · rw [h] at hx
    simp only [List.mem_cons, List.mem_singleton, List.not_mem_nil, or_false] at hx
    rcases hx with rfl | rfl
    · exact ⟨by decide, by decide⟩
    · exact ⟨h1, h2⟩
  · rw [h] at hx
    simp only [List.mem_cons, List.mem_singleton, List.not_mem_nil, or_false] at hx
    rcases hx with rfl | rfl | rfl | rfl | rfl | rfl
    · exact ⟨by decide, by decide⟩
    · exact ⟨by decide, by decide⟩
    · exact hw.2.2
    · exact ha.2.2
    · exact hb.2.2
    · exact hz.2.2
  · rw [h] at hx
    simp only [List.mem_singleton] at hx
    subst hx
    exact h1.2.2

/-- A string literal as `appendString` writes it has no line break. -/
theorem appendString_no_break (s : String) :
    ∀ x ∈ (appendString s).data, x ≠ '\n' ∧ x ≠ '\r' := by
  intro x hx
  rw [appendString_data] at hx
  simp only [List.mem_cons, List.mem_append, List.mem_flatMap, List.mem_singleton,
    List.not_mem_nil, or_false] at hx
  rcases hx with rfl | ⟨c, _, hc⟩ | rfl
  · exact ⟨by decide, by decide⟩
  · exact escapeChar_no_break c x hc
  · exact ⟨by decide, by decide⟩

/-- Texts without a line break, joined by commas, make a text without one. -/
theorem joinWith_no_break (xs : List String)
    (h : ∀ y ∈ xs, ∀ x ∈ y.data, x ≠ '\n' ∧ x ≠ '\r') :
    ∀ x ∈ (joinWith "," xs).data, x ≠ '\n' ∧ x ≠ '\r' := by
  induction xs with
  | nil =>
    intro x hx
    cases hx
  | cons y ys ih =>
    cases ys with
    | nil => exact h y (List.mem_cons_self y [])
    | cons z zs =>
      intro x hx
      rw [joinWith_cons_cons] at hx
      rcases List.mem_append.mp hx with hx | hx
      · rcases List.mem_append.mp hx with hx | hx
        · exact h y (List.mem_cons_self y _) x hx
        · have : x = ',' := by simpa using hx
          subst this
          exact ⟨by decide, by decide⟩
      · exact ih (fun w hw => h w (List.mem_cons_of_mem y hw)) x hx

mutual
/-- The compact encoding of a value is a single line: it has no line break. -/
theorem encode_no_break : ∀ (v : GoValue), ∀ x ∈ (encode v).data, x ≠ '\n' ∧ x ≠ '\r'
  | .nil => by
    intro x hx
    have : x = 'n' ∨ x = 'u' ∨ x = 'l' := by
      have h : (encode GoValue.nil).data = ['n', 'u', 'l', 'l'] := rfl
      rw [h] at hx
      simpa using hx
    rcases this with rfl | rfl | rfl <;> exact ⟨by decide, by decide⟩
  | .str s => appendString_no_break s
  | .strings [] => by
    intro x hx
    have : x = 'n' ∨ x = 'u' ∨ x = 'l' := by
      have h : (encode (GoValue.strings [])).data = ['n', 'u', 'l', 'l'] := rfl
      rw [h] at hx
      simpa using hx
    rcases this with rfl | rfl | rfl <;> exact ⟨by decide, by decide⟩
  | .strings (y :: ys) => by
    intro x hx
    rw [encode_strings_data] at hx
    rcases List.mem_cons.mp hx with rfl | hx
    · exact ⟨by decide, by decide⟩
    · rcases List.mem_append.mp hx with hx | hx
      · refine joinWith_no_break _ ?_ x hx
        intro w hw
        obtain ⟨z, _, rfl⟩ := List.mem_map.mp hw
        exact appendString_no_break z
      · have : x = ']' := by simpa using hx
        subst this
        exact ⟨by decide, by decide⟩
  | .map m => by
    intro x hx
    have ih := entries_no_break m
    rw [encode_map_data] at hx
    rcases List.mem_cons.mp hx with rfl | hx
    · exact ⟨by decide, by decide⟩
    · rcases List.mem_append.mp hx with hx | hx
      · refine joinWith_no_break _ ?_ x hx
        intro w hw
        obtain ⟨kv, hkv, rfl⟩ := List.mem_map.mp hw
        have hmem : kv ∈ encodeEntries m := (sortByKey_perm _).subset hkv
        rw [encodeEntries_eq_map] at hmem
        obtain ⟨e, he, rfl⟩ := List.mem_map.mp hmem
        intro y hy
        rw [encode_entry_data] at hy
        rcases List.mem_append.mp hy with hy | hy
        · exact appendString_no_break _ y hy
        · rcases List.mem_cons.mp hy with rfl | hy
          · exact ⟨by decide, by decide⟩
          · exact ih e he y hy
      · have : x = '\x7d' := by simpa using hx
        subst this
        exact ⟨by decide, by decide⟩
/-- The same of the value of every entry of a map. -/
theorem entries_no_break : ∀ (m : GoMap), ∀ e ∈ m, ∀ x ∈ (encode e.2).data,
    x ≠ '\n' ∧ x ≠ '\r'
  | [], _, he => by cases he
  | (k, v) :: rest, e, he => by
    rcases List.mem_cons.mp he with h | h
    · rw [h]
      exact encode_no_break v
    · exact entries_no_break rest e h
end

set_option maxRecDepth 100000 in
/-- The two texts for an object with one key bound to an array: the indented
one has every element of the root on a line of its own behind two spaces, the
elements of "properties" behind four, and so on. -/
theorem GenerateJsonSchemaFromJsonString_indent_example :
    GenerateJsonSchemaFromJsonString RangeOrder.insertion "\x7b\"a\": [\"x y\"]\x7d" true
      = .returned (.ok ("\x7b\"$schema\":\"https://json-schema.org/draft/2020-12/schema\"," ++
          "\"properties\":\x7b\"a\":\x7b\"items\":\x7b\"type\":\"string\"\x7d," ++
          "\"type\":\"array\"\x7d\x7d,\"required\":[\"a\"]," ++
          "\"title\":\"Generated schema from jellyfaas\",\"type\":\"object\"\x7d")) ∧
    GenerateJsonSchemaFromJsonString RangeOrder.insertion "\x7b\"a\": [\"x y\"]\x7d" false
      = .returned (.ok ("\x7b\n" ++
          "  \"$schema\": \"https://json-schema.org/draft/2020-12/schema\",\n" ++
          "  \"properties\": \x7b\n" ++
          "    \"a\": \x7b\n" ++
          "      \"items\": \x7b\n" ++
          "        \"type\": \"string\"\n" ++
          "      \x7d,\n" ++
          "      \"type\": \"array\"\n" ++
          "    \x7d\n" ++
          "  \x7d,\n" ++
          "  \"required\": [\n" ++
          "    \"a\"\n" ++
          "  ],\n" ++
          "  \"title\": \"Generated schema from jellyfaas\",\n" ++
          "  \"type\": \"object\"\n" ++
          "\x7d")) :=
  ⟨by decide!, by decide!⟩

/-- For every input text and one order of visiting the decoded maps, the
function with `flat` set and with `flat` not set both return the decoder's
error, or both panic, or `flat` set returns the compact text of the root
schema and `flat` not set its indented text, unless the root schema nests
deeper than `maxNestingDepth`, when it returns the error `exceeded max depth`.
The indented text is the compact text laid out with two spaces of indentation
for each level of nesting, the two differ only in white space outside the
string literals, of which the compact text has none, and the compact text is
a single line. -/
theorem GenerateJsonSchemaFromJsonString_flat_and_indented (order : RangeOrder)
    (jsonString : String) :
    (∃ e, Decode order jsonString = .error e ∧
      GenerateJsonSchemaFromJsonString order jsonString true = .returned (.error e) ∧
      GenerateJsonSchemaFromJsonString order jsonString false = .returned (.error e)) ∨
    (GenerateJsonSchemaFromJsonString order jsonString true = .panicked ∧
      GenerateJsonSchemaFromJsonString order jsonString false = .panicked) ∨
    (∃ root : GoValue,
      GenerateJsonSchemaFromJsonString order jsonString true = .returned (.ok (encode root)) ∧
      GenerateJsonSchemaFromJsonString order jsonString false =
        .returned (if root.nesting ≤ maxNestingDepth then .ok (encodeIndent 0 root)
          else .error .exceededMaxDepth) ∧
      (encodeIndent 0 root).data = layout .outside false 0 (encode root).data ∧
      withoutSpace .outside (encodeIndent 0 root).data = (encode root).data ∧
      withoutSpace .outside (encode root).data = (encode root).data ∧
      '\n' ∉ (encode root).data ∧ '\r' ∉ (encode root).data) := by
  cases hd : Decode order jsonString with
  | error e =>
    exact Or.inl ⟨e, rfl, GenerateJsonSchemaFromJsonString_decode_error order jsonString true e hd,
      GenerateJsonSchemaFromJsonString_decode_error order jsonString false e hd⟩
  | ok data =>
    cases hg : generateSchema data with
    | panicked =>
      exact Or.inr (Or.inl
        ⟨GenerateJsonSchemaFromJsonString_panicked order jsonString true data hd hg,
          GenerateJsonSchemaFromJsonString_panicked order jsonString false data hd hg⟩)
    | returned p =>
      obtain ⟨node, required⟩ := p
      have h1 := GenerateJsonSchemaFromJsonString_returned order jsonString true data node
        required hd hg
      have h2 := GenerateJsonSchemaFromJsonString_returned order jsonString false data node
        required hd hg
      have hindent : MarshalIndent (GoValue.map (rootSchema node required)) =
          if (GoValue.map (rootSchema node required)).nesting ≤ maxNestingDepth
            then .ok (encodeIndent 0 (GoValue.map (rootSchema node required)))
            else .error .exceededMaxDepth := by
        rw [MarshalIndent, Marshal]
      rw [if_pos rfl] at h1
      rw [if_neg Bool.false_ne_true, hindent] at h2
      have hlay : layout .outside false 0 (encode (GoValue.map (rootSchema node required))).data
          = (encodeIndent 0 (GoValue.map (rootSchema node required))).data := by
        have h := layout_encode (GoValue.map (rootSchema node required)) 0 []
        rw [List.append_nil] at h
        rw [h]
        exact List.append_nil _
      have hflat : withoutSpace .outside (encode (GoValue.map (rootSchema node required))).data
          = (encode (GoValue.map (rootSchema node required))).data := by
        have h := withoutSpace_encode (GoValue.map (rootSchema node required)) []
        rw [List.append_nil] at h
        rw [h]
        exact List.append_nil _
      have hbreak := encode_no_break (GoValue.map (rootSchema node required))
      refine Or.inr (Or.inr ⟨_, h1, h2, hlay.symm, ?_, hflat, ?_, ?_⟩)
      · rw [← hlay, withoutSpace_layout, hflat]
      · exact fun h => (hbreak _ h).1 rfl
      · exact fun h => (hbreak _ h).2 rfl

/-! ## The nesting of a value is the nesting of its compact text -/

/-- Inside a string literal no character opens or closes a bracket. -/
theorem textNesting_inside (l : Lex) (hl : l ≠ .outside) (depth : Nat) (c : Char)
    (cs : List Char) : textNesting l depth (c :: cs) = textNesting (l.next c) depth cs := by
  cases l
  · exact absurd rfl hl
  · rfl
  · rfl

/-- A text nests at least as deep as where it starts. -/
theorem le_textNesting : ∀ (cs : List Char) (l : Lex) (depth : Nat),
    depth ≤ textNesting l depth cs
  | [], l, depth => by
    cases l <;> exact Nat.le_refl _
  | c :: cs, .outside, depth => by
    rw [textNesting]
    split_ifs
    · exact Nat.le_trans (Nat.le_succ _) (le_textNesting cs .outside (depth + 1))
    · exact Nat.le_max_left _ _
    · exact le_textNesting cs _ depth
  | c :: cs, .inString, depth => by
    rw [textNesting_inside _ (by decide)]
    exact le_textNesting cs _ depth
  | c :: cs, .escaped, depth => by
    rw [textNesting_inside _ (by decide)]
    exact le_textNesting cs _ depth

/-- Outside the string literals a character that is no bracket and no quote
leaves the nesting as it is. -/
theorem textNesting_keep (c : Char) (depth : Nat) (cs : List Char)
    (h1 : (c == '\x7b' || c == '[') = false) (h2 : (c == '\x7d' || c == ']') = false)
    (h3 : (c == '"') = false) :
    textNesting .outside depth (c :: cs) = textNesting .outside depth cs := by
  rw [textNesting]
  simp only [h1, h2, Lex.next, h3, Bool.false_eq_true, if_false]

/-- An opening bracket nests one level deeper. -/
theorem textNesting_open (c : Char) (depth : Nat) (cs : List Char)
    (h : (c == '\x7b' || c == '[') = true) :
    textNesting .outside depth (c :: cs) = textNesting .outside (depth + 1) cs := by
  rw [textNesting, if_pos h]

/-- A closing bracket ends a level. -/
theorem textNesting_close (c : Char) (depth : Nat) (cs : List Char)
    (h1 : (c == '\x7b' || c == '[') = false) (h2 : (c == '\x7d' || c == ']') = true) :
    textNesting .outside (depth + 1) (c :: cs)
      = max (depth + 1) (textNesting .outside depth cs) := by
  rw [textNesting]
  simp only [h1, h2, Bool.false_eq_true, if_false, if_true, Nat.add_sub_cancel]

/-- What `escapeChar` writes for a character stays inside the string literal. -/
theorem textNesting_escapeChar (c : Char) (depth : Nat) (tail : List Char) :
    textNesting .inString depth (escapeChar c ++ tail) = textNesting .inString depth tail := by
  rcases escapeChar_cases c with ⟨x, h, _⟩ | ⟨w, x, y, z, h, hw, hx, hy, hz⟩ | ⟨h, h1, h2, _⟩
  · rw [h]
    simp [textNesting, Lex.next]
  · rw [h]
    simp [textNesting, Lex.next, hw.1, hw.2.1, hx.1, hx.2.1, hy.1, hy.2.1, hz.1, hz.2.1]
  · rw [h]
    simp [textNesting, Lex.next, h1, h2]

/-- A string literal as `appendString` writes it nests nothing. -/
theorem textNesting_appendString (s : String) (depth : Nat) (tail : List Char) :
    textNesting .outside depth ((appendString s).data ++ tail)
      = textNesting .outside depth tail := by
  have hbody : ∀ (cs : List Char) (rest : List Char),
      textNesting .inString depth (cs.flatMap escapeChar ++ rest)
        = textNesting .inString depth rest := by
    intro cs
    induction cs with
    | nil => intro rest; rfl
    | cons c cs ih =>
      intro rest
      rw [List.flatMap_cons, List.append_assoc, textNesting_escapeChar, ih]
  simp only [appendString, List.cons_append, List.append_assoc]
  rw [textNesting]
  simp only [show (('"' == '\x7b') || ('"' == '[')) = false from rfl,
    show (('"' == '\x7d') || ('"' == ']')) = false from rfl, Bool.false_eq_true, if_false,
    Lex.next, beq_self_eq_true, if_true]
  rw [hbody]
  simp [textNesting, Lex.next]

/-- The greatest of a list of numbers is the same in every order. -/
theorem foldr_max_perm (xs ys : List Nat) (h : xs.Perm ys) :
    xs.foldr max 0 = ys.foldr max 0 := by
  induction h with
  | nil => rfl
  | cons x _ ih => simp only [List.foldr_cons, ih]
  | swap x y l =>
    simp only [List.foldr_cons]
    omega
  | trans _ _ ih1 ih2 => exact ih1.trans ih2

/-- Elements joined by commas nest as deep as the deepest of them, when each
nests as deep after other text as it does alone. -/
theorem textNesting_joinWith (xs : List String)
    (h : ∀ x ∈ xs, ∀ depth tail, textNesting .outside depth (x.data ++ tail)
      = max (depth + textNesting .outside 0 x.data) (textNesting .outside depth tail))
    (depth : Nat) (tail : List Char) :
    textNesting .outside depth ((joinWith "," xs).data ++ tail)
      = max (depth + (xs.map fun x => textNesting .outside 0 x.data).foldr max 0)
          (textNesting .outside depth tail) := by
  induction xs with
  | nil =>
    have := le_textNesting tail .outside depth
    show textNesting .outside depth tail = max (depth + 0) (textNesting .outside depth tail)
    omega
  | cons x xs ih =>
    cases xs with
    | nil =>
      show textNesting .outside depth (x.data ++ tail)
        = max (depth + max (textNesting .outside 0 x.data) 0) (textNesting .outside depth tail)
      rw [h x (List.mem_cons_self x []) depth tail, Nat.max_zero]
    | cons y ys =>
      have ih2 := ih (fun z hz => h z (List.mem_cons_of_mem x hz))
      rw [joinWith_cons_cons]
      simp only [List.append_assoc]
      rw [h x (List.mem_cons_self x _)]
      have hcomma : textNesting .outside depth (",".data ++ ((joinWith "," (y :: ys)).data ++ tail))
          = textNesting .outside depth ((joinWith "," (y :: ys)).data ++ tail) :=
        textNesting_keep ',' depth _ rfl rfl rfl
      rw [hcomma, ih2]
      simp only [List.map_cons, List.foldr_cons]
      omega

/-- The nesting of a map is the greatest nesting among its values, and one
more. -/
theorem entriesNesting_eq_foldr (m : GoMap) :
    entriesNesting m = (m.map fun e => e.2.nesting).foldr max 0 := by
  induction m with
  | nil => rfl
  | cons e rest ih =>
    obtain ⟨k, v⟩ := e
    simp only [entriesNesting, List.map_cons, List.foldr_cons, ih]

/-- The compact text of a map nests as deep as the map, given that the compact
texts of the values of its entries nest as deep as the values. -/
theorem textNesting_map (m : GoMap)
    (ih : ∀ e ∈ m, ∀ (depth : Nat) (tail : List Char),
      textNesting .outside depth ((encode e.2).data ++ tail)
        = max (depth + e.2.nesting) (textNesting .outside depth tail))
    (depth : Nat) (tail : List Char) :
    textNesting .outside depth ((encode (.map m)).data ++ tail)
      = max (depth + (GoValue.map m).nesting) (textNesting .outside depth tail) := by
  have hown : ∀ e ∈ m, textNesting .outside 0 (encode e.2).data = e.2.nesting := by
    intro e he
    have := ih e he 0 []
    rw [List.append_nil] at this
    rw [this]
    show max (0 + e.2.nesting) 0 = e.2.nesting
    omega
  have hentry : ∀ (k : String) (v : GoValue) (d : Nat) (rest : List Char),
      textNesting .outside d ((appendString k ++ ":" ++ encode v).data ++ rest)
        = textNesting .outside d ((encode v).data ++ rest) := by
    intro k v d rest
    rw [encode_entry_data, List.append_assoc, textNesting_appendString]
    exact textNesting_keep ':' d _ rfl rfl rfl
  have hitems : ∀ x ∈ (sortByKey (encodeEntries m)).map
      (fun kv => appendString kv.1 ++ ":" ++ kv.2),
      ∀ depth tail, textNesting .outside depth (x.data ++ tail)
        = max (depth + textNesting .outside 0 x.data) (textNesting .outside depth tail) := by
    intro x hx depth tail
    obtain ⟨kv, hkv, rfl⟩ := List.mem_map.mp hx
    have hmem : kv ∈ encodeEntries m := (sortByKey_perm _).subset hkv
    rw [encodeEntries_eq_map] at hmem
    obtain ⟨e, he, rfl⟩ := List.mem_map.mp hmem
    have h0 := hentry e.1 e.2 0 []
    rw [List.append_nil, List.append_nil] at h0
    show textNesting .outside depth ((appendString e.1 ++ ":" ++ encode e.2).data ++ tail)
      = max (depth + textNesting .outside 0 (appendString e.1 ++ ":" ++ encode e.2).data) _
    rw [hentry, h0, hown e he]
    exact ih e he depth tail
  have hmax : List.foldr max 0 (((sortByKey (encodeEntries m)).map
      (fun kv => appendString kv.1 ++ ":" ++ kv.2)).map
        (fun x => textNesting .outside 0 x.data)) = entriesNesting m := by
    rw [entriesNesting_eq_foldr, List.map_map,
      foldr_max_perm _ _ ((sortByKey_perm (encodeEntries m)).map _), encodeEntries_eq_map,
      List.map_map]
    refine congrArg _ (List.map_congr_left ?_)
    intro e he
    have h0 := hentry e.1 e.2 0 []
    rw [List.append_nil, List.append_nil] at h0
    show textNesting .outside 0 (appendString e.1 ++ ":" ++ encode e.2).data = e.2.nesting
    rw [h0, hown e he]
  rw [encode_map_data]
  simp only [List.cons_append, List.append_assoc, List.singleton_append]
  rw [textNesting_open '\x7b' _ _ rfl, textNesting_joinWith _ hitems, hmax,
    textNesting_close '\x7d' _ _ rfl rfl]
  have := le_textNesting tail .outside depth
  show max (depth + 1 + entriesNesting m) (max (depth + 1) (textNesting .outside depth tail))
    = max (depth + (entriesNesting m + 1)) (textNesting .outside depth tail)
  omega

mutual
/-- The compact text of a value, read after `depth` open brackets and before
`tail`, nests as deep as the value itself does below them. -/
theorem textNesting_encode_append : ∀ (v : GoValue) (depth : Nat) (tail : List Char),
    textNesting .outside depth ((encode v).data ++ tail)
      = max (depth + v.nesting) (textNesting .outside depth tail)
  | .nil, depth, tail => by
    have := le_textNesting tail .outside depth
    show textNesting .outside depth ('n' :: 'u' :: 'l' :: 'l' :: tail)
      = max (depth + 0) (textNesting .outside depth tail)
    rw [textNesting_keep 'n' _ _ rfl rfl rfl, textNesting_keep 'u' _ _ rfl rfl rfl,
      textNesting_keep 'l' _ _ rfl rfl rfl, textNesting_keep 'l' _ _ rfl rfl rfl]
    omega
  | .str s, depth, tail => by
    have := le_textNesting tail .outside depth
    rw [show encode (.str s) = appendString s from rfl, textNesting_appendString]
    show _ = max (depth + 0) (textNesting .outside depth tail)
    omega
  | .strings [], depth, tail => by
    have := le_textNesting tail .outside depth
    show textNesting .outside depth ('n' :: 'u' :: 'l' :: 'l' :: tail)
      = max (depth + 0) (textNesting .outside depth tail)
    rw [textNesting_keep 'n' _ _ rfl rfl rfl, textNesting_keep 'u' _ _ rfl rfl rfl,
      textNesting_keep 'l' _ _ rfl rfl rfl, textNesting_keep 'l' _ _ rfl rfl rfl]
    omega
  | .strings (x :: xs), depth, tail => by
    have hzero : ∀ z : String, textNesting .outside 0 (appendString z).data = 0 := by
      intro z
      have := textNesting_appendString z 0 []
      rw [List.append_nil] at this
      exact this
    have hitems : ∀ y ∈ (x :: xs).map appendString, ∀ depth tail,
        textNesting .outside depth (y.data ++ tail)
          = max (depth + textNesting .outside 0 y.data) (textNesting .outside depth tail) := by
      intro y hy depth tail
      obtain ⟨z, _, rfl⟩ := List.mem_map.mp hy
      have := le_textNesting tail .outside depth
      rw [textNesting_appendString, hzero]
      omega
    have hmax : List.foldr max 0 (((x :: xs).map appendString).map
        (fun y => textNesting .outside 0 y.data)) = 0 := by
      rw [List.map_map]
      generalize x :: xs = l
      induction l with
      | nil => rfl
      | cons z zs ih =>
        simp only [List.map_cons, List.foldr_cons, Function.comp, hzero, ih]
        rfl
    have := le_textNesting tail .outside depth
    rw [encode_strings_data]
    simp only [List.cons_append, List.append_assoc, List.singleton_append]
    rw [textNesting_open '[' _ _ rfl, textNesting_joinWith _ hitems, hmax,
      textNesting_close ']' _ _ rfl rfl]
    show max (depth + 1 + 0) (max (depth + 1) (textNesting .outside depth tail))
      = max (depth + 1) (textNesting .outside depth tail)
    omega
  | .map m, depth, tail => textNesting_map m (textNesting_entries m) depth tail
/-- The same of the value of every entry of a map. -/
theorem textNesting_entries : ∀ (m : GoMap), ∀ e ∈ m, ∀ (depth : Nat) (tail : List Char),
    textNesting .outside depth ((encode e.2).data ++ tail)
      = max (depth + e.2.nesting) (textNesting .outside depth tail)
  | [], _, he => by cases he
  | (k, v) :: rest, e, he => by
    rcases List.mem_cons.mp he with h | h
    · rw [h]
      exact textNesting_encode_append v
    · exact textNesting_entries rest e h
end

/-- The nesting of a value is the nesting of the compact text `Marshal` writes
for it: the depth that the scanner of `appendIndent` reaches on that text. -/
theorem textNesting_encode (v : GoValue) :
    textNesting .outside 0 (encode v).data = v.nesting := by
  have h := textNesting_encode_append v 0 []
  rw [List.append_nil] at h
  rw [h]
  show max (0 + v.nesting) 0 = v.nesting
  omega

/-- The function `MarshalIndent` fails exactly when the compact text that
`Marshal` has written nests deeper than `maxNestingDepth`. -/
theorem MarshalIndent_error_iff_text (v : GoValue) (b : String) (h : Marshal v = .ok b) :
    MarshalIndent v = .error .exceededMaxDepth
      ↔ maxNestingDepth < textNesting .outside 0 b.data := by
  cases h
  rw [textNesting_encode, MarshalIndent_error_iff]
  exact ⟨fun h => h.1, fun h => ⟨h, rfl⟩⟩

/-! ## The scan does not depend on the order of the decoded maps -/

/-- Stacks with the same kinds of entries are both empty, or both have a first
entry, of the same kind, on stacks with the same kinds of entries. -/
theorem kinds_cases (l1 l2 : List Frame) (h : l1.map Frame.kind = l2.map Frame.kind) :
    (l1 = [] ∧ l2 = []) ∨
    ∃ f1 r1 f2 r2, l1 = f1 :: r1 ∧ l2 = f2 :: r2 ∧ f1.kind = f2.kind ∧
      r1.map Frame.kind = r2.map Frame.kind := by
  cases l1 with
  | nil =>
    cases l2 with
    | nil => exact Or.inl ⟨rfl, rfl⟩
    | cons f2 r2 => simp at h
  | cons f1 r1 =>
    cases l2 with
    | nil => simp at h
    | cons f2 r2 =>
      simp only [List.map_cons, List.cons.injEq] at h
      exact Or.inr ⟨f1, r1, f2, r2, rfl, rfl, h.1, h.2⟩

/-- A complete value goes the same way in scanners in the same state. -/
theorem complete_alike (s t : Scanner) (v w : JValue)
    (h : s.stack.map Frame.kind = t.stack.map Frame.kind) :
    (complete s v).alike (complete t w) := by
  obtain ⟨step1, stack1, tok1, pos1⟩ := s
  obtain ⟨step2, stack2, tok2, pos2⟩ := t
  simp only at h
  rcases kinds_cases stack1 stack2 h with ⟨rfl, rfl⟩ | ⟨f1, r1, f2, r2, rfl, rfl, hk, hr⟩
  · simp [complete, StepResult.alike]
  · cases f1 <;> cases f2 <;> simp only [Frame.kind] at hk <;>
      first
        | (exact absurd hk (by decide))
        | simp [complete, StepResult.alike, Scanner.alike, Frame.kind, hr]

/-- The function `stateEndValue` goes the same way in scanners in the same
state. -/
theorem stateEndValue_alike (o1 o2 : RangeOrder) (s t : Scanner) (c : Char)
    (h : s.stack.map Frame.kind = t.stack.map Frame.kind) :
    (stateEndValue o1 s c).alike (stateEndValue o2 t c) := by
  obtain ⟨step1, stack1, tok1, pos1⟩ := s
  obtain ⟨step2, stack2, tok2, pos2⟩ := t
  simp only at h
  unfold stateEndValue
  by_cases hsp : isSpace c = true
  · simp only [hsp, if_true]
    exact ⟨rfl, h⟩
  · simp only [hsp, Bool.false_eq_true, if_false]
    rcases kinds_cases stack1 stack2 h with ⟨rfl, rfl⟩ | ⟨f1, r1, f2, r2, rfl, rfl, hk, hr⟩
    · simp [StepResult.alike]
    · cases f1 <;> cases f2 <;> simp only [Frame.kind] at hk <;>
        first
          | (exact absurd hk (by decide))
          | (dsimp only
             split_ifs <;>
              first
                | exact ⟨rfl, by simpa [Frame.kind] using hr⟩
                | exact complete_alike _ _ _ _ hr
                | rfl)
          | (dsimp only
             rfl)

/-- The function `pushParseState` goes the same way in scanners in the same
state. -/
theorem pushParseState_alike (s t : Scanner) (f g : Frame) (successState : Step)
    (hk : f.kind = g.kind) (h : s.stack.map Frame.kind = t.stack.map Frame.kind) :
    (pushParseState s f successState).alike (pushParseState t g successState) := by
  have hlen : (f :: s.stack).length = (g :: t.stack).length := by
    have := congrArg List.length h
    simp only [List.length_map] at this
    simp [this]
  unfold pushParseState
  rw [hlen]
  by_cases hle : (g :: t.stack).length ≤ maxNestingDepth
  · rw [if_pos hle, if_pos hle]
    exact ⟨rfl, by simp [hk, h]⟩
  · rw [if_neg hle, if_neg hle]
    rfl

/-- A choice on the same condition between results of the same kind gives
results of the same kind. -/
theorem alike_ite (p : Prop) [Decidable p] (a b a2 b2 : StepResult) (h1 : a.alike a2)
    (h2 : b.alike b2) : (if p then a else b).alike (if p then a2 else b2) := by
  split_ifs
  · exact h1
  · exact h2

/-- Failing with the same error is of the same kind. -/
theorem alike_fail (e : JsonError) : (StepResult.fail e).alike (StepResult.fail e) := rfl

/-- The function `stateBeginValue` goes the same way in scanners in the same
state. -/
theorem stateBeginValue_alike (s t : Scanner) (c : Char) (h : s.alike t) :
    (stateBeginValue s c).alike (stateBeginValue t c) := by
  unfold stateBeginValue
  repeat' apply alike_ite
  · exact h
  · exact pushParseState_alike s t _ _ _ rfl h.2
  · exact pushParseState_alike s t _ _ _ rfl h.2
  all_goals first
    | exact ⟨rfl, h.2⟩
    | exact alike_fail _

/-- The function `stateBeginString` goes the same way in scanners in the same
state. -/
theorem stateBeginString_alike (s t : Scanner) (c : Char) (h : s.alike t) :
    (stateBeginString s c).alike (stateBeginString t c) := by
  unfold stateBeginString
  repeat' apply alike_ite
  · exact h
  · exact ⟨rfl, h.2⟩
  · exact alike_fail _

/-- The end of a string literal goes the same way in scanners in the same
state. -/
theorem endString_alike (s t : Scanner)
    (h : s.stack.map Frame.kind = t.stack.map Frame.kind) :
    (endString s).alike (endString t) := by
  obtain ⟨step1, stack1, tok1, pos1⟩ := s
  obtain ⟨step2, stack2, tok2, pos2⟩ := t
  simp only at h
  rcases kinds_cases stack1 stack2 h with ⟨rfl, rfl⟩ | ⟨f1, r1, f2, r2, rfl, rfl, hk, hr⟩
  · simp [endString, complete, StepResult.alike]
  · cases f1 <;> cases f2 <;> simp only [Frame.kind] at hk <;>
      first
        | (exact absurd hk (by decide))
        | simp [endString, complete, StepResult.alike, Scanner.alike, Frame.kind, hr]

/-- The end of a number literal goes the same way in scanners in the same
state. -/
theorem endNumber_alike (o1 o2 : RangeOrder) (s t : Scanner) (c : Char)
    (h : s.stack.map Frame.kind = t.stack.map Frame.kind) :
    (endNumber o1 s c).alike (endNumber o2 t c) := by
  have hc := complete_alike s t (.number (String.mk s.tok.reverse))
    (.number (String.mk t.tok.reverse)) h
  unfold endNumber
  cases h1 : complete s (.number (String.mk s.tok.reverse)) <;>
    cases h2 : complete t (.number (String.mk t.tok.reverse)) <;>
    rw [h1, h2] at hc <;> simp only [StepResult.alike] at hc ⊢
  · exact stateEndValue_alike o1 o2 _ _ c hc.2
  · exact hc

/-- One character of a literal goes the same way in scanners in the same
state. -/
theorem literalStep_alike (s t : Scanner) (c expected : Char) (nextStep : Step) (lit : String)
    (h : s.stack.map Frame.kind = t.stack.map Frame.kind) :
    (literalStep s c expected nextStep lit).alike (literalStep t c expected nextStep lit) := by
  unfold literalStep
  split_ifs
  · exact ⟨rfl, h⟩
  · rfl

/-- The function `stateESign` goes the same way in scanners in the same
state. -/
theorem stateESign_alike (s t : Scanner) (c : Char)
    (h : s.stack.map Frame.kind = t.stack.map Frame.kind) :
    (stateESign s c).alike (stateESign t c) := by
  unfold stateESign
  split_ifs
  · exact ⟨rfl, h⟩
  · rfl

/-- The function `state0` goes the same way in scanners in the same state. -/
theorem state0_alike (o1 o2 : RangeOrder) (s t : Scanner) (c : Char)
    (h : s.stack.map Frame.kind = t.stack.map Frame.kind) :
    (state0 o1 s c).alike (state0 o2 t c) := by
  unfold state0
  split_ifs
  · exact ⟨rfl, h⟩
  · exact ⟨rfl, h⟩
  · exact endNumber_alike o1 o2 s t c h

/-- One step of the scanner goes the same way in scanners in the same state,
whatever the orders of the decoded maps. -/
theorem stepChar_alike (o1 o2 : RangeOrder) (s t : Scanner) (c : Char) (h : s.alike t) :
    (stepChar o1 s c).alike (stepChar o2 t c) := by
  obtain ⟨step1, stack1, tok1, pos1⟩ := s
  obtain ⟨step2, stack2, tok2, pos2⟩ := t
  obtain ⟨h1, h2⟩ := h
  simp only at h1 h2
  subst h1
  cases step1 <;> simp only [stepChar]
  case beginStringOrEmpty =>
    apply alike_ite
    · exact ⟨rfl, h2⟩
    · apply alike_ite
      · rcases kinds_cases stack1 stack2 h2 with ⟨rfl, rfl⟩ | ⟨f1, r1, f2, r2, rfl, rfl, hk, hr⟩
        · exact alike_fail _
        · cases f1 <;> cases f2 <;> simp only [Frame.kind] at hk <;>
            first
              | (exact absurd hk (by decide))
              | exact alike_fail _
              | exact stateEndValue_alike o1 o2 _ _ c (by simpa [Frame.kind] using hr)
      · exact stateBeginString_alike _ _ c ⟨rfl, h2⟩
  all_goals
    repeat' first
      | exact ⟨rfl, h2⟩
      | exact alike_fail _
      | exact stateBeginValue_alike _ _ c ⟨rfl, h2⟩
      | exact stateBeginString_alike _ _ c ⟨rfl, h2⟩
      | exact stateEndValue_alike o1 o2 _ _ c h2
      | exact endString_alike _ _ h2
      | exact state0_alike o1 o2 _ _ c h2
      | exact endNumber_alike o1 o2 _ _ c h2
      | exact stateESign_alike _ _ c h2
      | exact literalStep_alike _ _ c _ _ _ h2
      | exact complete_alike _ _ _ _ h2
      | apply alike_ite

/-- At the end of the input scanners in the same state both have a number to
return or both have the same error. -/
theorem atEOF_alike (s t : Scanner) (h : s.alike t) :
    (∃ v w, atEOF s = .ok v ∧ atEOF t = .ok w) ∨ (∃ e, atEOF s = .error e ∧ atEOF t = .error e) := by
  obtain ⟨step1, stack1, tok1, pos1⟩ := s
  obtain ⟨step2, stack2, tok2, pos2⟩ := t
  obtain ⟨h1, h2⟩ := h
  simp only at h1 h2
  subst h1
  rcases kinds_cases stack1 stack2 h2 with ⟨rfl, rfl⟩ | ⟨f1, r1, f2, r2, rfl, rfl, _, _⟩
  · cases step1 <;> simp [atEOF]
  · cases step1 <;> simp [atEOF]

/-- Reading a value goes the same way from scanners in the same state,
whatever the orders of the decoded maps: both read a value and leave the same
input unread, or both fail with the same error. -/
theorem readValue_alike (o1 o2 : RangeOrder) : ∀ (cs : List Char) (s t : Scanner), s.alike t →
    (∃ v w rest, readValue o1 s cs = .ok (v, rest) ∧ readValue o2 t cs = .ok (w, rest)) ∨
    (∃ e, readValue o1 s cs = .error e ∧ readValue o2 t cs = .error e)
  | [], s, t, h => by
    rcases atEOF_alike s t h with ⟨v, w, h1, h2⟩ | ⟨e, h1, h2⟩
    · exact Or.inl ⟨v, w, [], by simp [readValue, h1], by simp [readValue, h2]⟩
    · exact Or.inr ⟨e, by simp [readValue, h1], by simp [readValue, h2]⟩
  | c :: cs, s, t, h => by
    have hstep := stepChar_alike o1 o2 s t c h
    rw [readValue, readValue]
    cases h1 : stepChar o1 s c <;> cases h2 : stepChar o2 t c <;>
      rw [h1, h2] at hstep <;> simp only [StepResult.alike] at hstep
    · exact readValue_alike o1 o2 cs _ _ hstep
    · exact Or.inl ⟨_, _, cs, rfl, rfl⟩
    · exact Or.inl ⟨_, _, c :: cs, rfl, rfl⟩
    · subst hstep
      exact Or.inr ⟨_, rfl, rfl⟩

/-! ## A value that was read is a valid text of its own -/

/-- A conditional does not end the scan before the character when neither of
its branches does. -/
theorem ite_ne_doneBefore (p : Prop) [Decidable p] (a b : StepResult)
    (h1 : ∀ v, a ≠ .doneBefore v) (h2 : ∀ v, b ≠ .doneBefore v) :
    ∀ v, (if p then a else b) ≠ .doneBefore v := by
  split_ifs
  · exact h1
  · exact h2

/-- Going on is not the end of the scan. -/
theorem next_ne_doneBefore (s : Scanner) : ∀ v, StepResult.next s ≠ .doneBefore v := by
  intro v h
  cases h

/-- An error is not the end of the scan. -/
theorem fail_ne_doneBefore (e : JsonError) : ∀ v, StepResult.fail e ≠ .doneBefore v := by
  intro v h
  cases h

/-- The function `complete` ends the scan with the character read, not before
it. -/
theorem complete_ne_doneBefore (s : Scanner) (w : JValue) :
    ∀ v, complete s w ≠ .doneBefore v := by
  intro v h
  unfold complete at h
  split at h <;> cases h

/-- The function `stateEndValue` does not end the scan before the character. -/
theorem stateEndValue_ne_doneBefore (order : RangeOrder) (s : Scanner) (c : Char) :
    ∀ v, stateEndValue order s c ≠ .doneBefore v := by
  unfold stateEndValue
  apply ite_ne_doneBefore
  · exact next_ne_doneBefore _
  · split
    all_goals
      repeat' first
        | exact next_ne_doneBefore _
        | exact fail_ne_doneBefore _
        | exact complete_ne_doneBefore _ _
        | apply ite_ne_doneBefore

/-- The function `stateBeginValue` does not end the scan. -/
theorem stateBeginValue_ne_doneBefore (s : Scanner) (c : Char) :
    ∀ v, stateBeginValue s c ≠ .doneBefore v := by
  unfold stateBeginValue pushParseState
  repeat' first
    | exact next_ne_doneBefore _
    | exact fail_ne_doneBefore _
    | apply ite_ne_doneBefore

/-- The function `stateBeginString` does not end the scan. -/
theorem stateBeginString_ne_doneBefore (s : Scanner) (c : Char) :
    ∀ v, stateBeginString s c ≠ .doneBefore v := by
  unfold stateBeginString
  repeat' first
    | exact next_ne_doneBefore _
    | exact fail_ne_doneBefore _
    | apply ite_ne_doneBefore

/-- The closing quote of a string does not end the scan before itself. -/
theorem endString_ne_doneBefore (s : Scanner) : ∀ v, endString s ≠ .doneBefore v := by
  unfold endString
  dsimp only
  split
  · exact next_ne_doneBefore _
  · exact complete_ne_doneBefore _ _

/-- A character of a literal does not end the scan. -/
theorem literalStep_ne_doneBefore (s : Scanner) (c expected : Char) (nextStep : Step)
    (lit : String) : ∀ v, literalStep s c expected nextStep lit ≠ .doneBefore v := by
  unfold literalStep
  exact ite_ne_doneBefore _ _ _ (next_ne_doneBefore _) (fail_ne_doneBefore _)

/-- The function `stateESign` does not end the scan. -/
theorem stateESign_ne_doneBefore (s : Scanner) (c : Char) :
    ∀ v, stateESign s c ≠ .doneBefore v := by
  unfold stateESign
  exact ite_ne_doneBefore _ _ _ (next_ne_doneBefore _) (fail_ne_doneBefore _)

/-- A number ends the scan before the character after it at the top level
only. -/
theorem endNumber_doneBefore (order : RangeOrder) (s : Scanner) (c : Char) (v : JValue)
    (h : endNumber order s c = .doneBefore v) : s.stack = [] := by
  unfold endNumber at h
  cases hs : s.stack with
  | nil => rfl
  | cons f rest =>
    exfalso
    unfold complete at h
    rw [hs] at h
    cases f <;> simp only at h
    all_goals first
      | exact stateEndValue_ne_doneBefore _ _ _ _ h
      | cases h

/-- The function `state0` ends the scan before the character at the top level
only. -/
theorem state0_doneBefore (order : RangeOrder) (s : Scanner) (c : Char) (v : JValue)
    (h : state0 order s c = .doneBefore v) : s.stack = [] := by
  unfold state0 at h
  split_ifs at h
  exact endNumber_doneBefore order s c v h

/-- When a step ends the scan before its character, the text read so far is a
number at the top level, which the end of the input ends as well. -/
theorem stepChar_doneBefore (order : RangeOrder) (s : Scanner) (c : Char) (v : JValue)
    (h : stepChar order s c = .doneBefore v) : ∃ w, atEOF s = .ok w := by
  obtain ⟨step, stack, tok, pos⟩ := s
  cases step <;> simp only [stepChar] at h
  case s1 =>
    split_ifs at h
    have hs := state0_doneBefore _ _ _ _ h
    simp only at hs
    subst hs
    exact ⟨_, rfl⟩
  case s0 =>
    have hs := state0_doneBefore _ _ _ _ h
    simp only at hs
    subst hs
    exact ⟨_, rfl⟩
  case dot0 =>
    split_ifs at h
    have hs := endNumber_doneBefore _ _ _ _ h
    simp only at hs
    subst hs
    exact ⟨_, rfl⟩
  case e0 =>
    split_ifs at h
    have hs := endNumber_doneBefore _ _ _ _ h
    simp only at hs
    subst hs
    exact ⟨_, rfl⟩
  case beginStringOrEmpty =>
    exfalso
    revert h
    refine ite_ne_doneBefore _ _ _ (next_ne_doneBefore _) ?_ v
    refine ite_ne_doneBefore _ _ _ ?_ (stateBeginString_ne_doneBefore _ _)
    split
    · exact stateEndValue_ne_doneBefore _ _ _
    · exact fail_ne_doneBefore _
  all_goals
    exfalso
    revert h
    revert v
    repeat' first
      | exact next_ne_doneBefore _
      | exact fail_ne_doneBefore _
      | exact stateBeginValue_ne_doneBefore _ _
      | exact stateBeginString_ne_doneBefore _ _
      | exact stateEndValue_ne_doneBefore _ _ _
      | exact endString_ne_doneBefore _
      | exact stateESign_ne_doneBefore _ _
      | exact literalStep_ne_doneBefore _ _ _ _ _
      | exact complete_ne_doneBefore _ _
      | apply ite_ne_doneBefore

/-- The value that `readValue` reads is read from the part of the input before
what it leaves unread, and that part alone is read to its end. -/
theorem readValue_consumed (order : RangeOrder) : ∀ (cs : List Char) (s : Scanner) (v : JValue)
    (rest : List Char), readValue order s cs = .ok (v, rest) →
    ∃ consumed w, cs = consumed ++ rest ∧ readValue order s consumed = .ok (w, [])
  | [], s, v, rest, h => by
    rw [readValue] at h
    cases ha : atEOF s with
    | error e => rw [ha] at h; cases h
    | ok w =>
      rw [ha] at h
      cases h
      exact ⟨[], _, rfl, by rw [readValue, ha]⟩
  | c :: cs, s, v, rest, h => by
    rw [readValue] at h
    cases hstep : stepChar order s c with
    | next s1 =>
      rw [hstep] at h
      obtain ⟨consumed, w, hcs, hread⟩ := readValue_consumed order cs s1 v rest h
      refine ⟨c :: consumed, w, by rw [hcs]; rfl, ?_⟩
      rw [readValue, hstep]
      exact hread
    | done v1 =>
      rw [hstep] at h
      cases h
      refine ⟨[c], v, rfl, ?_⟩
      rw [readValue, hstep]
    | doneBefore v1 =>
      rw [hstep] at h
      cases h
      obtain ⟨w, hw⟩ := stepChar_doneBefore order s c v hstep
      exact ⟨[], w, rfl, by rw [readValue, hw]⟩
    | fail e =>
      rw [hstep] at h
      cases h

/-- A text that `Decode` accepts begins with a valid JSON text: the part of it
that the decoder read. -/
theorem Decode_ok_valid_start (order : RangeOrder) (jsonString : String) (v : JValue)
    (h : Decode order jsonString = .ok v) :
    ∃ p ∈ jsonString.data.inits, Valid (String.mk p) = true := by
  unfold Decode at h
  cases hread : readValue order Scanner.reset jsonString.data with
  | error e => rw [hread] at h; cases h
  | ok r =>
    obtain ⟨v1, rest⟩ := r
    obtain ⟨consumed, w, hcs, hc⟩ := readValue_consumed order _ _ _ _ hread
    refine ⟨consumed, (List.mem_inits _ _).mpr ⟨rest, hcs.symm⟩, ?_⟩
    unfold Valid
    rcases readValue_alike order RangeOrder.insertion consumed Scanner.reset Scanner.reset
      ⟨rfl, rfl⟩ with ⟨v2, w2, rest2, h1, h2⟩ | ⟨e, h1, _⟩
    · rw [hc] at h1
      cases h1
      simp only [h2]
      rfl
    · rw [hc] at h1
      cases h1

/-- The error of `Decode` does not depend on the order of the decoded maps. -/
theorem Decode_error_order (o1 o2 : RangeOrder) (jsonString : String) (e : JsonError)
    (h : Decode o1 jsonString = .error e) : Decode o2 jsonString = .error e := by
  unfold Decode at h ⊢
  rcases readValue_alike o1 o2 jsonString.data Scanner.reset Scanner.reset ⟨rfl, rfl⟩ with
    ⟨v, w, rest, h1, h2⟩ | ⟨e1, h1, h2⟩
  · rw [h1] at h
    cases h
  · rw [h1] at h
    rw [h2]
    exact h

/-- A valid JSON text is accepted by the decoder, in whatever order the decoded
maps are visited. -/
theorem Decode_ok_of_Valid (order : RangeOrder) (jsonString : String)
    (h : Valid jsonString = true) : ∃ data, Decode order jsonString = .ok data := by
  unfold Valid at h
  unfold Decode
  rcases readValue_alike RangeOrder.insertion order jsonString.data Scanner.reset Scanner.reset
    ⟨rfl, rfl⟩ with ⟨v, w, rest, h1, h2⟩ | ⟨e, h1, _⟩
  · rw [h2]
    exact ⟨w, rfl⟩
  · rw [h1] at h
    cases h

/-- Texts that begin with a valid JSON text and go on: after the valid `null`
the function panics, and after the valid `1` it returns the decoder's error,
the number being read on into `1.x`. -/
theorem GenerateJsonSchemaFromJsonString_valid_start_examples (order : RangeOrder)
    (flat : Bool) :
    Valid "null" = true ∧ Valid "null x" = false ∧
    GenerateJsonSchemaFromJsonString order "null x" flat = .panicked ∧
    Valid "1" = true ∧ Valid "1.x" = false ∧
    GenerateJsonSchemaFromJsonString order "1.x" flat
      = .returned (.error (.invalidCharacter 'x' "after decimal point in numeric literal")) :=
  ⟨rfl, rfl, rfl, rfl, rfl, rfl⟩

/-! ## Objects nested deep -/

/-- The length of the text of nested objects. -/
theorem nestedObjects_length (depth : Nat) :
    (nestedObjects depth).length = 6 * depth + 4 := by
  induction depth with
  | zero => rfl
  | succ d ih =>
    simp only [nestedObjects, List.length_cons, List.length_append, List.length_nil, ih]
    omega

/-- The scanner reads the text of nested objects, wherever a value may begin
and the nesting stays within `maxNestingDepth`, as the value it denotes. -/
theorem readValue_nestedObjects (order : RangeOrder) : ∀ (depth : Nat) (stack : List Frame)
    (tok : List Char) (pos : Nat) (tail : List Char), stack.length + depth ≤ maxNestingDepth →
    readValue order ⟨.beginValue, stack, tok, pos⟩ (nestedObjects depth ++ tail) =
      match complete ⟨.endValue, stack, [], pos + (6 * depth + 4)⟩ (nestedObjectsValue depth) with
      | .next s1 => readValue order s1 tail
      | .done v => .ok (v, tail)
      | .doneBefore v => .ok (v, tail)
      | .fail e => .error e
  | 0, stack, tok, pos, tail, _ => by
    have e1 : stepChar order ⟨.beginValue, stack, tok, pos⟩ 't'
        = .next ⟨.t, stack, tok, pos + 1⟩ := rfl
    have e2 : stepChar order ⟨.t, stack, tok, pos + 1⟩ 'r'
        = .next ⟨.tr, stack, tok, pos + 2⟩ := rfl
    have e3 : stepChar order ⟨.tr, stack, tok, pos + 2⟩ 'u'
        = .next ⟨.tru, stack, tok, pos + 3⟩ := rfl
    have e4 : stepChar order ⟨.tru, stack, tok, pos + 3⟩ 'e'
        = complete ⟨.tru, stack, tok, pos + 4⟩ (.bool true) := rfl
    simp only [nestedObjects, List.cons_append, List.nil_append]
    rw [readValue, e1]
    simp only
    rw [readValue, e2]
    simp only
    rw [readValue, e3]
    simp only
    rw [readValue, e4]
    rcases stack with _ | ⟨f, rest⟩
    · rfl
    · cases f <;> rfl
  | d + 1, stack, tok, pos, tail, h => by
    have hpush : (Frame.objKey [] :: stack).length ≤ maxNestingDepth := by
      rw [List.length_cons]
      omega
    have e1 : stepChar order ⟨.beginValue, stack, tok, pos⟩ '\x7b'
        = .next ⟨.beginStringOrEmpty, .objKey [] :: stack, tok, pos + 1⟩ := by
      have : stepChar order ⟨.beginValue, stack, tok, pos⟩ '\x7b'
          = pushParseState ⟨.beginValue, stack, tok, pos + 1⟩ (.objKey []) .beginStringOrEmpty :=
        rfl
      rw [this, pushParseState, if_pos hpush]
    have e2 : stepChar order ⟨.beginStringOrEmpty, .objKey [] :: stack, tok, pos + 1⟩ '"'
        = .next ⟨.inString, .objKey [] :: stack, [], pos + 2⟩ := rfl
    have e3 : stepChar order ⟨.inString, .objKey [] :: stack, [], pos + 2⟩ 'a'
        = .next ⟨.inString, .objKey [] :: stack, ['a'], pos + 3⟩ := rfl
    have e4 : stepChar order ⟨.inString, .objKey [] :: stack, ['a'], pos + 3⟩ '"'
        = .next ⟨.endValue, .objColon [] "a" :: stack, [], pos + 4⟩ := rfl
    have e5 : stepChar order ⟨.endValue, .objColon [] "a" :: stack, [], pos + 4⟩ ':'
        = .next ⟨.beginValue, .objVal [] "a" :: stack, [], pos + 5⟩ := rfl
    have ih := readValue_nestedObjects order d (.objVal [] "a" :: stack) [] (pos + 5)
      ('\x7d' :: tail) (by rw [List.length_cons]; omega)
    have e6 : complete ⟨.endValue, .objVal [] "a" :: stack, [], pos + 5 + (6 * d + 4)⟩
        (nestedObjectsValue d)
        = .next ⟨.endValue, .objNext [("a", nestedObjectsValue d)] :: stack, [],
            pos + 5 + (6 * d + 4)⟩ := rfl
    have e7 : stepChar order
        ⟨.endValue, .objNext [("a", nestedObjectsValue d)] :: stack, [], pos + 5 + (6 * d + 4)⟩
        '\x7d'
        = complete ⟨.endValue, stack, [], pos + 5 + (6 * d + 4) + 1⟩
            (.object (order.arrange (pos + 5 + (6 * d + 4) + 1)
              [("a", nestedObjectsValue d)])) := rfl
    have hpos : pos + 5 + (6 * d + 4) + 1 = pos + (6 * (d + 1) + 4) := by omega
    rw [e6] at ih
    simp only at ih
    simp only [nestedObjects, List.cons_append, List.append_assoc, List.nil_append]
    rw [readValue, e1]
    simp only
    rw [readValue, e2]
    simp only
    rw [readValue, e3]
    simp only
    rw [readValue, e4]
    simp only
    rw [readValue, e5]
    simp only
    rw [ih, readValue, e7, arrange_singleton, hpos]
    rcases stack with _ | ⟨f, rest⟩
    · rfl
    · cases f <;> rfl

/-- The decoder reads the text of nested objects as the value it denotes. -/
theorem Decode_nestedObjects (order : RangeOrder) (depth : Nat) (h : depth ≤ maxNestingDepth) :
    Decode order (String.mk (nestedObjects depth)) = .ok (nestedObjectsValue depth) := by
  have hread := readValue_nestedObjects order depth [] [] 0 [] (by simpa using h)
  rw [List.append_nil] at hread
  unfold Decode
  show (match readValue order ⟨.beginValue, [], [], 0⟩ (nestedObjects depth) with
    | .ok (v, _) => Except.ok v
    | .error e => .error e) = _
  rw [hread]
  rfl

/-- The text of nested objects is a valid JSON text. -/
theorem Valid_nestedObjects (depth : Nat) (h : depth ≤ maxNestingDepth) :
    Valid (String.mk (nestedObjects depth)) = true := by
  have hread := readValue_nestedObjects RangeOrder.insertion depth [] [] 0 []
    (by simpa using h)
  rw [List.append_nil] at hread
  unfold Valid
  show (match readValue RangeOrder.insertion ⟨.beginValue, [], [], 0⟩ (nestedObjects depth) with
    | .ok (_, rest) => rest.all isSpace
    | .error _ => false) = _
  rw [hread]
  rfl

/-- The schema node and the `required` slice of nested objects. -/
theorem generateSchema_nestedObjects : ∀ (depth : Nat),
    generateSchema (nestedObjectsValue depth)
      = .returned (nestedObjectsNode depth, nestedObjectsRequired depth)
  | 0 => rfl
  | d + 1 => by
    have hty : getJSONType (.object [("a", nestedObjectsValue d)]) = .returned "object" := rfl
    rw [nestedObjectsValue, generateSchema, hty]
    simp only
    rw [rangeEntries, generateSchema_nestedObjects d]
    simp only
    rw [rangeEntries]
    rfl

/-- The root schema of `depth` nested objects nests `2 * depth + 1` deep. -/
theorem nestedObjects_nesting : ∀ (depth : Nat),
    (GoValue.map (nestedObjectsNode depth)).nesting = 2 * depth + 1 ∧
    (GoValue.map (rootSchema (nestedObjectsNode depth) (nestedObjectsRequired depth))).nesting
      = 2 * depth + 1
  | 0 => ⟨by decide, by decide⟩
  | d + 1 => by
    have ih := (nestedObjects_nesting d).1
    have hidx : mapIndex (nestedObjectsNode (d + 1)) "properties"
        = GoValue.map [("a", GoValue.map (nestedObjectsNode d))] := by
      simp [nestedObjectsNode, mapIndex, mapLookup]
    constructor
    · simp only [nestedObjectsNode, GoValue.nesting, entriesNesting] at ih ⊢
      omega
    · rw [rootSchema, hidx]
      simp only [nestedObjectsRequired, GoValue.nesting, entriesNesting] at ih ⊢
      omega

/-- On the text of `depth` nested objects the call with `flat` set returns the
compact text of the root schema, and the call with `flat` not set returns the
indented text when the root schema nests no deeper than `maxNestingDepth` and
the error `exceeded max depth` of `MarshalIndent` when it does. -/
theorem GenerateJsonSchemaFromJsonString_nestedObjects (order : RangeOrder) (depth : Nat)
    (h : depth ≤ maxNestingDepth) :
    GenerateJsonSchemaFromJsonString order (String.mk (nestedObjects depth)) true
      = .returned (.ok (encode (GoValue.map
          (rootSchema (nestedObjectsNode depth) (nestedObjectsRequired depth))))) ∧
    GenerateJsonSchemaFromJsonString order (String.mk (nestedObjects depth)) false
      = .returned (if 2 * depth + 1 ≤ maxNestingDepth then
          .ok (encodeIndent 0 (GoValue.map
            (rootSchema (nestedObjectsNode depth) (nestedObjectsRequired depth))))
        else .error .exceededMaxDepth) := by
  have hd := Decode_nestedObjects order depth h
  have hg := generateSchema_nestedObjects depth
  have h1 := GenerateJsonSchemaFromJsonString_returned order _ true _ _ _ hd hg
  have h2 := GenerateJsonSchemaFromJsonString_returned order _ false _ _ _ hd hg
  rw [if_pos rfl] at h1
  rw [if_neg Bool.false_ne_true, MarshalIndent, Marshal] at h2
  simp only [(nestedObjects_nesting depth).2] at h2
  exact ⟨h1, h2⟩

/-! ## The claims on the schema inferencer -/

/-- C1: on the valid JSON text `null` the function neither returns a schema
text nor an error: `getJSONType` calls `Kind` on the nil type that
`reflect.TypeOf` returns for a nil interface and the call panics, whatever
`flat` is. -/
theorem C1_null_text_panics (order : RangeOrder) (flat : Bool) :
    Valid "null" = true ∧
    Decode order "null" = .ok .null ∧
    GenerateJsonSchemaFromJsonString order "null" flat = .panicked :=
  ⟨rfl, rfl, rfl⟩

set_option maxRecDepth 100000 in
/-- C2 as stated fails: this text is a valid value followed by further text
that is not white space, hence not a valid JSON document, yet the decoder
reads the value, leaves the rest unread, and the function returns a schema
text and no error. -/
theorem C2_trailing_text_counterexample :
    Valid "\x7b\"a\": 1\x7d x" = false ∧
    readValue RangeOrder.insertion Scanner.reset "\x7b\"a\": 1\x7d x".data
      = .ok (.object [("a", .number "1")], [' ', 'x']) ∧
    GenerateJsonSchemaFromJsonString RangeOrder.insertion "\x7b\"a\": 1\x7d x" true
      = .returned (.ok ("\x7b\"$schema\":\"https://json-schema.org/draft/2020-12/schema\"," ++
          "\"properties\":\x7b\"a\":\x7b\"type\":\"integer\"\x7d\x7d,\"required\":[\"a\"]," ++
          "\"title\":\"Generated schema from jellyfaas\",\"type\":\"object\"\x7d")) :=
  ⟨rfl, rfl, by decide⟩

/-- C2, amended: a text of which no initial part (the empty one and the text
itself included) is a valid JSON text is rejected by the decoder, and
`GenerateJsonSchemaFromJsonString` returns the decoder's error as its error,
with no schema text, for both values of `flat` and in whatever order the maps
are visited. -/
theorem C2_no_valid_start_is_decode_error (order : RangeOrder) (jsonString : String)
    (h : ∀ p ∈ jsonString.data.inits, Valid (String.mk p) = false) :
    ∃ e, Decode order jsonString = .error e ∧
      ∀ flat, GenerateJsonSchemaFromJsonString order jsonString flat = .returned (.error e) := by
  cases hd : Decode order jsonString with
  | ok v =>
    obtain ⟨p, hp, hv⟩ := Decode_ok_valid_start order jsonString v hd
    rw [h p hp] at hv
    cases hv
  | error e =>
    exact ⟨e, rfl, fun flat =>
      GenerateJsonSchemaFromJsonString_decode_error order jsonString flat e hd⟩

/-- C2, instances of the amended claim: a blank text, a text cut short inside
its value and a text with an illegal character have no valid initial part, and
the function returns the decoder's error for them. -/
theorem C2_no_valid_start_is_decode_error_witness :
    ((∀ p ∈ "  ".data.inits, Valid (String.mk p) = false) ∧
      ∃ e, Decode RangeOrder.insertion "  " = .error e ∧
        ∀ flat, GenerateJsonSchemaFromJsonString RangeOrder.insertion "  " flat =
          .returned (.error e)) ∧
    ((∀ p ∈ "\x7b\"a\": [1, tr".data.inits, Valid (String.mk p) = false) ∧
      ∃ e, Decode RangeOrder.insertion "\x7b\"a\": [1, tr" = .error e ∧
        ∀ flat, GenerateJsonSchemaFromJsonString RangeOrder.insertion "\x7b\"a\": [1, tr" flat =
          .returned (.error e)) ∧
    ((∀ p ∈ "\x7b\"a\": x\x7d".data.inits, Valid (String.mk p) = false) ∧
      ∃ e, Decode RangeOrder.reversed "\x7b\"a\": x\x7d" = .error e ∧
        ∀ flat, GenerateJsonSchemaFromJsonString RangeOrder.reversed "\x7b\"a\": x\x7d" flat =
          .returned (.error e)) :=
  ⟨⟨by decide!, C2_no_valid_start_is_decode_error _ _ (by decide!)⟩,
    ⟨by decide!, C2_no_valid_start_is_decode_error _ _ (by decide!)⟩,
    ⟨by decide!, C2_no_valid_start_is_decode_error _ _ (by decide!)⟩⟩

/-- C3: for every number literal that is an optional minus sign followed by
decimal digits whose value lies in the signed 64-bit range, `getJSONType`
gives "integer" and `generateSchema` builds the node with type "integer" and
nothing else; in particular property `a` of the object with `a` = 5 has type
"integer". -/
theorem C3_int64_literal_is_integer (neg : Bool) (ds : List Char) (hne : ds ≠ [])
    (hd : ∀ c ∈ ds, c.isDigit = true)
    (hrange : if neg = true then digitsVal ds ≤ 2 ^ 63 else digitsVal ds < 2 ^ 63) :
    getJSONType (.number (String.mk ((if neg = true then ['-'] else []) ++ ds)))
        = .returned "integer" ∧
      generateSchema (.number (String.mk ((if neg = true then ['-'] else []) ++ ds)))
        = .returned ([("type", GoValue.str "integer")], []) ∧
      generateSchema (.object [("a", .number "5")])
        = .returned ([("type", GoValue.str "object"),
            ("properties", GoValue.map [("a", GoValue.map [("type", GoValue.str "integer")])]),
            ("required", GoValue.strings ["a"])], ["a"]) := by
  have hty : getJSONType (.number (String.mk ((if neg = true then ['-'] else []) ++ ds)))
      = .returned "integer" := by
    simp only [getJSONType, numberSwitch, Number.Int64, ParseInt_int64_literal neg ds hne hd hrange]
  refine ⟨hty, ?_, by rfl⟩
  rw [generateSchema_number, hty]

/-- The most negative 64-bit integer, written out, is typed "integer". -/
theorem C3_int64_literal_is_integer_witness :
    ("9223372036854775808".data ≠ [] ∧
      (∀ c ∈ "9223372036854775808".data, c.isDigit = true) ∧
      digitsVal "9223372036854775808".data ≤ 2 ^ 63) ∧
    getJSONType (.number "-9223372036854775808") = .returned "integer" ∧
    generateSchema (.number "-9223372036854775808")
      = .returned ([("type", GoValue.str "integer")], []) :=
  ⟨⟨by decide, by decide, by decide⟩,
    (C3_int64_literal_is_integer true "9223372036854775808".data (by decide) (by decide)
      (by decide)).1,
    (C3_int64_literal_is_integer true "9223372036854775808".data (by decide) (by decide)
      (by decide)).2.1⟩

/-- C4: the valid number literal `1e999` does not parse as an int64, and
`ParseFloat` reports a range error for it, so `getJSONType` falls through to
the switch on the kind and answers "string", the kind of `json.Number`, not
"number": property `a` of the input below gets type "string".  The other
literals the claim names (`5.5`, `5.0`, `1e2`, and `9223372036854775808`, the
first integer above the int64 range) are typed "number". -/
theorem C4_overflowing_literal_is_string :
    Number.Int64 "1e999" = .error .errSyn ∧
    Number.Float64 "1e999" = .error .errRange ∧
    getJSONType (.number "1e999") = .returned "string" ∧
    Decode RangeOrder.insertion "\x7b\"a\": 1e999\x7d" = .ok (.object [("a", .number "1e999")]) ∧
    generateSchema (.object [("a", .number "1e999")])
      = .returned ([("type", GoValue.str "object"),
          ("properties", GoValue.map [("a", GoValue.map [("type", GoValue.str "string")])]),
          ("required", GoValue.strings ["a"])], ["a"]) ∧
    getJSONType (.number "5.5") = .returned "number" ∧
    getJSONType (.number "5.0") = .returned "number" ∧
    getJSONType (.number "1e2") = .returned "number" ∧
    getJSONType (.number "9223372036854775808") = .returned "number" := by
  refine ⟨by decide, by decide, by decide, rfl, ?_, by decide, by decide, by decide, by decide⟩
  have h : generateSchema (.number "1e999") = .returned ([("type", GoValue.str "string")], []) := by
    rw [generateSchema_number]
    have : getJSONType (.number "1e999") = .returned "string" := by decide
    rw [this]
  exact generateSchema_object_returned [("a", .number "1e999")] [[("type", GoValue.str "string")]]
    (List.Forall₂.cons ⟨[], h⟩ List.Forall₂.nil) (by decide)

/-- C5: `generateSchema` returns the node with type "string" and nothing else
for every string and the node with type "boolean" and nothing else for every
boolean, each with an empty required list; for null it panics instead of
returning the node with type "null". -/
theorem C5_scalar_nodes :
    (∀ s : String, generateSchema (.string s) = .returned ([("type", GoValue.str "string")], [])) ∧
    (∀ b : Bool, generateSchema (.bool b) = .returned ([("type", GoValue.str "boolean")], [])) ∧
    getJSONType .null = .panicked ∧
    generateSchema .null = .panicked :=
  ⟨fun _ => rfl, fun _ => rfl, rfl, rfl⟩

/-- C6: for the object with the single key `a` bound to null, `generateSchema`
returns no node at all: the node of the value panics, and so does the object. -/
theorem C6_object_with_null_value_panics :
    Decode RangeOrder.insertion "\x7b\"a\": null\x7d" = .ok (.object [("a", .null)]) ∧
    generateSchema (.object [("a", .null)]) = .panicked :=
  ⟨rfl, rfl⟩

/-- C7: for the object with keys `a` (bound to 1) and `b` (bound to null), in
either order of the two keys, `generateSchema` returns no node and no required
list: it panics on the null. -/
theorem C7_required_missing_on_null_value :
    Decode RangeOrder.insertion "\x7b\"a\": 1, \"b\": null\x7d"
      = .ok (.object [("a", .number "1"), ("b", .null)]) ∧
    generateSchema (.object [("a", .number "1"), ("b", .null)]) = .panicked ∧
    generateSchema (.object [("b", .null), ("a", .number "1")]) = .panicked :=
  ⟨rfl, rfl, rfl⟩

/-- C8: for the empty array `generateSchema` returns the node with type
"array" and nothing else, with no "items" key and an empty required list; for
the input text with `a` an empty array, property `a` is that node. -/
theorem C8_empty_array_node :
    generateSchema (.array []) = .returned ([("type", GoValue.str "array")], []) ∧
    mapLookup [("type", GoValue.str "array")] "items" = none ∧
    Decode RangeOrder.insertion "\x7b\"a\": []\x7d" = .ok (.object [("a", .array [])]) ∧
    generateSchema (.object [("a", .array [])])
      = .returned ([("type", GoValue.str "object"),
          ("properties", GoValue.map [("a", GoValue.map [("type", GoValue.str "array")])]),
          ("required", GoValue.strings ["a"])], ["a"]) :=
  ⟨rfl, rfl, rfl, rfl⟩

/-- C9: for the non-empty array whose first element is null, `generateSchema`
returns no node: it panics on the first element. -/
theorem C9_array_with_null_first_panics :
    Decode RangeOrder.insertion "[null, 1]" = .ok (.array [.null, .number "1"]) ∧
    generateSchema (.array [.null, .number "1"]) = .panicked :=
  ⟨rfl, rfl⟩

/-- C10: on the valid JSON text of an array holding null the function returns
no schema, so no root with the fixed "type", "$schema" and "title": it panics,
whatever `flat` is. -/
theorem C10_no_root_on_null_element (order : RangeOrder) (flat : Bool) :
    Valid "[null]" = true ∧
    GenerateJsonSchemaFromJsonString order "[null]" flat = .panicked :=
  ⟨rfl, rfl⟩

set_option maxRecDepth 100000 in
/-- C12: on the text of an object with the two keys `b` and `a` the schema
text depends on the order in which the `range` loop of `generateSchema` visits
the decoded map, which Go leaves open from one run to the next: visiting `b`
first gives the required list `b`, `a`, visiting `a` first gives `a`, `b`, so
two runs on the same text can return different texts, for either value of
`flat`.  The keys of "properties" are written in sorted order in both. -/
theorem C12_required_order_differs :
    Valid "\x7b\"b\": 1, \"a\": 2\x7d" = true ∧
    Decode RangeOrder.insertion "\x7b\"b\": 1, \"a\": 2\x7d"
      = .ok (.object [("b", .number "1"), ("a", .number "2")]) ∧
    Decode RangeOrder.reversed "\x7b\"b\": 1, \"a\": 2\x7d"
      = .ok (.object [("a", .number "2"), ("b", .number "1")]) ∧
    GenerateJsonSchemaFromJsonString RangeOrder.insertion "\x7b\"b\": 1, \"a\": 2\x7d" true
      = .returned (.ok ("\x7b\"$schema\":\"https://json-schema.org/draft/2020-12/schema\"," ++
          "\"properties\":\x7b\"a\":\x7b\"type\":\"integer\"\x7d,\"b\":\x7b\"type\":\"integer\"\x7d\x7d," ++
          "\"required\":[\"b\",\"a\"]," ++
          "\"title\":\"Generated schema from jellyfaas\",\"type\":\"object\"\x7d")) ∧
    GenerateJsonSchemaFromJsonString RangeOrder.reversed "\x7b\"b\": 1, \"a\": 2\x7d" true
      = .returned (.ok ("\x7b\"$schema\":\"https://json-schema.org/draft/2020-12/schema\"," ++
          "\"properties\":\x7b\"a\":\x7b\"type\":\"integer\"\x7d,\"b\":\x7b\"type\":\"integer\"\x7d\x7d," ++
          "\"required\":[\"a\",\"b\"]," ++
          "\"title\":\"Generated schema from jellyfaas\",\"type\":\"object\"\x7d")) ∧
    GenerateJsonSchemaFromJsonString RangeOrder.insertion "\x7b\"b\": 1, \"a\": 2\x7d" false
      ≠ GenerateJsonSchemaFromJsonString RangeOrder.reversed "\x7b\"b\": 1, \"a\": 2\x7d" false :=
  ⟨rfl, rfl, rfl, by decide!, by decide!, by decide!⟩

/-- C20: for the object with key `a` bound to the object with key `b` bound to
1, property `a` is the node with type "object", properties `b` of type
"integer" and required list `b`, and the required list of the enclosing node is
`a` alone; but for the same object with `b` bound to null `generateSchema`
returns no node at all, nested or enclosing: it panics, and so does the
top-level function on the text. -/
theorem C20_nested_object_with_null_panics (order : RangeOrder) (flat : Bool) :
    Decode order "\x7b\"a\": \x7b\"b\": 1\x7d\x7d"
      = .ok (.object [("a", .object [("b", .number "1")])]) ∧
    generateSchema (.object [("a", .object [("b", .number "1")])])
      = .returned ([("type", GoValue.str "object"),
          ("properties", GoValue.map [("a", GoValue.map
            [("type", GoValue.str "object"),
             ("properties", GoValue.map [("b", GoValue.map [("type", GoValue.str "integer")])]),
             ("required", GoValue.strings ["b"])])]),
          ("required", GoValue.strings ["a"])], ["a"]) ∧
    Valid "\x7b\"a\": \x7b\"b\": null\x7d\x7d" = true ∧
    Decode order "\x7b\"a\": \x7b\"b\": null\x7d\x7d"
      = .ok (.object [("a", .object [("b", .null)])]) ∧
    generateSchema (.object [("b", .null)]) = .panicked ∧
    generateSchema (.object [("a", .object [("b", .null)])]) = .panicked ∧
    GenerateJsonSchemaFromJsonString order "\x7b\"a\": \x7b\"b\": null\x7d\x7d" flat = .panicked := by
  have hone : ∃ p1 p2, Decode order "\x7b\"a\": \x7b\"b\": 1\x7d\x7d"
      = .ok (.object (order.arrange p1 [("a", .object (order.arrange p2 [("b", .number "1")]))])) :=
    ⟨_, _, rfl⟩
  have hnull : ∃ p1 p2, Decode order "\x7b\"a\": \x7b\"b\": null\x7d\x7d"
      = .ok (.object (order.arrange p1 [("a", .object (order.arrange p2 [("b", .null)]))])) :=
    ⟨_, _, rfl⟩
  obtain ⟨p1, p2, hone⟩ := hone
  obtain ⟨q1, q2, hnull⟩ := hnull
  rw [arrange_singleton, arrange_singleton] at hone hnull
  exact ⟨hone, rfl, rfl, hnull, rfl, rfl,
    GenerateJsonSchemaFromJsonString_panicked order _ flat _ hnull rfl⟩

set_option maxRecDepth 100000 in
/-- C21: the two calls do not agree on every text.  On the text of an object
with the two keys `b` and `a`, a call with `flat` set whose `range` loop visits
`b` first and a call with `flat` not set whose loop visits `a` first, as two
calls may, return texts that differ in more than white space: without the
white space outside its string literals the indented text is not the flat
text, and it is not the flat text laid out with two spaces for each level of
nesting; the "required" lists are in different orders.  On the valid text of
5000 objects one inside the other, the call with `flat` set returns the
compact text of the root schema and the call with `flat` not set returns the
error `exceeded max depth` of `MarshalIndent`, in whatever order the maps are
visited. -/
theorem C21_two_calls_differ_beyond_white_space :
    GenerateJsonSchemaFromJsonString RangeOrder.insertion "\x7b\"b\": 1, \"a\": 2\x7d" true
      = .returned (.ok ("\x7b\"$schema\":\"https://json-schema.org/draft/2020-12/schema\"," ++
          "\"properties\":\x7b\"a\":\x7b\"type\":\"integer\"\x7d,\"b\":\x7b\"type\":\"integer\"\x7d\x7d," ++
          "\"required\":[\"b\",\"a\"]," ++
          "\"title\":\"Generated schema from jellyfaas\",\"type\":\"object\"\x7d")) ∧
    GenerateJsonSchemaFromJsonString RangeOrder.reversed "\x7b\"b\": 1, \"a\": 2\x7d" false
      = .returned (.ok ("\x7b\n" ++
          "  \"$schema\": \"https://json-schema.org/draft/2020-12/schema\",\n" ++
          "  \"properties\": \x7b\n" ++
          "    \"a\": \x7b\n" ++
          "      \"type\": \"integer\"\n" ++
          "    \x7d,\n" ++
          "    \"b\": \x7b\n" ++
          "      \"type\": \"integer\"\n" ++
          "    \x7d\n" ++
          "  \x7d,\n" ++
          "  \"required\": [\n" ++
          "    \"a\",\n" ++
          "    \"b\"\n" ++
          "  ],\n" ++
          "  \"title\": \"Generated schema from jellyfaas\",\n" ++
          "  \"type\": \"object\"\n" ++
          "\x7d")) ∧
    withoutSpace .outside ("\x7b\n" ++
          "  \"$schema\": \"https://json-schema.org/draft/2020-12/schema\",\n" ++
          "  \"properties\": \x7b\n" ++
          "    \"a\": \x7b\n" ++
          "      \"type\": \"integer\"\n" ++
          "    \x7d,\n" ++
          "    \"b\": \x7b\n" ++
          "      \"type\": \"integer\"\n" ++
          "    \x7d\n" ++
          "  \x7d,\n" ++
          "  \"required\": [\n" ++
          "    \"a\",\n" ++
          "    \"b\"\n" ++
          "  ],\n" ++
          "  \"title\": \"Generated schema from jellyfaas\",\n" ++
          "  \"type\": \"object\"\n" ++
          "\x7d").data
      ≠ withoutSpace .outside ("\x7b\"$schema\":\"https://json-schema.org/draft/2020-12/schema\"," ++
          "\"properties\":\x7b\"a\":\x7b\"type\":\"integer\"\x7d,\"b\":\x7b\"type\":\"integer\"\x7d\x7d," ++
          "\"required\":[\"b\",\"a\"]," ++
          "\"title\":\"Generated schema from jellyfaas\",\"type\":\"object\"\x7d").data ∧
    ("\x7b\n" ++
          "  \"$schema\": \"https://json-schema.org/draft/2020-12/schema\",\n" ++
          "  \"properties\": \x7b\n" ++
          "    \"a\": \x7b\n" ++
          "      \"type\": \"integer\"\n" ++
          "    \x7d,\n" ++
          "    \"b\": \x7b\n" ++
          "      \"type\": \"integer\"\n" ++
          "    \x7d\n" ++
          "  \x7d,\n" ++
          "  \"required\": [\n" ++
          "    \"a\",\n" ++
          "    \"b\"\n" ++
          "  ],\n" ++
          "  \"title\": \"Generated schema from jellyfaas\",\n" ++
          "  \"type\": \"object\"\n" ++
          "\x7d").data
      ≠ layout .outside false 0 ("\x7b\"$schema\":\"https://json-schema.org/draft/2020-12/schema\"," ++
          "\"properties\":\x7b\"a\":\x7b\"type\":\"integer\"\x7d,\"b\":\x7b\"type\":\"integer\"\x7d\x7d," ++
          "\"required\":[\"b\",\"a\"]," ++
          "\"title\":\"Generated schema from jellyfaas\",\"type\":\"object\"\x7d").data ∧
    (∀ order : RangeOrder,
      Valid (String.mk (nestedObjects 5000)) = true ∧
      GenerateJsonSchemaFromJsonString order (String.mk (nestedObjects 5000)) true
        = .returned (.ok (encode (GoValue.map
            (rootSchema (nestedObjectsNode 5000) (nestedObjectsRequired 5000))))) ∧
      GenerateJsonSchemaFromJsonString order (String.mk (nestedObjects 5000)) false
        = .returned (.error .exceededMaxDepth)) := by
  refine ⟨by decide!, by decide!, by decide!, by decide!, ?_⟩
  intro order
  have hdepth : 5000 ≤ maxNestingDepth := by decide
  have hdeep : ¬ 2 * 5000 + 1 ≤ maxNestingDepth := by decide
  have h := GenerateJsonSchemaFromJsonString_nestedObjects order 5000 hdepth
  rw [if_neg hdeep] at h
  exact ⟨Valid_nestedObjects 5000 hdepth, h.1, h.2⟩

set_option maxRecDepth 100000 in
/-- C24: for the empty object the root carries the empty "properties" map and
`null` for "required", and for the array holding 1 it carries `null` for both,
as what `generateSchema` returned; but for the scalar root `null`, and for an
array root whose first element is null, `generateSchema` returns nothing to
carry: it panics, and so does the function, whatever `flat` is. -/
theorem C24_no_root_for_null_root (order : RangeOrder) (flat : Bool) :
    GenerateJsonSchemaFromJsonString order "\x7b\x7d" true
      = .returned (.ok ("\x7b\"$schema\":\"https://json-schema.org/draft/2020-12/schema\"," ++
          "\"properties\":\x7b\x7d,\"required\":null," ++
          "\"title\":\"Generated schema from jellyfaas\",\"type\":\"object\"\x7d")) ∧
    GenerateJsonSchemaFromJsonString order "[1]" true
      = .returned (.ok ("\x7b\"$schema\":\"https://json-schema.org/draft/2020-12/schema\"," ++
          "\"properties\":null,\"required\":null," ++
          "\"title\":\"Generated schema from jellyfaas\",\"type\":\"object\"\x7d")) ∧
    Valid "null" = true ∧
    Decode order "null" = .ok .null ∧
    generateSchema .null = .panicked ∧
    GenerateJsonSchemaFromJsonString order "null" flat = .panicked ∧
    Valid "[null, 2]" = true ∧
    Decode order "[null, 2]" = .ok (.array [.null, .number "2"]) ∧
    generateSchema (.array [.null, .number "2"]) = .panicked ∧
    GenerateJsonSchemaFromJsonString order "[null, 2]" flat = .panicked := by
  have hempty : ∃ p, Decode order "\x7b\x7d" = .ok (.object (order.arrange p [])) := ⟨_, rfl⟩
  obtain ⟨p, hempty⟩ := hempty
  rw [List.perm_nil.mp (order.perm p [])] at hempty
  have h1 := GenerateJsonSchemaFromJsonString_returned order "\x7b\x7d" true (.object [])
    [("type", GoValue.str "object"), ("properties", GoValue.map [])] [] hempty rfl
  have harr : Decode order "[1]" = .ok (.array [.number "1"]) := rfl
  have hty : getJSONType (.number "1") = .returned "integer" := by decide
  have hnode : generateSchema (.array [.number "1"])
      = .returned ([("type", GoValue.str "array"),
          ("items", GoValue.map [("type", GoValue.str "integer")])], []) := by
    rw [generateSchema_array_cons, generateSchema_number, hty]
  have h2 := GenerateJsonSchemaFromJsonString_returned order "[1]" true _ _ _ harr hnode
  refine ⟨?_, ?_, rfl, rfl, rfl, rfl, rfl, rfl, rfl, rfl⟩
  · rw [h1]
    decide!
  · rw [h2]
    decide!

end entities

namespace cmd

/-! ## The handles of a session -/

/-- The first loop appends, to the handles it starts with, one pending handle
per operation id, in order. -/
theorem buildHandles_eq (functionId : String) (opsLink : List String)
    (opsLinkStatuses : List opsLinkStatus) :
    buildHandles functionId opsLink opsLinkStatuses =
      opsLinkStatuses ++ opsLink.map fun v =>
        { Complete := false, opsUrl := "",
          opsLink := p48CoreService ++ "/upload/" ++ v ++ "/" ++ functionId,
          functionId := "" } := by
  induction opsLink generalizing opsLinkStatuses with
  | nil => simp [buildHandles]
  | cons v rest ih => simp [buildHandles, ih]

/-- The loop that computes `allComplete` answers whether every handle is
complete. -/
theorem allComplete_eq_all (opsLinkStatuses : List opsLinkStatus) :
    allComplete opsLinkStatuses = opsLinkStatuses.all fun v => v.Complete := by
  have key : ∀ (hs : List opsLinkStatus) (b : Bool),
      hs.foldl (fun all v => if (!v.Complete) = true then false else all) b =
        (b && hs.all fun v => v.Complete) := by
    intro hs
    induction hs with
    | nil => intro b; simp
    | cons v rest ih =>
      intro b
      simp only [List.foldl_cons, ih, List.all_cons]
      cases b <;> cases v.Complete <;> simp
  simpa [allComplete] using key opsLinkStatuses true

/-- The inner loop keeps the number of handles. -/
theorem pollHandles_length (responses : Responses) (key : String) (i index : Nat)
    (hs : List opsLinkStatus) :
    (pollHandles responses key i index hs).handles.length = hs.length := by
  induction hs generalizing index with
  | nil => rfl
  | cons v rest ih =>
    rw [pollHandles]
    split_ifs <;> simp [ih]

/-! ## The shape of a session -/

/-- The inner loop either goes through, doing only what lets the session go
on, or it gives up right after a request that failed, with the error message. -/
theorem pollHandles_shape (responses : Responses) (key : String) (i index : Nat)
    (hs : List opsLinkStatus) :
    ((pollHandles responses key i index hs).aborted = false ∧
        ∀ e ∈ (pollHandles responses key i index hs).events, e.calm = true) ∨
      ((pollHandles responses key i index hs).aborted = true ∧
        Ending.aborted.shapes (pollHandles responses key i index hs).events) := by
  induction hs generalizing index with
  | nil => exact Or.inl ⟨rfl, by simp [pollHandles]⟩
  | cons v rest ih =>
    rw [pollHandles]
    split_ifs with hc hbad hdep
    · exact ih (index + 1)
    · exact Or.inr ⟨rfl, [], i, index, v.opsLink, key, responses i index, rfl, hbad, by simp⟩
    · have hgood : (Event.poll i index v.opsLink key (responses i index)).calm = true := by
        simp only [Event.calm, Response.bad, hbad, Bool.not_false]
      rcases ih (index + 1) with ⟨h1, h2⟩ | ⟨h1, pre, i2, j2, url, k2, r, h2, h3, h4⟩
      · refine Or.inl ⟨h1, ?_⟩
        intro e he
        rcases List.mem_cons.mp he with rfl | he
        · exact hgood
        · exact h2 e he
      · refine Or.inr ⟨h1, Event.poll i index v.opsLink key (responses i index) :: pre,
          i2, j2, url, k2, r, by simp [h2], h3, ?_⟩
        intro e he
        rcases List.mem_cons.mp he with rfl | he
        · exact hgood
        · exact h4 e he
    · have hgood : (Event.poll i index v.opsLink key (responses i index)).calm = true := by
        simp only [Event.calm, Response.bad, hbad, Bool.not_false]
      rcases ih (index + 1) with ⟨h1, h2⟩ | ⟨h1, pre, i2, j2, url, k2, r, h2, h3, h4⟩
      · refine Or.inl ⟨h1, ?_⟩
        intro e he
        rcases List.mem_cons.mp he with rfl | he
        · exact hgood
        · rcases List.mem_cons.mp he with rfl | he
          · rfl
          · exact h2 e he
      · refine Or.inr ⟨h1, Event.poll i index v.opsLink key (responses i index) ::
          Event.progress i maxOpsLoops (responses i index).Status :: pre,
          i2, j2, url, k2, r, by simp [h2], h3, ?_⟩
        intro e he
        rcases List.mem_cons.mp he with rfl | he
        · exact hgood
        · rcases List.mem_cons.mp he with rfl | he
          · rfl
          · exact h4 e he

/-- The events of a session have the shape of its ending. -/
theorem pollRounds_shape (responses : Responses) (key : String) (remaining i : Nat)
    (hs : List opsLinkStatus) :
    (pollRounds responses key remaining i hs).ending.shapes
      (pollRounds responses key remaining i hs).events := by
  induction remaining generalizing i hs with
  | zero => simp [pollRounds, Ending.shapes]
  | succ remaining ih =>
    rw [pollRounds]
    rcases pollHandles_shape responses key i 0 hs with ⟨h1, h2⟩ | ⟨h1, h2⟩
    · simp only [h1, Bool.false_eq_true, if_false]
      split_ifs with hall
      · exact ⟨_, rfl, h2⟩
      · have hs2 := ih (i + 1) (pollHandles responses key i 0 hs).handles
        have hcalm : ∀ e ∈ (pollHandles responses key i 0 hs).events ++ [Event.sleep 30],
            e.calm = true := by
          intro e he
          rcases List.mem_append.mp he with he | he
          · exact h2 e he
          · rw [List.mem_singleton.mp he]
            rfl
        simp only
        cases hend : (pollRounds responses key remaining (i + 1)
            (pollHandles responses key i 0 hs).handles).ending with
        | aborted =>
          rw [hend] at hs2
          obtain ⟨pre, i2, j2, url, k2, r, h3, h4, h5⟩ := hs2
          refine ⟨((pollHandles responses key i 0 hs).events ++ [Event.sleep 30]) ++ pre,
            i2, j2, url, k2, r, by simp [h3], h4, ?_⟩
          intro e he
          rcases List.mem_append.mp he with he | he
          · exact hcalm e he
          · exact h5 e he
        | succeeded =>
          rw [hend] at hs2
          obtain ⟨pre, h3, h5⟩ := hs2
          refine ⟨((pollHandles responses key i 0 hs).events ++ [Event.sleep 30]) ++ pre,
            by simp [h3], ?_⟩
          intro e he
          rcases List.mem_append.mp he with he | he
          · exact hcalm e he
          · exact h5 e he
        | exhausted =>
          rw [hend] at hs2
          intro e he
          rcases List.mem_append.mp he with he | he
          · exact hcalm e (List.mem_append_left _ he)
          · rcases List.mem_cons.mp he with rfl | he
            · rfl
            · exact hs2 e he
    · simp only [h1, if_true]
      exact h2

/-- In a list that ends with `y, z` after elements that all satisfy `p`, an
element `x` that neither satisfies `p` nor is `z` can only be `y`. -/
theorem split_before_last_two {α : Type} (p : α → Bool) (pre1 pre2 post : List α) (x y z : α)
    (h : pre1 ++ x :: post = pre2 ++ [y, z]) (hp : ∀ e ∈ pre2, p e = true)
    (hx : p x = false) (hxz : x ≠ z) : pre1 = pre2 ∧ x = y ∧ post = [z] := by
  induction pre2 generalizing pre1 with
  | nil =>
    rcases pre1 with _ | ⟨a, _ | ⟨b, pre3⟩⟩
    · simp only [List.nil_append, List.cons.injEq] at h
      exact ⟨rfl, h.1, h.2⟩
    · simp only [List.cons_append, List.nil_append, List.cons.injEq] at h
      exact absurd h.2.1 hxz
    · have := congrArg List.length h
      simp at this
  | cons q pre2 ih =>
    rcases pre1 with _ | ⟨a, pre3⟩
    · simp only [List.nil_append, List.cons_append, List.cons.injEq] at h
      have := hp q (List.mem_cons_self q pre2)
      rw [← h.1, hx] at this
      cases this
    · simp only [List.cons_append, List.cons.injEq] at h
      obtain ⟨h1, h2, h3⟩ := ih pre3 h.2 (fun e he => hp e (List.mem_cons_of_mem q he))
      exact ⟨by rw [h.1, h1], h2, h3⟩

/-- In a list that ends with `z` after elements that all satisfy `p`, an
element that does not satisfy `p` is that last element. -/
theorem split_before_last {α : Type} (p : α → Bool) (pre1 pre2 post : List α) (x z : α)
    (h : pre1 ++ x :: post = pre2 ++ [z]) (hp : ∀ e ∈ pre2, p e = true)
    (hx : p x = false) : pre1 = pre2 ∧ x = z ∧ post = [] := by
  induction pre2 generalizing pre1 with
  | nil =>
    rcases pre1 with _ | ⟨a, pre3⟩
    · simp only [List.nil_append, List.cons.injEq] at h
      exact ⟨rfl, h.1, h.2⟩
    · have := congrArg List.length h
      simp at this
  | cons q pre2 ih =>
    rcases pre1 with _ | ⟨a, pre3⟩
    · simp only [List.nil_append, List.cons_append, List.cons.injEq] at h
      have := hp q (List.mem_cons_self q pre2)
      rw [← h.1, hx] at this
      cases this
    · simp only [List.cons_append, List.cons.injEq] at h
      obtain ⟨h1, h2, h3⟩ := ih pre3 h.2 (fun e he => hp e (List.mem_cons_of_mem q he))
      exact ⟨by rw [h.1, h1], h2, h3⟩

/-! ## Counting requests, rounds and pauses -/

/-- Every status request of the inner loop belongs to its round and to a
position from `index` on, carries the key, and is answered as the endpoint
answers that round and position. -/
theorem pollHandles_polls (responses : Responses) (key : String) (i index : Nat)
    (hs : List opsLinkStatus) (r j : Nat) (url k : String) (resp : Response)
    (h : Event.poll r j url k resp ∈ (pollHandles responses key i index hs).events) :
    r = i ∧ index ≤ j ∧ k = key ∧ resp = responses i j := by
  induction hs generalizing index with
  | nil => simp [pollHandles] at h
  | cons v rest ih =>
    rw [pollHandles] at h
    split_ifs at h
    · obtain ⟨h1, h2, h3⟩ := ih (index + 1) h
      exact ⟨h1, by omega, h3⟩
    · simp only [List.mem_cons, Event.poll.injEq, List.mem_singleton, reduceCtorEq, or_false,
        List.not_mem_nil] at h
      obtain ⟨h1, h2, _, h4, h5⟩ := h
      subst h2
      exact ⟨h1, Nat.le_refl _, h4, h5⟩
    · rcases List.mem_cons.mp h with h | h
      · simp only [Event.poll.injEq] at h
        obtain ⟨h1, h2, _, h4, h5⟩ := h
        subst h2
        exact ⟨h1, Nat.le_refl _, h4, h5⟩
      · obtain ⟨h1, h2, h3⟩ := ih (index + 1) h
        exact ⟨h1, by omega, h3⟩
    · rcases List.mem_cons.mp h with h | h
      · simp only [Event.poll.injEq] at h
        obtain ⟨h1, h2, _, h4, h5⟩ := h
        subst h2
        exact ⟨h1, Nat.le_refl _, h4, h5⟩
      · rcases List.mem_cons.mp h with h | h
        · cases h
        · obtain ⟨h1, h2, h3⟩ := ih (index + 1) h
          exact ⟨h1, by omega, h3⟩

/-- No request is counted for a position, or in a round, that none of the
events belongs to. -/
theorem countPollsIn_eq_zero (i j : Nat) (events : List Event)
    (h : ∀ r n url k resp, Event.poll r n url k resp ∈ events → ¬ (r = i ∧ n = j)) :
    countPollsIn i j events = 0 := by
  unfold countPollsIn
  rw [List.countP_eq_zero]
  intro e he
  cases e with
  | poll r n url k resp =>
    have := h r n url k resp he
    simp only [Bool.and_eq_true, beq_iff_eq]
    exact this
  | _ => simp

/-- No request is counted for a position that none of the events belongs to. -/
theorem countPollsOf_eq_zero (j : Nat) (events : List Event)
    (h : ∀ r n url k resp, Event.poll r n url k resp ∈ events → n ≠ j) :
    countPollsOf j events = 0 := by
  unfold countPollsOf
  rw [List.countP_eq_zero]
  intro e he
  cases e with
  | poll r n url k resp =>
    have := h r n url k resp he
    simp only [beq_iff_eq]
    exact this
  | _ => simp

/-- A status request at the head of the events counts once. -/
theorem countPolls_poll (r n : Nat) (url k : String) (resp : Response) (es : List Event) :
    countPolls (Event.poll r n url k resp :: es) = countPolls es + 1 := by
  simp [countPolls]

/-- A progress message at the head of the events is no status request. -/
theorem countPolls_progress (r m : Nat) (status : String) (es : List Event) :
    countPolls (Event.progress r m status :: es) = countPolls es := by
  simp [countPolls]

/-- A status request at the head of the events counts for its position. -/
theorem countPollsOf_poll (j r n : Nat) (url k : String) (resp : Response) (es : List Event) :
    countPollsOf j (Event.poll r n url k resp :: es)
      = countPollsOf j es + (if n = j then 1 else 0) := by
  by_cases h : n = j <;> simp [countPollsOf, h]

/-- A progress message at the head of the events is no status request. -/
theorem countPollsOf_progress (j r m : Nat) (status : String) (es : List Event) :
    countPollsOf j (Event.progress r m status :: es) = countPollsOf j es := by
  simp [countPollsOf]

/-- The inner loop makes no pause. -/
theorem pollHandles_no_sleep (responses : Responses) (key : String) (i index : Nat)
    (hs : List opsLinkStatus) :
    countSleeps (pollHandles responses key i index hs).events = 0 := by
  induction hs generalizing index with
  | nil => rfl
  | cons v rest ih =>
    rw [pollHandles]
    split_ifs
    · exact ih (index + 1)
    · rfl
    · simpa [countSleeps] using ih (index + 1)
    · simpa [countSleeps] using ih (index + 1)

/-- The inner loop polls each handle at most once, and makes at most as many
requests as there are handles. -/
theorem pollHandles_counts (responses : Responses) (key : String) (i index : Nat)
    (hs : List opsLinkStatus) :
    countPolls (pollHandles responses key i index hs).events ≤ hs.length ∧
      ∀ j, countPollsOf j (pollHandles responses key i index hs).events ≤ 1 := by
  induction hs generalizing index with
  | nil => exact ⟨Nat.le_refl _, fun _ => Nat.zero_le _⟩
  | cons v rest ih =>
    obtain ⟨ih1, ih2⟩ := ih (index + 1)
    have hzero : countPollsOf index (pollHandles responses key i (index + 1) rest).events = 0 :=
      countPollsOf_eq_zero _ _ fun r n url k resp hmem => by
        have := (pollHandles_polls responses key i (index + 1) rest r n url k resp hmem).2.1
        omega
    have hone : ∀ j, countPollsOf j (pollHandles responses key i (index + 1) rest).events
        + (if index = j then 1 else 0) ≤ 1 := by
      intro j
      by_cases hj : index = j
      · subst hj
        simp [hzero]
      · simpa [hj] using ih2 j
    rw [pollHandles]
    split_ifs
    · exact ⟨by simp only [List.length_cons]; omega, ih2⟩
    · refine ⟨by simp [countPolls], fun j => ?_⟩
      by_cases hj : index = j <;> simp [countPollsOf, hj]
    · refine ⟨?_, fun j => ?_⟩
      · simp only [countPolls_poll, List.length_cons]
        omega
      · simp only [countPollsOf_poll]
        exact hone j
    · refine ⟨?_, fun j => ?_⟩
      · simp only [countPolls_poll, countPolls_progress, List.length_cons]
        omega
      · simp only [countPollsOf_poll, countPollsOf_progress]
        exact hone j

/-- Requests in a round for a position are among the requests for that
position. -/
theorem countPollsIn_le (i j : Nat) (events : List Event) :
    countPollsIn i j events ≤ countPollsOf j events := by
  unfold countPollsIn countPollsOf
  apply List.countP_mono_left
  intro e _ he
  cases e <;> simp_all

/-- Every status request of a session entered at round `i` with `remaining`
rounds to go belongs to one of these rounds, carries the key, and is answered
as the endpoint answers that round and position. -/
theorem pollRounds_polls (responses : Responses) (key : String) (remaining i : Nat)
    (hs : List opsLinkStatus) (r j : Nat) (url k : String) (resp : Response)
    (h : Event.poll r j url k resp ∈ (pollRounds responses key remaining i hs).events) :
    i ≤ r ∧ r < i + remaining ∧ k = key ∧ resp = responses r j := by
  induction remaining generalizing i hs with
  | zero => simp [pollRounds] at h
  | succ remaining ih =>
    rw [pollRounds] at h
    have hround : ∀ (es : List Event), Event.poll r j url k resp ∈
        (pollHandles responses key i 0 hs).events ++ es →
        Event.poll r j url k resp ∈ es ∨ (i ≤ r ∧ r < i + (remaining + 1) ∧ k = key ∧
          resp = responses r j) := by
      intro es hmem
      rcases List.mem_append.mp hmem with hmem | hmem
      · obtain ⟨h1, _, h3, h4⟩ := pollHandles_polls responses key i 0 hs r j url k resp hmem
        subst h1
        exact Or.inr ⟨Nat.le_refl _, by omega, h3, h4⟩
      · exact Or.inl hmem
    split_ifs at h
    · have := hround [] (by simpa using h)
      simpa using this
    · rcases hround _ h with h | h
      · simp at h
      · exact h
    · rcases hround _ h with h | h
      · rcases List.mem_cons.mp h with h | h
        · cases h
        · obtain ⟨h1, h2, h3, h4⟩ := ih (i + 1) _ h
          exact ⟨by omega, by omega, h3, h4⟩
      · exact h

/-- A session entered with `remaining` rounds to go begins at most that many
rounds, polls each handle at most once in a round and at most `remaining`
times in all, and makes at most `remaining` requests per handle in total. -/
theorem pollRounds_counts (responses : Responses) (key : String) (remaining i : Nat)
    (hs : List opsLinkStatus) :
    (pollRounds responses key remaining i hs).rounds ≤ remaining ∧
      countPolls (pollRounds responses key remaining i hs).events ≤ remaining * hs.length ∧
      (∀ j, countPollsOf j (pollRounds responses key remaining i hs).events ≤ remaining) ∧
      ∀ r j, countPollsIn r j (pollRounds responses key remaining i hs).events ≤ 1 := by
  induction remaining generalizing i hs with
  | zero => simp [pollRounds, countPolls, countPollsOf, countPollsIn]
  | succ remaining ih =>
    obtain ⟨c1, c2⟩ := pollHandles_counts responses key i 0 hs
    have c3 : ∀ r j, countPollsIn r j (pollHandles responses key i 0 hs).events ≤ 1 :=
      fun r j => Nat.le_trans (countPollsIn_le r j _) (c2 j)
    have hlen := pollHandles_length responses key i 0 hs
    obtain ⟨ih1, ih2, ih3, ih4⟩ := ih (i + 1) (pollHandles responses key i 0 hs).handles
    rw [hlen] at ih2
    rw [pollRounds]
    split_ifs
    · refine ⟨by simp, ?_, fun j => ?_, c3⟩
      · calc countPolls (pollHandles responses key i 0 hs).events ≤ hs.length := c1
          _ ≤ (remaining + 1) * hs.length := Nat.le_mul_of_pos_left _ (Nat.succ_pos _)
      · exact Nat.le_trans (c2 j) (by omega)
    · refine ⟨by simp, ?_, fun j => ?_, fun r j => ?_⟩
      · have : countPolls ((pollHandles responses key i 0 hs).events ++ [Event.success])
            = countPolls (pollHandles responses key i 0 hs).events := by
          simp [countPolls, List.countP_append]
        rw [this]
        calc countPolls (pollHandles responses key i 0 hs).events ≤ hs.length := c1
          _ ≤ (remaining + 1) * hs.length := Nat.le_mul_of_pos_left _ (Nat.succ_pos _)
      · have : countPollsOf j ((pollHandles responses key i 0 hs).events ++ [Event.success])
            = countPollsOf j (pollHandles responses key i 0 hs).events := by
          simp [countPollsOf, List.countP_append]
        rw [this]
        exact Nat.le_trans (c2 j) (by omega)
      · have : countPollsIn r j ((pollHandles responses key i 0 hs).events ++ [Event.success])
            = countPollsIn r j (pollHandles responses key i 0 hs).events := by
          simp [countPollsIn, List.countP_append]
        rw [this]
        exact c3 r j
    · refine ⟨by simpa using ih1, ?_, fun j => ?_, fun r j => ?_⟩
      · have : countPolls ((pollHandles responses key i 0 hs).events ++ Event.sleep 30 ::
            (pollRounds responses key remaining (i + 1)
              (pollHandles responses key i 0 hs).handles).events)
            = countPolls (pollHandles responses key i 0 hs).events +
              countPolls (pollRounds responses key remaining (i + 1)
                (pollHandles responses key i 0 hs).handles).events := by
          simp [countPolls, List.countP_append]
        rw [this, Nat.succ_mul]
        omega
      · have : countPollsOf j ((pollHandles responses key i 0 hs).events ++ Event.sleep 30 ::
            (pollRounds responses key remaining (i + 1)
              (pollHandles responses key i 0 hs).handles).events)
            = countPollsOf j (pollHandles responses key i 0 hs).events +
              countPollsOf j (pollRounds responses key remaining (i + 1)
                (pollHandles responses key i 0 hs).handles).events := by
          simp [countPollsOf, List.countP_append]
        rw [this]
        have := c2 j
        have := ih3 j
        omega
      · have hsum : countPollsIn r j ((pollHandles responses key i 0 hs).events ++
            Event.sleep 30 :: (pollRounds responses key remaining (i + 1)
              (pollHandles responses key i 0 hs).handles).events)
            = countPollsIn r j (pollHandles responses key i 0 hs).events +
              countPollsIn r j (pollRounds responses key remaining (i + 1)
                (pollHandles responses key i 0 hs).handles).events := by
          simp [countPollsIn, List.countP_append]
        rw [hsum]
        by_cases hr : r = i
        · have hz : countPollsIn r j (pollRounds responses key remaining (i + 1)
              (pollHandles responses key i 0 hs).handles).events = 0 :=
            countPollsIn_eq_zero _ _ _ fun r2 n url k resp hmem hrn => by
              have := (pollRounds_polls responses key remaining (i + 1) _ r2 n url k resp hmem).1
              omega
          rw [hz]
          exact c3 r j
        · have hz : countPollsIn r j (pollHandles responses key i 0 hs).events = 0 :=
            countPollsIn_eq_zero _ _ _ fun r2 n url k resp hmem hrn => by
              have := (pollHandles_polls responses key i 0 hs r2 n url k resp hmem).1
              omega
          rw [hz, Nat.zero_add]
          exact ih4 r j

/-- A round in which a request fails ends the session. -/
theorem pollRounds_aborted (responses : Responses) (key : String) (remaining i : Nat)
    (hs : List opsLinkStatus) (h : (pollHandles responses key i 0 hs).aborted = true) :
    pollRounds responses key (remaining + 1) i hs =
      { events := (pollHandles responses key i 0 hs).events,
        handles := (pollHandles responses key i 0 hs).handles, rounds := 1,
        ending := .aborted } := by
  rw [pollRounds]
  simp only [h, if_true]

/-- A round that goes through and leaves every handle complete ends the
session with the success message. -/
theorem pollRounds_succeeded (responses : Responses) (key : String) (remaining i : Nat)
    (hs : List opsLinkStatus) (h1 : (pollHandles responses key i 0 hs).aborted = false)
    (h2 : allComplete (pollHandles responses key i 0 hs).handles = true) :
    pollRounds responses key (remaining + 1) i hs =
      { events := (pollHandles responses key i 0 hs).events ++ [Event.success],
        handles := (pollHandles responses key i 0 hs).handles, rounds := 1,
        ending := .succeeded } := by
  rw [pollRounds]
  simp only [h1, h2, Bool.false_eq_true, if_false, if_true]

/-- A round that goes through and leaves a handle pending is followed by a
pause and by the rest of the session. -/
theorem pollRounds_next (responses : Responses) (key : String) (remaining i : Nat)
    (hs : List opsLinkStatus) (h1 : (pollHandles responses key i 0 hs).aborted = false)
    (h2 : allComplete (pollHandles responses key i 0 hs).handles = false) :
    pollRounds responses key (remaining + 1) i hs =
      { events := (pollHandles responses key i 0 hs).events ++ Event.sleep 30 ::
          (pollRounds responses key remaining (i + 1)
            (pollHandles responses key i 0 hs).handles).events,
        handles := (pollRounds responses key remaining (i + 1)
            (pollHandles responses key i 0 hs).handles).handles,
        rounds := (pollRounds responses key remaining (i + 1)
            (pollHandles responses key i 0 hs).handles).rounds + 1,
        ending := (pollRounds responses key remaining (i + 1)
            (pollHandles responses key i 0 hs).handles).ending } := by
  rw [pollRounds]
  simp only [h1, h2, Bool.false_eq_true, if_false]

/-- The pauses of a session: one after every round for a session that ran
through all its rounds, one after every round but the last for a session that
ended in a round by `return`. -/
theorem pollRounds_sleeps (responses : Responses) (key : String) (remaining i : Nat)
    (hs : List opsLinkStatus) :
    countSleeps (pollRounds responses key remaining i hs).events +
        (if (pollRounds responses key remaining i hs).ending = .exhausted then 0 else 1)
      = (pollRounds responses key remaining i hs).rounds := by
  induction remaining generalizing i hs with
  | zero => simp [pollRounds, countSleeps]
  | succ remaining ih =>
    have hz := pollHandles_no_sleep responses key i 0 hs
    cases h1 : (pollHandles responses key i 0 hs).aborted with
    | true =>
      rw [pollRounds_aborted responses key remaining i hs h1]
      simpa using hz
    | false =>
      cases h2 : allComplete (pollHandles responses key i 0 hs).handles with
      | true =>
        rw [pollRounds_succeeded responses key remaining i hs h1 h2]
        simpa [countSleeps, List.countP_append] using hz
      | false =>
        rw [pollRounds_next responses key remaining i hs h1 h2]
        have := ih (i + 1) (pollHandles responses key i 0 hs).handles
        simp only [countSleeps, List.countP_append, List.countP_cons_of_pos] at hz this ⊢
        omega

/-! ## What a round does to a handle -/

/-- A handle after the inner loop: it keeps its place and its polling URL, and
it is complete exactly when it was complete before or one of the requests of
the loop for its position was answered, without failure and with status code
200, by the status `DEPLOYED`. -/
theorem pollHandles_handle (responses : Responses) (key : String) (i index : Nat)
    (hs : List opsLinkStatus) (n : Nat) (v : opsLinkStatus) (hv : hs[n]? = some v) :
    ∃ w, (pollHandles responses key i index hs).handles[n]? = some w ∧
      w.opsLink = v.opsLink ∧ w.opsUrl = v.opsUrl ∧ w.functionId = v.functionId ∧
      (w.Complete = true ↔ v.Complete = true ∨
        ∃ url k resp, Event.poll i (index + n) url k resp ∈
            (pollHandles responses key i index hs).events ∧
          resp.bad = false ∧ resp.Status = "DEPLOYED") := by
  induction hs generalizing index n with
  | nil => simp at hv
  | cons h rest ih =>
    have hlater : ∀ m url k resp, Event.poll i index url k resp ∉
        (pollHandles responses key i (index + 1 + m) rest).events := by
      intro m url k resp hmem
      have := (pollHandles_polls responses key i _ rest i index url k resp hmem).2.1
      omega
    have hlater0 : ∀ url k resp, Event.poll i index url k resp ∉
        (pollHandles responses key i (index + 1) rest).events := hlater 0
    cases n with
    | zero =>
      simp only [List.getElem?_cons_zero, Option.some.injEq] at hv
      subst hv
      rw [pollHandles]
      split_ifs with hc hbad hdep
      · refine ⟨h, by simp, rfl, rfl, rfl, ?_⟩
        simp [hc]
      · refine ⟨h, by simp, rfl, rfl, rfl, ?_⟩
        simp only [hc, false_or, Bool.false_eq_true, false_iff, not_exists, not_and]
        intro url k resp hmem hgood
        simp only [Nat.add_zero, List.mem_cons, Event.poll.injEq, true_and, List.mem_singleton,
          reduceCtorEq, or_false, List.not_mem_nil] at hmem
        rw [hmem.2.2, Response.bad, hbad] at hgood
        cases hgood
      · refine ⟨{ h with Complete := true }, by simp, rfl, rfl, rfl, ?_⟩
        simp only [true_iff]
        refine Or.inr ⟨h.opsLink, key, responses i index, by simp, ?_, by simpa using hdep⟩
        simpa [Response.bad] using hbad
      · refine ⟨h, by simp, rfl, rfl, rfl, ?_⟩
        simp only [hc, false_or, Bool.false_eq_true, false_iff, not_exists, not_and]
        intro url k resp hmem hgood hdeployed
        simp only [Nat.add_zero, List.mem_cons, Event.poll.injEq, true_and, reduceCtorEq,
          false_or] at hmem
        rcases hmem with hmem | hmem
        · rw [hmem.2.2] at hdeployed
          simp [hdeployed] at hdep
        · exact hlater0 url k resp hmem
    | succ n =>
      simp only [List.getElem?_cons_succ] at hv
      obtain ⟨w, hw1, hw2, hw3, hw4, hw5⟩ := ih (index + 1) n hv
      have hidx : index + 1 + n = index + (n + 1) := by omega
      rw [hidx] at hw5
      have hne : index ≠ index + (n + 1) := by omega
      rw [pollHandles]
      split_ifs with hc hbad hdep
      · exact ⟨w, by simpa using hw1, hw2, hw3, hw4, hw5⟩
      · refine ⟨v, by simpa using hv, rfl, rfl, rfl, ?_⟩
        constructor
        · intro h1
          exact Or.inl h1
        · rintro (h1 | ⟨url, k, resp, hmem, -, -⟩)
          · exact h1
          · simp [hne] at hmem
      · refine ⟨w, by simpa using hw1, hw2, hw3, hw4, ?_⟩
        rw [hw5]
        simp [hne]
      · refine ⟨w, by simpa using hw1, hw2, hw3, hw4, ?_⟩
        rw [hw5]
        simp [hne]

/-- A handle at the end of a session: it keeps its place and its polling URL,
and it is complete exactly when it was complete at the start or one of the
requests of the session for its position was answered, without failure and
with status code 200, by the status `DEPLOYED`. -/
theorem pollRounds_handle (responses : Responses) (key : String) (remaining i : Nat)
    (hs : List opsLinkStatus) (n : Nat) (v : opsLinkStatus) (hv : hs[n]? = some v) :
    ∃ w, (pollRounds responses key remaining i hs).handles[n]? = some w ∧
      w.opsLink = v.opsLink ∧ w.opsUrl = v.opsUrl ∧ w.functionId = v.functionId ∧
      (w.Complete = true ↔ v.Complete = true ∨
        ∃ r url k resp, Event.poll r n url k resp ∈
            (pollRounds responses key remaining i hs).events ∧
          resp.bad = false ∧ resp.Status = "DEPLOYED") := by
  induction remaining generalizing i hs v with
  | zero => exact ⟨v, hv, rfl, rfl, rfl, by simp [pollRounds]⟩
  | succ remaining ih =>
    obtain ⟨w, hw1, hw2, hw3, hw4, hw5⟩ := pollHandles_handle responses key i 0 hs n v hv
    rw [Nat.zero_add] at hw5
    have hround : (w.Complete = true ↔ v.Complete = true ∨
        ∃ r url k resp, Event.poll r n url k resp ∈ (pollHandles responses key i 0 hs).events ∧
          resp.bad = false ∧ resp.Status = "DEPLOYED") := by
      rw [hw5]
      constructor
      · rintro (h | ⟨url, k, resp, h1, h2, h3⟩)
        · exact Or.inl h
        · exact Or.inr ⟨i, url, k, resp, h1, h2, h3⟩
      · rintro (h | ⟨r, url, k, resp, h1, h2, h3⟩)
        · exact Or.inl h
        · have := (pollHandles_polls responses key i 0 hs r n url k resp h1).1
          subst this
          exact Or.inr ⟨url, k, resp, h1, h2, h3⟩
    cases h1 : (pollHandles responses key i 0 hs).aborted with
    | true =>
      rw [pollRounds_aborted responses key remaining i hs h1]
      exact ⟨w, hw1, hw2, hw3, hw4, hround⟩
    | false =>
      cases h2 : allComplete (pollHandles responses key i 0 hs).handles with
      | true =>
        rw [pollRounds_succeeded responses key remaining i hs h1 h2]
        refine ⟨w, hw1, hw2, hw3, hw4, ?_⟩
        rw [hround]
        simp
      | false =>
        rw [pollRounds_next responses key remaining i hs h1 h2]
        obtain ⟨u, hu1, hu2, hu3, hu4, hu5⟩ := ih (i + 1) _ w hw1
        refine ⟨u, hu1, hu2.trans hw2, hu3.trans hw3, hu4.trans hw4, ?_⟩
        rw [hu5, hround]
        simp only [List.mem_append, List.mem_cons, reduceCtorEq, false_or]
        constructor
        · rintro ((h | ⟨r, url, k, resp, h3, h4, h5⟩) | ⟨r, url, k, resp, h3, h4, h5⟩)
          · exact Or.inl h
          · exact Or.inr ⟨r, url, k, resp, Or.inl h3, h4, h5⟩
          · exact Or.inr ⟨r, url, k, resp, Or.inr h3, h4, h5⟩
        · rintro (h | ⟨r, url, k, resp, h3 | h3, h4, h5⟩)
          · exact Or.inl (Or.inl h)
          · exact Or.inl (Or.inr ⟨r, url, k, resp, h3, h4, h5⟩)
          · exact Or.inr ⟨r, url, k, resp, h3, h4, h5⟩

/-- When every request of round `i` is answered without failure and with
status code 200, the inner loop goes through. -/
theorem pollHandles_not_aborted (responses : Responses) (key : String) (i index : Nat)
    (hs : List opsLinkStatus) (hgood : ∀ j, (responses i j).bad = false) :
    (pollHandles responses key i index hs).aborted = false := by
  induction hs generalizing index with
  | nil => rfl
  | cons v rest ih =>
    have hg := hgood index
    simp only [Response.bad] at hg
    rw [pollHandles]
    split_ifs <;> first | exact ih (index + 1) | simp_all

/-- When every request of round `i` is answered without failure and with
status code 200, a pending handle is polled exactly once in the round. -/
theorem pollHandles_polls_pending (responses : Responses) (key : String) (i index : Nat)
    (hs : List opsLinkStatus) (hgood : ∀ j, (responses i j).bad = false)
    (n : Nat) (v : opsLinkStatus) (hv : hs[n]? = some v) (hpending : v.Complete = false) :
    countPollsOf (index + n) (pollHandles responses key i index hs).events = 1 := by
  induction hs generalizing index n with
  | nil => simp at hv
  | cons h rest ih =>
    have hg := hgood index
    simp only [Response.bad] at hg
    cases n with
    | zero =>
      simp only [List.getElem?_cons_zero, Option.some.injEq] at hv
      subst hv
      have hzero : countPollsOf index (pollHandles responses key i (index + 1) rest).events = 0 :=
        countPollsOf_eq_zero _ _ fun r m url k resp hmem => by
          have := (pollHandles_polls responses key i (index + 1) rest r m url k resp hmem).2.1
          omega
      rw [pollHandles]
      split_ifs with hc hbad hdep
      · simp [hpending] at hc
      · simp [hg] at hbad
      · simp [countPollsOf_poll, hzero]
      · simp [countPollsOf_poll, countPollsOf_progress, hzero]
    | succ n =>
      simp only [List.getElem?_cons_succ] at hv
      have := ih (index + 1) n hv
      have hidx : index + 1 + n = index + (n + 1) := by omega
      rw [hidx] at this
      have hne : ¬ index = index + (n + 1) := by omega
      rw [pollHandles]
      split_ifs with hc hbad hdep
      · exact this
      · simp [hg] at hbad
      · simp [countPollsOf_poll, hne, this]
      · simp [countPollsOf_poll, countPollsOf_progress, hne, this]

/-- When every request is answered without failure and with status code 200
and the status of one pending handle is never `DEPLOYED`, a session entered
with `remaining` rounds to go runs through all of them, polls that handle once
in each, and ends by leaving the loop. -/
theorem pollRounds_never_deployed (responses : Responses) (key : String) (remaining i : Nat)
    (hs : List opsLinkStatus) (hgood : ∀ r j, (responses r j).bad = false)
    (n : Nat) (v : opsLinkStatus) (hv : hs[n]? = some v) (hpending : v.Complete = false)
    (hnever : ∀ r, (responses r n).Status ≠ "DEPLOYED") :
    (pollRounds responses key remaining i hs).rounds = remaining ∧
      countPollsOf n (pollRounds responses key remaining i hs).events = remaining ∧
      (pollRounds responses key remaining i hs).ending = .exhausted := by
  induction remaining generalizing i hs v with
  | zero => simp [pollRounds, countPollsOf]
  | succ remaining ih =>
    have h1 := pollHandles_not_aborted responses key i 0 hs (hgood i)
    have hcount := pollHandles_polls_pending responses key i 0 hs (hgood i) n v hv hpending
    rw [Nat.zero_add] at hcount
    obtain ⟨w, hw1, _, _, _, hw5⟩ := pollHandles_handle responses key i 0 hs n v hv
    have hw : w.Complete = false := by
      cases hc : w.Complete with
      | false => rfl
      | true =>
        rcases hw5.mp hc with h | ⟨url, k, resp, hmem, _, hdep⟩
        · rw [hpending] at h
          cases h
        · have := (pollHandles_polls responses key i 0 hs _ _ url k resp hmem).2.2.2
          rw [this, Nat.zero_add] at hdep
          exact absurd hdep (hnever i)
    have h2 : allComplete (pollHandles responses key i 0 hs).handles = false := by
      rw [allComplete_eq_all]
      apply Bool.eq_false_iff.mpr
      intro hall
      rw [List.all_eq_true] at hall
      have := hall w (List.getElem?_mem hw1)
      rw [hw] at this
      cases this
    rw [pollRounds_next responses key remaining i hs h1 h2]
    obtain ⟨ih1, ih2, ih3⟩ := ih (i + 1) _ w hw1 hw
    refine ⟨by simp [ih1], ?_, ih3⟩
    simp only [countPollsOf, List.countP_append, List.countP_cons_of_neg, Bool.false_eq_true,
      not_false_eq_true] at hcount ih2 ⊢
    omega

/-! ## The handle list in the course of a session -/

/-- A handle differs from itself in nothing. -/
theorem advances_refl (a : opsLinkStatus) : a.advances a := ⟨rfl, rfl, rfl, id⟩

/-- A handle list differs from itself in nothing. -/
theorem keeps_refl (s : List opsLinkStatus) : keeps s s := by
  induction s with
  | nil => exact List.Forall₂.nil
  | cons a s ih => exact List.Forall₂.cons (advances_refl a) ih

/-- What holds of the handles from one state to a later one and from that to
a third holds from the first to the third. -/
theorem keeps_trans (s t u : List opsLinkStatus) (h1 : keeps s t) (h2 : keeps t u) :
    keeps s u := by
  induction h1 generalizing u with
  | nil =>
    cases h2
    exact List.Forall₂.nil
  | cons hab _ ih =>
    cases h2 with
    | cons hbc hrest =>
      refine List.Forall₂.cons ⟨?_, ?_, ?_, ?_⟩ (ih _ hrest)
      · rw [hbc.1, hab.1]
      · rw [hbc.2.1, hab.2.1]
      · rw [hbc.2.2.1, hab.2.2.1]
      · exact fun h => hbc.2.2.2 (hab.2.2.2 h)

/-- Marking one handle complete keeps the list. -/
theorem keeps_mark (done rest : List opsLinkStatus) (v : opsLinkStatus) :
    keeps (done ++ v :: rest) (done ++ { v with Complete := true } :: rest) := by
  induction done with
  | nil => exact List.Forall₂.cons ⟨rfl, rfl, rfl, fun _ => rfl⟩ (keeps_refl rest)
  | cons a done ih => exact List.Forall₂.cons (advances_refl a) ih

/-- A chain followed by a chain that starts where the first one ends. -/
theorem chain_append {α : Type} (R : α → α → Prop) : ∀ (l1 l2 : List α) (a : α),
    List.Chain R a l1 → List.Chain R (l1.getLastD a) l2 → List.Chain R a (l1 ++ l2)
  | [], _, _, _, h2 => h2
  | b :: l1, l2, a, h1, h2 => by
    cases h1 with
    | cons hab hrest =>
      rw [List.getLastD_cons] at h2
      exact List.Chain.cons hab (chain_append R l1 l2 b hrest h2)

/-- The last element of two lists in a row. -/
theorem getLastD_append {α : Type} : ∀ (l1 l2 : List α) (a : α),
    (l1 ++ l2).getLastD a = l2.getLastD (l1.getLastD a)
  | [], _, _ => rfl
  | b :: l1, l2, a => by
    rw [List.cons_append, List.getLastD_cons, List.getLastD_cons]
    exact getLastD_append l1 l2 b

/-- Within the inner loop every state keeps the one before it, and the last
state is the list the loop leaves. -/
theorem pollHandlesStates_chain (responses : Responses) (key : String) (i : Nat) :
    ∀ (rest done : List opsLinkStatus) (index : Nat),
      List.Chain keeps (done ++ rest) (pollHandlesStates responses i index done rest) ∧
      (pollHandlesStates responses i index done rest).getLastD (done ++ rest) =
        done ++ (pollHandles responses key i index rest).handles
  | [], done, index => by simp [pollHandlesStates, pollHandles]
  | v :: rest, done, index => by
    have ih1 := pollHandlesStates_chain responses key i rest (done ++ [v]) (index + 1)
    have ih2 := pollHandlesStates_chain responses key i rest
      (done ++ [{ v with Complete := true }]) (index + 1)
    simp only [List.append_assoc, List.singleton_append] at ih1 ih2
    rw [pollHandlesStates, pollHandles]
    split_ifs
    · rw [List.getLastD_cons]
      exact ⟨List.Chain.cons (keeps_refl _) ih1.1, ih1.2⟩
    · exact ⟨List.Chain.cons (keeps_refl _) List.Chain.nil, rfl⟩
    · rw [List.getLastD_cons]
      exact ⟨List.Chain.cons (keeps_mark done rest v) ih2.1, ih2.2⟩
    · rw [List.getLastD_cons]
      exact ⟨List.Chain.cons (keeps_refl _) ih1.1, ih1.2⟩

/-- Throughout the rounds every state keeps the one before it, and the last
state is the list the session leaves. -/
theorem pollRoundsStates_chain (responses : Responses) (key : String) :
    ∀ (remaining i : Nat) (hs : List opsLinkStatus),
      List.Chain keeps hs (pollRoundsStates responses key remaining i hs) ∧
      (pollRoundsStates responses key remaining i hs).getLastD hs =
        (pollRounds responses key remaining i hs).handles
  | 0, _, _ => by simp [pollRoundsStates, pollRounds]
  | remaining + 1, i, hs => by
    have hin := pollHandlesStates_chain responses key i hs [] 0
    simp only [List.nil_append] at hin
    have ih := pollRoundsStates_chain responses key remaining (i + 1)
      (pollHandles responses key i 0 hs).handles
    rw [pollRoundsStates, pollRounds]
    simp only
    split_ifs
    · simpa using hin
    · simpa using hin
    · refine ⟨chain_append keeps _ _ hs hin.1 (by rw [hin.2]; exact ih.1), ?_⟩
      rw [getLastD_append, hin.2]
      exact ih.2

/-- Handle lists of which one keeps the other have the same polling URLs at
the same places, and so the same length. -/
theorem keeps_links (s t : List opsLinkStatus) (h : keeps s t) :
    t.length = s.length ∧ t.map (fun v => v.opsLink) = s.map (fun v => v.opsLink) := by
  induction h with
  | nil => exact ⟨rfl, rfl⟩
  | cons hab _ ih => exact ⟨by simp [ih.1], by simp [ih.2, hab.2.1]⟩

/-! ## The requests of a round -/

/-- In a round that goes through, the status requests are those for the
handles that were pending when the loop reached them, in the order of the
list, one each, made in that round with the key. -/
theorem pollHandles_requests (responses : Responses) (key : String) (i : Nat) :
    ∀ (hs : List opsLinkStatus) (index : Nat),
      (pollHandles responses key i index hs).aborted = false →
      (pollHandles responses key i index hs).events.filter Event.isPoll =
        (pending index hs).map (fun p => Event.poll i p.1 p.2 key (responses i p.1))
  | [], _ => fun _ => rfl
  | v :: rest, index => by
    intro hgo
    have ih := pollHandles_requests responses key i rest (index + 1)
    rw [pollHandles] at hgo ⊢
    rw [pending]
    by_cases h1 : v.Complete = true
    · simp only [h1, if_true] at hgo ⊢
      exact ih hgo
    · simp only [h1, Bool.false_eq_true, if_false] at hgo ⊢
      by_cases h2 : ((responses i index).err || (responses i index).StatusCode != 200) = true
      · simp only [h2, if_true] at hgo
        cases hgo
      · simp only [h2, Bool.false_eq_true, if_false] at hgo ⊢
        by_cases h3 : ((responses i index).Status == "DEPLOYED") = true
        · simp only [h3, if_true] at hgo ⊢
          simp only [List.filter_cons, Event.isPoll, if_true, List.map_cons]
          rw [ih hgo]
        · simp only [h3, Bool.false_eq_true, if_false] at hgo ⊢
          simp only [List.filter_cons, Event.isPoll, if_true, List.map_cons, Bool.false_eq_true,
            if_false]
          rw [ih hgo]

/-- Every status request of the inner loop is for a position of the list. -/
theorem pollHandles_polls_lt (responses : Responses) (key : String) (i : Nat) :
    ∀ (hs : List opsLinkStatus) (index r j : Nat) (url k : String) (resp : Response),
      Event.poll r j url k resp ∈ (pollHandles responses key i index hs).events →
      j < index + hs.length
  | [], _, _, _, _, _, _ => fun h => by simp [pollHandles] at h
  | v :: rest, index, r, j, url, k, resp => by
    intro h
    have ih := pollHandles_polls_lt responses key i rest (index + 1) r j url k resp
    rw [pollHandles] at h
    simp only [List.length_cons]
    split_ifs at h
    · have := ih h
      omega
    · simp only [List.mem_cons, Event.poll.injEq, List.mem_singleton, reduceCtorEq, or_false,
        List.not_mem_nil] at h
      omega
    · rcases List.mem_cons.mp h with h | h
      · simp only [Event.poll.injEq] at h
        omega
      · have := ih h
        omega
    · rcases List.mem_cons.mp h with h | h
      · simp only [Event.poll.injEq] at h
        omega
      · rcases List.mem_cons.mp h with h | h
        · cases h
        · have := ih h
          omega

/-- The inner loop makes no request for a handle that is complete. -/
theorem pollHandles_skips_complete (responses : Responses) (key : String) (i : Nat) :
    ∀ (hs : List opsLinkStatus) (index n : Nat) (v : opsLinkStatus),
      hs[n]? = some v → v.Complete = true →
      countPollsOf (index + n) (pollHandles responses key i index hs).events = 0 := by
  intro hs index n v hv hc
  apply countPollsOf_eq_zero
  intro r j url k resp hmem hj
  subst hj
  induction hs generalizing index n with
  | nil => simp at hv
  | cons h rest ih =>
    have hlater : ∀ url k resp, Event.poll r index url k resp ∉
        (pollHandles responses key i (index + 1) rest).events := by
      intro url k resp hm
      have := (pollHandles_polls responses key i _ rest r index url k resp hm).2.1
      omega
    cases n with
    | zero =>
      simp only [List.getElem?_cons_zero, Option.some.injEq] at hv
      subst hv
      rw [pollHandles] at hmem
      simp only [hc, if_true] at hmem
      exact hlater _ _ _ hmem
    | succ m =>
      simp only [List.getElem?_cons_succ] at hv
      have ih2 := ih (index + 1) m hv
      have hidx : index + 1 + m = index + (m + 1) := by omega
      rw [hidx] at ih2
      rw [pollHandles] at hmem
      split_ifs at hmem
      · exact ih2 hmem
      · simp only [List.mem_cons, Event.poll.injEq, List.mem_singleton, reduceCtorEq, or_false,
          List.not_mem_nil] at hmem
        omega
      · rcases List.mem_cons.mp hmem with h | h
        · simp only [Event.poll.injEq] at h
          omega
        · exact ih2 h
      · rcases List.mem_cons.mp hmem with h | h
        · simp only [Event.poll.injEq] at h
          omega
        · rcases List.mem_cons.mp h with h | h
          · cases h
          · exact ih2 h

/-- The number of requests for a position in two lists of events in a row. -/
theorem countPollsOf_append (j : Nat) (es fs : List Event) :
    countPollsOf j (es ++ fs) = countPollsOf j es + countPollsOf j fs := by
  simp [countPollsOf, List.countP_append]

/-- A session makes no request for a handle that is complete when the session
is entered. -/
theorem pollRounds_skips_complete (responses : Responses) (key : String) :
    ∀ (remaining i : Nat) (hs : List opsLinkStatus) (n : Nat) (v : opsLinkStatus),
      hs[n]? = some v → v.Complete = true →
      countPollsOf n (pollRounds responses key remaining i hs).events = 0
  | 0, _, _, _, _ => fun _ _ => rfl
  | remaining + 1, i, hs, n, v => by
    intro hv hc
    have hround := pollHandles_skips_complete responses key i hs 0 n v hv hc
    rw [Nat.zero_add] at hround
    obtain ⟨w, hw1, _, _, _, hw5⟩ := pollHandles_handle responses key i 0 hs n v hv
    have hwc : w.Complete = true := hw5.mpr (Or.inl hc)
    have ih := pollRounds_skips_complete responses key remaining (i + 1)
      (pollHandles responses key i 0 hs).handles n w hw1 hwc
    cases h1 : (pollHandles responses key i 0 hs).aborted with
    | true =>
      rw [pollRounds_aborted responses key remaining i hs h1]
      exact hround
    | false =>
      cases h2 : allComplete (pollHandles responses key i 0 hs).handles with
      | true =>
        rw [pollRounds_succeeded responses key remaining i hs h1 h2]
        simp only [countPollsOf_append, hround]
        rfl
      | false =>
        rw [pollRounds_next responses key remaining i hs h1 h2]
        simp only [countPollsOf_append, hround]
        simpa [countPollsOf] using ih

/-- Within a round, a request that is answered, without failure and with
status code 200, by the status `DEPLOYED` is followed by no request for the
same position. -/
theorem pollHandles_deployed_last (responses : Responses) (key : String) (i : Nat) :
    ∀ (hs : List opsLinkStatus) (index : Nat) (pre post : List Event) (r n : Nat)
      (url k : String) (resp : Response),
      (pollHandles responses key i index hs).events = pre ++ Event.poll r n url k resp :: post →
      resp.bad = false → resp.Status = "DEPLOYED" → countPollsOf n post = 0
  | [], _, pre, post, _, _, _, _, _ => fun h _ _ => by simp [pollHandles] at h
  | v :: rest, index, pre, post, r, n, url, k, resp => by
    intro h hgood hdep
    have ih := pollHandles_deployed_last responses key i rest (index + 1)
    have hlater : countPollsOf index (pollHandles responses key i (index + 1) rest).events = 0 := by
      apply countPollsOf_eq_zero
      intro r j url k resp hm hj
      have := (pollHandles_polls responses key i _ rest r j url k resp hm).2.1
      omega
    rw [pollHandles] at h
    split_ifs at h with h1 h2 h3
    · exact ih pre post r n url k resp h hgood hdep
    · rcases pre with _ | ⟨a, pre⟩
      · simp only [List.nil_append, List.cons.injEq, Event.poll.injEq] at h
        obtain ⟨⟨_, _, _, _, hresp⟩, _⟩ := h
        rw [← hresp, Response.bad] at hgood
        rw [hgood] at h2
        cases h2
      · rcases pre with _ | ⟨b, pre⟩
        · simp at h
        · simp at h
    · rcases pre with _ | ⟨a, pre⟩
      · simp only [List.nil_append, List.cons.injEq, Event.poll.injEq] at h
        obtain ⟨⟨_, hn, _, _, _⟩, hpost⟩ := h
        rw [← hpost, ← hn]
        exact hlater
      · simp only [List.cons_append, List.cons.injEq] at h
        exact ih pre post r n url k resp h.2 hgood hdep
    · rcases pre with _ | ⟨a, pre⟩
      · simp only [List.nil_append, List.cons.injEq, Event.poll.injEq] at h
        obtain ⟨⟨_, _, _, _, hresp⟩, _⟩ := h
        rw [← hresp] at hdep
        simp [hdep] at h3
      · rcases pre with _ | ⟨b, pre⟩
        · simp at h
        · simp only [List.cons_append, List.cons.injEq] at h
          exact ih pre post r n url k resp h.2.2 hgood hdep

/-- In a session, a request that is answered, without failure and with status
code 200, by the status `DEPLOYED` is followed by no request for the same
position, in that round or in any later one. -/
theorem pollRounds_deployed_last (responses : Responses) (key : String) :
    ∀ (remaining i : Nat) (hs : List opsLinkStatus) (pre post : List Event) (r n : Nat)
      (url k : String) (resp : Response),
      (pollRounds responses key remaining i hs).events = pre ++ Event.poll r n url k resp :: post →
      resp.bad = false → resp.Status = "DEPLOYED" → countPollsOf n post = 0
  | 0, _, _, pre, post, _, _, _, _, _ => fun h _ _ => by simp [pollRounds] at h
  | remaining + 1, i, hs, pre, post, r, n, url, k, resp => by
    intro h hgood hdep
    have hround := pollHandles_deployed_last responses key i hs 0
    cases h1 : (pollHandles responses key i 0 hs).aborted with
    | true =>
      rw [pollRounds_aborted responses key remaining i hs h1] at h
      exact hround pre post r n url k resp h hgood hdep
    | false =>
      cases h2 : allComplete (pollHandles responses key i 0 hs).handles with
      | true =>
        rw [pollRounds_succeeded responses key remaining i hs h1 h2] at h
        simp only at h
        rcases List.append_eq_append_iff.mp h with ⟨a, ha1, ha2⟩ | ⟨c, hc1, hc2⟩
        · rcases a with _ | ⟨x, a⟩
          · simp at ha2
          · simp at ha2
        · rcases c with _ | ⟨x, c⟩
          · simp at hc2
          · simp only [List.cons_append, List.cons.injEq] at hc2
            obtain ⟨hx, hpost⟩ := hc2
            subst hx
            rw [hpost, countPollsOf_append, hround pre c r n url k resp hc1 hgood hdep]
            rfl
      | false =>
        rw [pollRounds_next responses key remaining i hs h1 h2] at h
        simp only at h
        rcases List.append_eq_append_iff.mp h with ⟨a, ha1, ha2⟩ | ⟨c, hc1, hc2⟩
        · rcases a with _ | ⟨x, a⟩
          · simp at ha2
          · simp only [List.cons_append, List.cons.injEq] at ha2
            exact pollRounds_deployed_last responses key remaining (i + 1) _ a post r n url k resp
              ha2.2 hgood hdep
        · rcases c with _ | ⟨x, c⟩
          · simp at hc2
          · simp only [List.cons_append, List.cons.injEq] at hc2
            obtain ⟨hx, hpost⟩ := hc2
            subst hx
            have hmem : Event.poll r n url k resp ∈ (pollHandles responses key i 0 hs).events := by
              rw [hc1]
              simp
            have hr := (pollHandles_polls responses key i 0 hs r n url k resp hmem).1
            have hlt := pollHandles_polls_lt responses key i hs 0 r n url k resp hmem
            rw [Nat.zero_add] at hlt
            obtain ⟨w, hw1, _, _, _, hw5⟩ := pollHandles_handle responses key i 0 hs n hs[n]
              (List.getElem?_eq_getElem hlt)
            rw [Nat.zero_add] at hw5
            have hwc : w.Complete = true :=
              hw5.mpr (Or.inr ⟨url, k, resp, hr ▸ hmem, hgood, hdep⟩)
            have hnext := pollRounds_skips_complete responses key remaining (i + 1)
              (pollHandles responses key i 0 hs).handles n w hw1 hwc
            rw [hpost, countPollsOf_append, hround pre c r n url k resp hc1 hgood hdep]
            simpa [countPollsOf] using hnext

/-- In a round that goes through, a handle is polled once if it was pending at
the start of the round and not at all if it was complete. -/
theorem pollHandles_polls_once (responses : Responses) (key : String) (i : Nat) :
    ∀ (hs : List opsLinkStatus) (index n : Nat) (v : opsLinkStatus),
      (pollHandles responses key i index hs).aborted = false → hs[n]? = some v →
      countPollsOf (index + n) (pollHandles responses key i index hs).events
        = if v.Complete = true then 0 else 1
  | [], _, _, _ => fun _ hv => by simp at hv
  | h :: rest, index, n, v => by
    intro hgo hv
    by_cases hc : v.Complete = true
    · rw [if_pos hc]
      exact pollHandles_skips_complete responses key i (h :: rest) index n v hv hc
    · rw [if_neg hc]
      have hlater : countPollsOf index (pollHandles responses key i (index + 1) rest).events
          = 0 := by
        apply countPollsOf_eq_zero
        intro r j url k resp hm hj
        have := (pollHandles_polls responses key i _ rest r j url k resp hm).2.1
        omega
      cases n with
      | zero =>
        simp only [List.getElem?_cons_zero, Option.some.injEq] at hv
        subst hv
        rw [pollHandles] at hgo ⊢
        simp only [hc, Bool.false_eq_true, if_false] at hgo ⊢
        by_cases h2 : ((responses i index).err || (responses i index).StatusCode != 200) = true
        · simp only [h2, if_true] at hgo
          cases hgo
        · simp only [h2, Bool.false_eq_true, if_false] at hgo ⊢
          by_cases h3 : ((responses i index).Status == "DEPLOYED") = true
          · simp only [h3, if_true, countPollsOf_poll, Nat.add_zero, hlater]
          · simp only [h3, Bool.false_eq_true, if_false, countPollsOf_poll, countPollsOf_progress,
              Nat.add_zero, hlater, if_true]
      | succ m =>
        simp only [List.getElem?_cons_succ] at hv
        have ih := pollHandles_polls_once responses key i rest (index + 1) m v
        rw [if_neg hc] at ih
        have hidx : index + 1 + m = index + (m + 1) := by omega
        rw [hidx] at ih
        have hne : ¬ index = index + (m + 1) := by omega
        rw [pollHandles] at hgo ⊢
        by_cases h1 : h.Complete = true
        · simp only [h1, if_true] at hgo ⊢
          exact ih hgo hv
        · simp only [h1, Bool.false_eq_true, if_false] at hgo ⊢
          by_cases h2 : ((responses i index).err || (responses i index).StatusCode != 200) = true
          · simp only [h2, if_true] at hgo
            cases hgo
          · simp only [h2, Bool.false_eq_true, if_false] at hgo ⊢
            by_cases h3 : ((responses i index).Status == "DEPLOYED") = true
            · simp only [h3, if_true] at hgo ⊢
              simp only [countPollsOf_poll, if_neg hne, Nat.add_zero]
              exact ih hgo hv
            · simp only [h3, Bool.false_eq_true, if_false] at hgo ⊢
              simp only [countPollsOf_poll, countPollsOf_progress, if_neg hne, Nat.add_zero]
              exact ih hgo hv

/-! ## The claims on the deployment poller -/

/-- C13: in every session, whatever the handles and the answers, a status
request that fails or is answered with a status code other than 200 is
followed by the error message and by nothing else, so by no further request,
no pause and no success message; the success message is not emitted before it
either, and the session ends by that `return`. -/
theorem C13_failed_request_ends_session (responses : Responses) (functionId : String)
    (opsLink : List String) (key : String) (pre post : List Event) (i index : Nat)
    (url k : String) (r : Response)
    (hsplit : (checkIfDeployedSuccessfully responses functionId opsLink key).events
      = pre ++ Event.poll i index url k r :: post)
    (hbad : r.err = true ∨ r.StatusCode ≠ 200) :
    post = [Event.errorMessage] ∧
      Event.success ∉ (checkIfDeployedSuccessfully responses functionId opsLink key).events ∧
      (checkIfDeployedSuccessfully responses functionId opsLink key).ending = .aborted := by
  have hx : (Event.poll i index url k r).calm = false := by
    rcases hbad with h | h
    · simp [Event.calm, Response.bad, h]
    · simp [Event.calm, Response.bad, h]
  have hshape := pollRounds_shape responses key maxOpsLoops 1 (buildHandles functionId opsLink [])
  unfold checkIfDeployedSuccessfully at hsplit ⊢
  cases hend : (pollRounds responses key maxOpsLoops 1 (buildHandles functionId opsLink [])).ending with
  | aborted =>
    rw [hend] at hshape
    obtain ⟨pre2, i2, j2, url2, k2, r2, h3, h4, h5⟩ := hshape
    rw [h3] at hsplit
    obtain ⟨h6, h7, h8⟩ := split_before_last_two Event.calm pre pre2 post _ _ _ hsplit.symm h5 hx
      (by simp)
    refine ⟨h8, ?_, rfl⟩
    rw [h3]
    intro hmem
    rcases List.mem_append.mp hmem with hmem | hmem
    · have := h5 _ hmem
      simp [Event.calm] at this
    · simp at hmem
  | succeeded =>
    rw [hend] at hshape
    obtain ⟨pre2, h3, h5⟩ := hshape
    rw [h3] at hsplit
    obtain ⟨_, h7, _⟩ := split_before_last Event.calm pre pre2 post _ _ hsplit.symm h5 hx
    cases h7
  | exhausted =>
    rw [hend] at hshape
    have := hshape (Event.poll i index url k r) (by rw [hsplit]; simp)
    rw [hx] at this
    cases this

/-- Two handles, the second of which is answered with status code 500 in
round 1: the session ends with the error message right after that request. -/
theorem C13_failed_request_ends_session_witness :
    (checkIfDeployedSuccessfully
        (fun _ index => if index = 1 then ⟨false, 500, ""⟩ else ⟨false, 200, "BUILDING"⟩)
        "f" ["a", "b"] "k").events
      = [Event.poll 1 0 "https://api.jellyfaas.com/core-service/v1/upload/a/f" "k"
            ⟨false, 200, "BUILDING"⟩,
          Event.progress 1 10 "BUILDING"] ++
        Event.poll 1 1 "https://api.jellyfaas.com/core-service/v1/upload/b/f" "k" ⟨false, 500, ""⟩
          :: [Event.errorMessage] ∧
    ([Event.errorMessage] = [Event.errorMessage] ∧
      Event.success ∉ (checkIfDeployedSuccessfully
        (fun _ index => if index = 1 then ⟨false, 500, ""⟩ else ⟨false, 200, "BUILDING"⟩)
        "f" ["a", "b"] "k").events ∧
      (checkIfDeployedSuccessfully
        (fun _ index => if index = 1 then ⟨false, 500, ""⟩ else ⟨false, 200, "BUILDING"⟩)
        "f" ["a", "b"] "k").ending = .aborted) :=
  ⟨by decide,
    C13_failed_request_ends_session
      (fun _ index => if index = 1 then ⟨false, 500, ""⟩ else ⟨false, 200, "BUILDING"⟩)
      "f" ["a", "b"] "k"
      [Event.poll 1 0 "https://api.jellyfaas.com/core-service/v1/upload/a/f" "k"
          ⟨false, 200, "BUILDING"⟩,
        Event.progress 1 10 "BUILDING"]
      [Event.errorMessage] 1 1 "https://api.jellyfaas.com/core-service/v1/upload/b/f" "k"
      ⟨false, 500, ""⟩ (by decide) (Or.inr (by decide))⟩

/-- C14: when the request for a pending handle is answered without failure
and with status code 200, the handle becomes complete if and only if the
status in the answer is exactly `DEPLOYED`; with any other status it stays as
it was and the progress message is printed; either way the loop goes on with
the next handle. -/
theorem C14_complete_iff_status_deployed (responses : Responses) (key : String) (i index : Nat)
    (v : opsLinkStatus) (rest : List opsLinkStatus) (hpending : v.Complete = false)
    (herr : (responses i index).err = false) (hcode : (responses i index).StatusCode = 200) :
    pollHandles responses key i index (v :: rest) =
      { aborted := (pollHandles responses key i (index + 1) rest).aborted,
        handles :=
          { v with Complete := decide ((responses i index).Status = "DEPLOYED") } ::
            (pollHandles responses key i (index + 1) rest).handles,
        events :=
          Event.poll i index v.opsLink key (responses i index) ::
            ((if (responses i index).Status = "DEPLOYED" then []
              else [Event.progress i 10 (responses i index).Status]) ++
              (pollHandles responses key i (index + 1) rest).events) } := by
  rw [pollHandles]
  have hv : { v with Complete := false } = v := by
    cases v
    simp_all
  by_cases hdep : (responses i index).Status = "DEPLOYED"
  · simp [hpending, herr, hcode, hdep]
  · simp [hpending, herr, hcode, hdep, hv, maxOpsLoops]

/-- A pending handle answered with `deployed` in lower case stays pending. -/
theorem C14_complete_iff_status_deployed_witness :
    pollHandles (fun _ _ => ⟨false, 200, "deployed"⟩) "k" 1 0 [⟨false, "", "u", ""⟩]
      = { aborted := false, handles := [⟨false, "", "u", ""⟩],
          events := [Event.poll 1 0 "u" "k" ⟨false, 200, "deployed"⟩,
            Event.progress 1 10 "deployed"] } :=
  C14_complete_iff_status_deployed (fun _ _ => ⟨false, 200, "deployed"⟩) "k" 1 0
    ⟨false, "", "u", ""⟩ [] rfl rfl rfl

/-- C15: a round that goes through and leaves every handle complete ends the
session at once: the success message follows the requests of the round, with
no pause and no further request, whatever the round and however many rounds
remain.  In particular, with three handles that are all answered `DEPLOYED`
in round 1 the session consists of three requests and the success message:
one round, no pause. -/
theorem C15_all_complete_ends_session (responses : Responses) (key : String) (remaining i : Nat)
    (hs : List opsLinkStatus) (hgo : (pollHandles responses key i 0 hs).aborted = false)
    (hall : ∀ v ∈ (pollHandles responses key i 0 hs).handles, v.Complete = true) :
    pollRounds responses key (remaining + 1) i hs =
        { events := (pollHandles responses key i 0 hs).events ++ [Event.success],
          handles := (pollHandles responses key i 0 hs).handles, rounds := 1,
          ending := .succeeded } ∧
      countSleeps (pollRounds responses key (remaining + 1) i hs).events = 0 ∧
      ∀ (answers : Responses) (functionId a b c k : String),
        (∀ index, index < 3 → answers 1 index = ⟨false, 200, "DEPLOYED"⟩) →
        (checkIfDeployedSuccessfully answers functionId [a, b, c] k).events =
            [Event.poll 1 0 (p48CoreService ++ "/upload/" ++ a ++ "/" ++ functionId) k
                ⟨false, 200, "DEPLOYED"⟩,
              Event.poll 1 1 (p48CoreService ++ "/upload/" ++ b ++ "/" ++ functionId) k
                ⟨false, 200, "DEPLOYED"⟩,
              Event.poll 1 2 (p48CoreService ++ "/upload/" ++ c ++ "/" ++ functionId) k
                ⟨false, 200, "DEPLOYED"⟩,
              Event.success] ∧
          (checkIfDeployedSuccessfully answers functionId [a, b, c] k).rounds = 1 := by
  have hall2 : allComplete (pollHandles responses key i 0 hs).handles = true := by
    rw [allComplete_eq_all, List.all_eq_true]
    exact hall
  have heq := pollRounds_succeeded responses key remaining i hs hgo hall2
  refine ⟨heq, ?_, ?_⟩
  · rw [heq]
    have := pollHandles_no_sleep responses key i 0 hs
    simpa [countSleeps, List.countP_append] using this
  · intro answers functionId a b c k hanswers
    have h0 := hanswers 0 (by omega)
    have h1 := hanswers 1 (by omega)
    have h2 := hanswers 2 (by omega)
    simp [checkIfDeployedSuccessfully, buildHandles, maxOpsLoops, pollRounds, pollHandles, h0,
      h1, h2, allComplete]

/-- One handle answered `DEPLOYED` in round 1. -/
theorem C15_all_complete_ends_session_witness :
    (checkIfDeployedSuccessfully (fun _ _ => ⟨false, 200, "DEPLOYED"⟩) "f" ["a"] "k")
      = { events := [Event.poll 1 0 "https://api.jellyfaas.com/core-service/v1/upload/a/f" "k"
            ⟨false, 200, "DEPLOYED"⟩, Event.success],
          handles := [⟨true, "", "https://api.jellyfaas.com/core-service/v1/upload/a/f", ""⟩],
          rounds := 1, ending := .succeeded } :=
  (C15_all_complete_ends_session (fun _ _ => ⟨false, 200, "DEPLOYED"⟩) "k" 9 1
    (buildHandles "f" ["a"] []) (by decide) (by decide)).1

/-- C16: when every request is answered without failure and with status code
200 and the status of one handle is never `DEPLOYED`, the session runs
through exactly 10 rounds, polls that handle exactly 10 times, and ends by
leaving the loop, having printed neither the success message nor the error
message. -/
theorem C16_never_deployed_runs_ten_rounds (responses : Responses) (functionId : String)
    (opsLink : List String) (key : String)
    (hgood : ∀ r j, (responses r j).err = false ∧ (responses r j).StatusCode = 200)
    (n : Nat) (hn : n < opsLink.length) (hnever : ∀ r, (responses r n).Status ≠ "DEPLOYED") :
    (checkIfDeployedSuccessfully responses functionId opsLink key).rounds = 10 ∧
      countPollsOf n (checkIfDeployedSuccessfully responses functionId opsLink key).events = 10 ∧
      Event.success ∉ (checkIfDeployedSuccessfully responses functionId opsLink key).events ∧
      Event.errorMessage ∉ (checkIfDeployedSuccessfully responses functionId opsLink key).events ∧
      (checkIfDeployedSuccessfully responses functionId opsLink key).ending = .exhausted := by
  have hbuilt := buildHandles_eq functionId opsLink []
  simp only [List.nil_append] at hbuilt
  have hv : (buildHandles functionId opsLink [])[n]? =
      some { Complete := false, opsUrl := "",
             opsLink := p48CoreService ++ "/upload/" ++ opsLink[n] ++ "/" ++ functionId,
             functionId := "" } := by
    rw [hbuilt, List.getElem?_map, List.getElem?_eq_getElem hn]
    rfl
  have hgood2 : ∀ r j, (responses r j).bad = false := by
    intro r j
    simp [Response.bad, (hgood r j).1, (hgood r j).2]
  obtain ⟨h1, h2, h3⟩ := pollRounds_never_deployed responses key maxOpsLoops 1
    (buildHandles functionId opsLink []) hgood2 n _ hv rfl hnever
  have hshape := pollRounds_shape responses key maxOpsLoops 1 (buildHandles functionId opsLink [])
  rw [h3] at hshape
  refine ⟨h1, h2, ?_, ?_, h3⟩
  · intro hmem
    have := hshape _ hmem
    cases this
  · intro hmem
    have := hshape _ hmem
    cases this

/-- One handle whose status is `BUILDING` in every answer. -/
theorem C16_never_deployed_runs_ten_rounds_witness :
    (checkIfDeployedSuccessfully (fun _ _ => ⟨false, 200, "BUILDING"⟩) "f" ["a"] "k").rounds = 10 ∧
      countPollsOf 0
        (checkIfDeployedSuccessfully (fun _ _ => ⟨false, 200, "BUILDING"⟩) "f" ["a"] "k").events
        = 10 ∧
      Event.success ∉
        (checkIfDeployedSuccessfully (fun _ _ => ⟨false, 200, "BUILDING"⟩) "f" ["a"] "k").events ∧
      Event.errorMessage ∉
        (checkIfDeployedSuccessfully (fun _ _ => ⟨false, 200, "BUILDING"⟩) "f" ["a"] "k").events ∧
      (checkIfDeployedSuccessfully (fun _ _ => ⟨false, 200, "BUILDING"⟩) "f" ["a"] "k").ending
        = .exhausted :=
  C16_never_deployed_runs_ten_rounds (fun _ _ => ⟨false, 200, "BUILDING"⟩) "f" ["a"] "k"
    (fun _ _ => ⟨rfl, rfl⟩) 0 (by decide) (fun _ => (by decide : "BUILDING" ≠ "DEPLOYED"))

/-- C17: with one handle whose status is `BUILDING` in every answer the
session runs through its 10 rounds and pauses 10 times, not 9: the pause
follows every round that leaves a handle pending, the 10th included, so the
last thing the session does is to pause for 30 seconds. -/
theorem C17_pause_after_last_round :
    (checkIfDeployedSuccessfully (fun _ _ => ⟨false, 200, "BUILDING"⟩) "f" ["a"] "k").rounds = 10 ∧
      countSleeps
        (checkIfDeployedSuccessfully (fun _ _ => ⟨false, 200, "BUILDING"⟩) "f" ["a"] "k").events
        = 10 ∧
      (checkIfDeployedSuccessfully (fun _ _ => ⟨false, 200, "BUILDING"⟩) "f" ["a"] "k").events.getLast?
        = some (Event.sleep 30) ∧
      (checkIfDeployedSuccessfully (fun _ _ => ⟨false, 200, "BUILDING"⟩) "f" ["a"] "k").ending
        = .exhausted := by
  decide

/-- C18: for every function id and every list of operation ids the handle
list has one handle per operation id, in the same order, every handle with
`Complete` false and with the polling URL made of the core-service base,
`/upload/`, the operation id, `/` and the function id, and the session starts
from that list. -/
theorem C18_handles_built_from_operation_ids (functionId : String) (opsLink : List String) :
    buildHandles functionId opsLink [] =
        opsLink.map (fun v =>
          { Complete := false, opsUrl := "",
            opsLink := "https://api.jellyfaas.com/core-service/v1" ++ "/upload/" ++ v ++ "/"
              ++ functionId,
            functionId := "" }) ∧
      (buildHandles functionId opsLink []).length = opsLink.length ∧
      (∀ n : Nat,
        (buildHandles functionId opsLink [])[n]?
          = opsLink[n]?.map (fun v =>
              { Complete := false, opsUrl := "",
                opsLink := p48CoreService ++ "/upload/" ++ v ++ "/" ++ functionId,
                functionId := "" })) ∧
      (∀ (responses : Responses) (key : String),
        checkIfDeployedSuccessfully responses functionId opsLink key =
          pollRounds responses key 10 1 (buildHandles functionId opsLink [])) := by
  have h := buildHandles_eq functionId opsLink []
  simp only [List.nil_append] at h
  refine ⟨h, by simp [h], ?_, fun _ _ => rfl⟩
  intro n
  rw [h, List.getElem?_map]

/-- C19: for every list of operation ids and whatever the answers, the
session (a total function of them: it always ends) begins at most 10 rounds,
polls a handle at most once in a round, so at most 10 times in all, and makes
at most 10 requests per handle in total. -/
theorem C19_at_most_ten_rounds (responses : Responses) (functionId : String)
    (opsLink : List String) (key : String) :
    (checkIfDeployedSuccessfully responses functionId opsLink key).rounds ≤ 10 ∧
      (∀ r j, countPollsIn r j
        (checkIfDeployedSuccessfully responses functionId opsLink key).events ≤ 1) ∧
      (∀ j, countPollsOf j
        (checkIfDeployedSuccessfully responses functionId opsLink key).events ≤ 10) ∧
      countPolls (checkIfDeployedSuccessfully responses functionId opsLink key).events
        ≤ 10 * opsLink.length := by
  obtain ⟨h1, h2, h3, h4⟩ := pollRounds_counts responses key maxOpsLoops 1
    (buildHandles functionId opsLink [])
  have hlen : (buildHandles functionId opsLink []).length = opsLink.length := by
    simp [buildHandles_eq]
  rw [hlen] at h2
  exact ⟨h1, h4, h3, h2⟩

/-- C22: in the course of every session, from the handle list as built to the
list as the session leaves it, every state of the list keeps every earlier
one: the same number of handles, each at its place with its polling URL and
its other fields, and a handle that was complete is complete; in particular
every state has one handle per operation id, with the polling URLs the
handles were built with. -/
theorem C22_handles_fixed_and_complete_for_good (responses : Responses) (functionId : String)
    (opsLink : List String) (key : String) :
    (sessionStates responses functionId opsLink key).Pairwise keeps ∧
      (sessionStates responses functionId opsLink key).head?
        = some (buildHandles functionId opsLink []) ∧
      (sessionStates responses functionId opsLink key).getLast?
        = some (checkIfDeployedSuccessfully responses functionId opsLink key).handles ∧
      ∀ s ∈ sessionStates responses functionId opsLink key,
        s.length = opsLink.length ∧
          s.map (fun v => v.opsLink)
            = opsLink.map (fun v => p48CoreService ++ "/upload/" ++ v ++ "/" ++ functionId) := by
  have hchain := pollRoundsStates_chain responses key maxOpsLoops 1
    (buildHandles functionId opsLink [])
  haveI : IsTrans (List opsLinkStatus) keeps := ⟨keeps_trans⟩
  have hpair : (sessionStates responses functionId opsLink key).Pairwise keeps :=
    List.Chain.pairwise hchain.1
  have hbuilt := buildHandles_eq functionId opsLink []
  simp only [List.nil_append] at hbuilt
  refine ⟨hpair, rfl, ?_, ?_⟩
  · unfold sessionStates checkIfDeployedSuccessfully
    rw [← hchain.2, List.getLast?_cons, List.getLastD_eq_getLast?]
  · intro s hs
    have hk : keeps (buildHandles functionId opsLink []) s := by
      unfold sessionStates at hs hpair
      rcases List.mem_cons.mp hs with h | h
      · rw [h]
        exact keeps_refl _
      · exact (List.pairwise_cons.mp hpair).1 s h
    obtain ⟨h1, h2⟩ := keeps_links _ _ hk
    rw [h1, h2, hbuilt]
    simp [Function.comp_def]

/-- One handle that is answered `BUILDING` in round 1 and `DEPLOYED` in round
2: the list is pending after round 1 and complete after round 2. -/
theorem C22_handles_fixed_and_complete_for_good_witness :
    sessionStates (fun i _ => if i = 1 then ⟨false, 200, "BUILDING"⟩ else ⟨false, 200, "DEPLOYED"⟩)
        "f" ["a"] "k"
      = [[⟨false, "", "https://api.jellyfaas.com/core-service/v1/upload/a/f", ""⟩],
         [⟨false, "", "https://api.jellyfaas.com/core-service/v1/upload/a/f", ""⟩],
         [⟨true, "", "https://api.jellyfaas.com/core-service/v1/upload/a/f", ""⟩]] ∧
    (sessionStates (fun i _ => if i = 1 then ⟨false, 200, "BUILDING"⟩ else ⟨false, 200, "DEPLOYED"⟩)
        "f" ["a"] "k").Pairwise keeps :=
  ⟨by decide,
    (C22_handles_fixed_and_complete_for_good
      (fun i _ => if i = 1 then ⟨false, 200, "BUILDING"⟩ else ⟨false, 200, "DEPLOYED"⟩)
      "f" ["a"] "k").1⟩

/-- C23: in a round that is not cut short by a failing request, the status
requests are exactly those for the handles that were not complete at the start
of the round, in the order of the list, made in that round with the key; a
pending handle is polled once and a complete one not at all.  And in every
session a request that is answered, without failure and with status code 200,
by the status `DEPLOYED` is followed by no request for the same handle, in that
round or in a later one. -/
theorem C23_round_polls_pending_handles_in_order (responses : Responses) (key : String)
    (i : Nat) (hs : List opsLinkStatus)
    (hgo : (pollHandles responses key i 0 hs).aborted = false) :
    (pollHandles responses key i 0 hs).events.filter Event.isPoll =
        (pending 0 hs).map (fun p => Event.poll i p.1 p.2 key (responses i p.1)) ∧
      (∀ (n : Nat) (v : opsLinkStatus), hs[n]? = some v →
        countPollsOf n (pollHandles responses key i 0 hs).events
          = if v.Complete = true then 0 else 1) ∧
      ∀ (functionId : String) (opsLink : List String) (pre post : List Event) (r n : Nat)
        (url k : String) (resp : Response),
        (checkIfDeployedSuccessfully responses functionId opsLink key).events
          = pre ++ Event.poll r n url k resp :: post →
        resp.err = false → resp.StatusCode = 200 → resp.Status = "DEPLOYED" →
        countPollsOf n post = 0 := by
  refine ⟨pollHandles_requests responses key i hs 0 hgo, ?_, ?_⟩
  · intro n v hv
    have := pollHandles_polls_once responses key i hs 0 n v hgo hv
    rwa [Nat.zero_add] at this
  · intro functionId opsLink pre post r n url k resp h herr hcode hdep
    exact pollRounds_deployed_last responses key maxOpsLoops 1 _ pre post r n url k resp h
      (by simp [Response.bad, herr, hcode]) hdep

/-- A round over three handles of which the first is complete: the second and
the third are polled, in that order. -/
theorem C23_round_polls_pending_handles_in_order_witness :
    (pollHandles (fun _ _ => ⟨false, 200, "BUILDING"⟩) "k" 4 0
        [⟨true, "", "u0", ""⟩, ⟨false, "", "u1", ""⟩, ⟨false, "", "u2", ""⟩]).events.filter
        Event.isPoll
      = [Event.poll 4 1 "u1" "k" ⟨false, 200, "BUILDING"⟩,
         Event.poll 4 2 "u2" "k" ⟨false, 200, "BUILDING"⟩] :=
  (C23_round_polls_pending_handles_in_order (fun _ _ => ⟨false, 200, "BUILDING"⟩) "k" 4
    [⟨true, "", "u0", ""⟩, ⟨false, "", "u1", ""⟩, ⟨false, "", "u2", ""⟩] (by decide)).1

/-- C25: with an empty list of operation ids the session builds no handle,
finds `allComplete` true in its first round and ends there with the success
message: no status request, no pause, one round. -/
theorem C25_empty_list_succeeds_at_once (responses : Responses) (functionId key : String) :
    buildHandles functionId [] [] = [] ∧
      allComplete [] = true ∧
      checkIfDeployedSuccessfully responses functionId [] key =
        { events := [Event.success], handles := [], rounds := 1, ending := .succeeded } ∧
      countPolls (checkIfDeployedSuccessfully responses functionId [] key).events = 0 ∧
      countSleeps (checkIfDeployedSuccessfully responses functionId [] key).events = 0 :=
  ⟨rfl, rfl, rfl, rfl, rfl⟩

end cmd
